import Mathlib

/-!
# Verification of `scripts/stream_scryfall_blocks.py`

Shallow embedding of the streaming Scryfall-card exporter:

* `parseStep` / `rawDecodeL` — model of the Python stdlib `json.JSONDecoder.raw_decode`
  value decoder (the script's `decoder.raw_decode(buf)`).  Modelled from the spec:
  the Python `json` module is external "provided primitive" code, so this definition
  follows CPython's `json/scanner.py` + `json/decoder.py` grammar (objects, arrays,
  strings with escapes, numbers per the `NUMBER_RE` regex, `null/true/false`,
  `NaN`, `Infinity`, `-Infinity`), decoding one value from the front of the buffer and
  reporting how many characters it consumed.  Numbers are kept as their lexemes,
  `\uXXXX` escapes become single characters (no surrogate pairing), and
  alphabetic/lower-case tests are ASCII; none of these points is exercised by the
  claims.  The decoder is structurally recursive on a fuel argument that is, by
  `parseStep_fuel_tight` below, always sufficient at the fuel chosen in `rawDecodeL`.
* `streamRun` / `iter_json_array` — the incremental array streamer (`iter_json_array`).
* `pick_field`, `is_non_playable`, `build_block`, `main_output` — the classifier,
  renderer and pipeline.
-/

/-- A decoded JSON value (the result of `json.JSONDecoder.raw_decode`).  Number
tokens (including `NaN`/`Infinity`/`-Infinity`) are kept as their lexemes. -/
inductive Jv where
  | null : Jv
  | bool (b : Bool) : Jv
  | num (lexeme : String) : Jv
  | str (s : String) : Jv
  | arr (elems : List Jv) : Jv
  | obj (pairs : List (String × Jv)) : Jv
deriving Repr

/-- Whether a decoded value is a bare number token. -/
def Jv.isNum : Jv → Bool
  | .num _ => true
  | _ => false

/-- JSON inter-token whitespace, per `json.decoder.WHITESPACE_STR` (space, tab,
linefeed, carriage return). -/
def jsonWsB (c : Char) : Bool :=
  c = ' ' || c = '\t' || c = '\n' || c = '\r'

/-- The whitespace stripped by Python's `str.lstrip()` / `str.strip()`
(`str.isspace` characters; the JSON whitespace set is a subset). -/
def pyWsB (c : Char) : Bool :=
  let n := c.toNat
  (9 <= n && n <= 13) || n = 32 || (28 <= n && n <= 31) || n = 133 || n = 160 ||
  n = 5760 || (8192 <= n && n <= 8202) || n = 8232 || n = 8233 || n = 8239 ||
  n = 8287 || n = 12288

/-- Number of leading JSON-whitespace characters (the `_w(s, idx).end()` skips). -/
def wsCount (l : List Char) : Nat := (l.takeWhile jsonWsB).length

/-- Value of one hexadecimal digit, if any. -/
def hexDigitVal (c : Char) : Option Nat :=
  let n := c.toNat
  if 48 ≤ n && n ≤ 57 then some (n - 48)
  else if 97 ≤ n && n ≤ 102 then some (n - 97 + 10)
  else if 65 ≤ n && n ≤ 70 then some (n - 65 + 10)
  else none

/-- Value of a four-hex-digit escape, if all four digits are hexadecimal. -/
def hexQuad (a b c d : Char) : Option Nat :=
  match hexDigitVal a, hexDigitVal b, hexDigitVal c, hexDigitVal d with
  | some va, some vb, some vc, some vd => some (((va * 16 + vb) * 16 + vc) * 16 + vd)
  | _, _, _, _ => none

/-- The single-character escapes of `json.decoder.BACKSLASH`. -/
def escChar (c : Char) : Option Char :=
  if c = '"' then some '"'
  else if c = '\\' then some '\\'
  else if c = '/' then some '/'
  else if c = 'b' then some '\x08'
  else if c = 'f' then some '\x0c'
  else if c = 'n' then some '\n'
  else if c = 'r' then some '\r'
  else if c = 't' then some '\t'
  else none

/-- Scan a JSON string body (input starts just after the opening quote), per
`json.decoder.py_scanstring` with `strict=True`: raw control characters are
rejected, escapes are decoded, and the count of consumed characters (closing
quote included) is returned. -/
def scanString : List Char → List Char → Option (String × Nat)
  | [], _ => none
  | '"' :: _, acc => some (String.mk acc.reverse, 1)
  | '\\' :: 'u' :: h1 :: h2 :: h3 :: h4 :: rest, acc =>
    match hexQuad h1 h2 h3 h4 with
    | some n => (scanString rest (Char.ofNat n :: acc)).map (fun p => (p.1, p.2 + 6))
    | none => none
  | '\\' :: e :: rest, acc =>
    match escChar e with
    | some ch => (scanString rest (ch :: acc)).map (fun p => (p.1, p.2 + 2))
    | none => none
  | '\\' :: [], _ => none
  | c :: rest, acc =>
    if c.toNat < 32 then none
    else (scanString rest (c :: acc)).map (fun p => (p.1, p.2 + 1))

/-- Length of the leading run of ASCII digits. -/
def digitSpan (l : List Char) : Nat := (l.takeWhile Char.isDigit).length

/-- Length of the optional leading minus sign of `json.scanner.NUMBER_RE`. -/
def numSignLen (l : List Char) : Nat := if l[0]? = some '-' then 1 else 0

/-- End position of the integer group `(0|[1-9]\d*)` of the number regex: a
leading `0` matches alone, any other digit takes the whole digit run. -/
def numIntEnd (l : List Char) : Nat :=
  if l[numSignLen l]? = some '0' then numSignLen l + 1
  else numSignLen l + digitSpan (l.drop (numSignLen l))

/-- End position after the optional fraction group `(\.\d+)?`: a dot followed
by at least one digit extends the match, anything else leaves it. -/
def numFracEnd (l : List Char) : Nat :=
  if l[numIntEnd l]? = some '.' then
    if digitSpan (l.drop (numIntEnd l + 1)) = 0 then numIntEnd l
    else numIntEnd l + 1 + digitSpan (l.drop (numIntEnd l + 1))
  else numIntEnd l

/-- Length of the optional exponent sign (read just after the `e`/`E`). -/
def numExpSg (l : List Char) : Nat :=
  match l[numFracEnd l + 1]? with
  | some c2 => if c2 = '+' || c2 = '-' then 1 else 0
  | none => 0

/-- End position after the optional exponent group `([eE][-+]?\d+)?`. -/
def numExpEnd (l : List Char) : Nat :=
  match l[numFracEnd l]? with
  | some c =>
    if c = 'e' || c = 'E' then
      if digitSpan (l.drop (numFracEnd l + 1 + numExpSg l)) = 0 then numFracEnd l
      else numFracEnd l + 1 + numExpSg l + digitSpan (l.drop (numFracEnd l + 1 + numExpSg l))
    else numFracEnd l
  | none => numFracEnd l

/-- Match `json.scanner.NUMBER_RE` (`-?(0|[1-9]\d*)(\.\d+)?([eE][-+]?\d+)?`) at
the front of the input, returning the matched lexeme and its length; `none`
when the mandatory integer part is missing. -/
def parseNum (l : List Char) : Option (String × Nat) :=
  if digitSpan (l.drop (numSignLen l)) = 0 then none
  else some (String.mk (l.take (numExpEnd l)), numExpEnd l)

/-- Does the literal `pat` occur at the front of the input (Python's
`string[idx:idx+n] == pat` checks)? -/
def litHere (l : List Char) (pat : List Char) : Bool := pat.isPrefixOf l

/-- The recursion states of the CPython decoder: a value (`scan_once`), the inside
of an array right after `[` or right after an element, the inside of an object
right after `{` or after a member, and a position expecting a `"`-opened key. -/
inductive PMode where
  | val : PMode
  | arrFirst : PMode
  | arrAfter : PMode
  | objFirst : PMode
  | objAfter : PMode
  | objPair : PMode
deriving Repr, DecidableEq

/-- One recursive step family of the CPython JSON decoder, structurally recursive
on fuel.  `arrFirst`/`arrAfter` return `Jv.arr` of the remaining elements,
`objFirst`/`objAfter`/`objPair` return `Jv.obj` of the remaining members; the
`Nat` is the count of consumed characters.  Fuel exhaustion returns `none`; by
`parseStep_fuel_tight` a successful parse consuming `n` characters needs at most
`2 * n` fuel, so the wrapper `rawDecodeL` below never hits the cutoff. -/
def parseStep : Nat → PMode → List Char → Option (Jv × Nat)
  | 0, _, _ => none
  | fuel + 1, PMode.val, l =>
    match l.head? with
    | none => none
    | some c =>
      if c = '"' then
        match scanString (l.drop 1) [] with
        | some (s, n) => some (Jv.str s, 1 + n)
        | none => none
      else if c = '{' then
        match parseStep fuel PMode.objFirst (l.drop 1) with
        | some (r, n) => some (r, 1 + n)
        | none => none
      else if c = '[' then
        match parseStep fuel PMode.arrFirst (l.drop 1) with
        | some (r, n) => some (r, 1 + n)
        | none => none
      else if litHere l ['n', 'u', 'l', 'l'] then some (Jv.null, 4)
      else if litHere l ['t', 'r', 'u', 'e'] then some (Jv.bool true, 4)
      else if litHere l ['f', 'a', 'l', 's', 'e'] then some (Jv.bool false, 5)
      else
        match parseNum l with
        | some (lex, n) => some (Jv.num lex, n)
        | none =>
          if litHere l ['N', 'a', 'N'] then some (Jv.num "NaN", 3)
          else if litHere l ['I', 'n', 'f', 'i', 'n', 'i', 't', 'y'] then
            some (Jv.num "Infinity", 8)
          else if litHere l ['-', 'I', 'n', 'f', 'i', 'n', 'i', 't', 'y'] then
            some (Jv.num "-Infinity", 9)
          else none
  | fuel + 1, PMode.arrFirst, l =>
    let j := wsCount l
    match (l.drop j).head? with
    | some ']' => some (Jv.arr [], j + 1)
    | _ =>
      match parseStep fuel PMode.val (l.drop j) with
      | some (v, n1) =>
        match parseStep fuel PMode.arrAfter (l.drop (j + n1)) with
        | some (Jv.arr vs, n2) => some (Jv.arr (v :: vs), j + n1 + n2)
        | _ => none
      | none => none
  | fuel + 1, PMode.arrAfter, l =>
    let j := wsCount l
    match (l.drop j).head? with
    | some ']' => some (Jv.arr [], j + 1)
    | some ',' =>
      let j2 := j + 1 + wsCount (l.drop (j + 1))
      match parseStep fuel PMode.val (l.drop j2) with
      | some (v, n1) =>
        match parseStep fuel PMode.arrAfter (l.drop (j2 + n1)) with
        | some (Jv.arr vs, n2) => some (Jv.arr (v :: vs), j2 + n1 + n2)
        | _ => none
      | none => none
    | _ => none
  | fuel + 1, PMode.objFirst, l =>
    let j := wsCount l
    match (l.drop j).head? with
    | some '}' => some (Jv.obj [], j + 1)
    | _ =>
      match parseStep fuel PMode.objPair (l.drop j) with
      | some (r, n) => some (r, j + n)
      | none => none
  | fuel + 1, PMode.objAfter, l =>
    let j := wsCount l
    match (l.drop j).head? with
    | some '}' => some (Jv.obj [], j + 1)
    | some ',' =>
      let j2 := j + 1 + wsCount (l.drop (j + 1))
      match parseStep fuel PMode.objPair (l.drop j2) with
      | some (r, n) => some (r, j2 + n)
      | none => none
    | _ => none
  | fuel + 1, PMode.objPair, l =>
    match l.head? with
    | some '"' =>
      match scanString (l.drop 1) [] with
      | some (key, nK) =>
        let j1 := 1 + nK + wsCount (l.drop (1 + nK))
        match (l.drop j1).head? with
        | some ':' =>
          let j2 := j1 + 1 + wsCount (l.drop (j1 + 1))
          match parseStep fuel PMode.val (l.drop j2) with
          | some (v, nV) =>
            match parseStep fuel PMode.objAfter (l.drop (j2 + nV)) with
            | some (Jv.obj ps, n2) => some (Jv.obj ((key, v) :: ps), j2 + nV + n2)
            | _ => none
          | none => none
        | _ => none
      | none => none
    | _ => none

/-- Model of `json.JSONDecoder().raw_decode(buf)`: decode one JSON value from the
front of the buffer, reporting the consumed length; `none` is the
`json.JSONDecodeError` outcome.  The fuel `2 * length + 2` is always sufficient
(`rawDecodeL_complete` below), so this is total-faithful to the Python call. -/
def rawDecodeL (l : List Char) : Option (Jv × Nat) :=
  parseStep (2 * l.length + 2) PMode.val l

/-- Model of `json.loads`: skip leading whitespace, decode one value, and require
only whitespace after it. -/
def jsonLoads (l : List Char) : Option Jv :=
  let l1 := l.drop (wsCount l)
  match rawDecodeL l1 with
  | some (v, n) => if (l1.drop n).all jsonWsB then some v else none
  | none => none

/-- Decoding the whole text at once as a JSON array (the whole-file baseline the
streaming decoder is compared against). -/
def decodeWholeList (l : List Char) : Option (List Jv) :=
  match jsonLoads l with
  | some (Jv.arr vs) => some vs
  | _ => none

/-! ## The streaming array decoder (`iter_json_array`) -/

/-- How a run of `iter_json_array` ends: at a closing `]` (`return` after
`buf.startswith("]")`), or because the source was exhausted (`return` after an
empty `f.read`).  The generator catches every `json.JSONDecodeError`, so these
are the only two ways it can stop. -/
inductive Outcome where
  | closed : Outcome
  | exhausted : Outcome
deriving Repr, DecidableEq

/-- Python `buf.lstrip()`. -/
def pyLstrip (l : List Char) : List Char := l.dropWhile pyWsB

/-- The inner/outer loop of `iter_json_array` after the opening bracket: strip
whitespace, stop at `]`, drop a separator comma, otherwise try `raw_decode`;
on failure append the next chunk (returning silently if the read comes back
empty), on success yield the value and continue on the rest of the buffer.
Structurally recursive on fuel; every step strictly decreases
`buf.length + 2 * (total chunk length) + 2 * (chunk count) + 1`, so the entry
fuel used by `streamChunks` never runs out (fuel exhaustion returns the
`exhausted` outcome, which is unreachable there). -/
def streamRun : Nat → List Char → List (List Char) → List Jv × Outcome
  | 0, _, _ => ([], Outcome.exhausted)
  | fuel + 1, buf, chunks =>
    let b := pyLstrip buf
    match b.head? with
    | none =>
      match chunks with
      | [] => ([], Outcome.exhausted)
      | c :: cs =>
        if c.isEmpty then ([], Outcome.exhausted) else streamRun fuel c cs
    | some ch =>
      if ch = ']' then ([], Outcome.closed)
      else if ch = ',' then streamRun fuel (b.drop 1) chunks
      else
        match rawDecodeL b with
        | some (v, n) =>
          let r := streamRun fuel (b.drop n) chunks
          (v :: r.1, r.2)
        | none =>
          match chunks with
          | [] => ([], Outcome.exhausted)
          | c :: cs =>
            if c.isEmpty then ([], Outcome.exhausted) else streamRun fuel (b ++ c) cs

/-- Total length of a chunk list. -/
def totalLen (chunks : List (List Char)) : Nat := (chunks.map List.length).sum

/-- Run the streaming loop of `iter_json_array` on the text after the opening
bracket, delivered as the given sequence of reads. -/
def streamChunks (chunks : List (List Char)) : List Jv × Outcome :=
  streamRun (2 * totalLen chunks + 2 * chunks.length + 2) [] chunks

/-- The pre-bracket scan of `iter_json_array`: read characters one at a time
until `[` (whitespace is skipped explicitly and any other character falls
through the loop, so every character before the first `[` is skipped); `none`
models the silent `return` at end of file. -/
def findStart : List Char → Option (List Char)
  | [] => none
  | c :: rest => if c = '[' then some rest else findStart rest

/-- The chunk size of the `f.read(65536)` calls. -/
def READ_SIZE : Nat := 65536

/-- Split a list into chunks of `k` characters, as successive `f.read(k)` calls
deliver it.  Structural on a length-derived fuel (one chunk per step). -/
def chunksOfAux (k : Nat) : Nat → List Char → List (List Char)
  | _, [] => []
  | 0, _ :: _ => []
  | f + 1, c :: rest => ((c :: rest).take k) :: chunksOfAux k f ((c :: rest).drop k)

/-- Split a list into chunks of `k` characters. -/
def chunksOf (k : Nat) (l : List Char) : List (List Char) := chunksOfAux k l.length l

/-- Model of `iter_json_array(path)` on a source whose full text is `l`: find the
opening bracket, then stream the remainder in `READ_SIZE` chunks, returning the
yielded values and how the generator stopped. -/
def iter_json_array (l : List Char) : List Jv × Outcome :=
  match findStart l with
  | none => ([], Outcome.exhausted)
  | some rest => streamChunks (chunksOf READ_SIZE rest)

/-! ## Records, classifier, renderer, pipeline -/

/-- One entry of `card_faces` (`FaceRecord`): the display-relevant attributes the
script reads from a face.  `none` models both an absent key and a JSON `null`
(Python's `dict.get` returns `None` for both). -/
structure Face where
  name : Option String := none
  mana_cost : Option String := none
  type_line : Option String := none
  oracle_text : Option String := none
  power : Option String := none
  toughness : Option String := none
  loyalty : Option String := none
  defense : Option String := none
deriving Repr, DecidableEq

/-- A decoded card object (`CardRecord`): exactly the attributes the script
reads.  `none` models an absent key or a JSON `null`. -/
structure Card where
  name : Option String := none
  mana_cost : Option String := none
  type_line : Option String := none
  oracle_text : Option String := none
  power : Option String := none
  toughness : Option String := none
  loyalty : Option String := none
  defense : Option String := none
  border_color : Option String := none
  has_acorn : Bool := false
  legalities : Option (List (String × String)) := none
  layout : Option String := none
  card_faces : List Face := []
deriving Repr, DecidableEq

/-- Python's string truthiness for an optional string (`None` and `""` are
falsy). -/
def isTruthy : Option String → Bool
  | some s => s ≠ ""
  | none => false

/-- Python's `x or y` on optional strings: `x` if truthy, else `y`. -/
def pyOrOpt (a b : Option String) : Option String :=
  match a with
  | some s => if s = "" then b else some s
  | none => b

/-- Python `s.lower()` (ASCII model). -/
def pyLower (s : String) : String := String.mk (s.toList.map Char.toLower)

/-- Python `s.strip()`: drop `str.isspace` characters from both ends. -/
def pyStrip (s : String) : String :=
  String.mk (((s.toList.dropWhile pyWsB).reverse.dropWhile pyWsB).reverse)

/-- Python's substring test `pat in hay`. -/
def containsSub (hay pat : String) : Bool :=
  hay.toList.tails.any (fun t => pat.toList.isPrefixOf t)

/-- Python `hay.find(pat, start)`: the least index `i ≥ start` at which `pat`
occurs in `hay` (`none` models `-1`). -/
def pyFindFrom (hay pat : List Char) (start : Nat) : Option Nat :=
  (List.range (hay.length + 1)).find? (fun i => start ≤ i && pat.isPrefixOf (hay.drop i))

/-- Python `c.isalpha()` (ASCII model, per the script's design note that an
explicit alphabetic predicate is intended). -/
def pyIsAlpha (c : Char) : Bool :=
  let n := c.toNat
  (97 ≤ n && n ≤ 122) || (65 ≤ n && n ≤ 90)

/-- `contains_marker_with_boundaries`: scan the occurrences of `marker` in
`text` in order (each search resumes at the previous hit plus one), accepting
one whose neighbouring characters (when they exist) are both non-alphabetic.
The loop in the source; fuel is the remaining search-window length plus one,
which the bound in `contains_marker_with_boundaries` makes sufficient. -/
def cmwbLoop (text marker : List Char) : Nat → Nat → Bool
  | 0, _ => false
  | fuel + 1, start =>
    match pyFindFrom text marker start with
    | none => false
    | some i =>
      let before := if 0 < i then text.get? (i - 1) else none
      let after := text.get? (i + marker.length)
      let beforeIsLetter := match before with | some c => pyIsAlpha c | none => false
      let afterIsLetter := match after with | some c => pyIsAlpha c | none => false
      if !beforeIsLetter && !afterIsLetter then true
      else cmwbLoop text marker fuel (i + 1)

/-- `contains_marker_with_boundaries(text, marker)` from the source. -/
def contains_marker_with_boundaries (text marker : String) : Bool :=
  cmwbLoop text.toList marker.toList (text.toList.length + 2) 0

/-- `DIGITAL_ONLY_ORACLE_MARKERS` from the source. -/
def DIGITAL_ONLY_ORACLE_MARKERS : List String :=
  ["boon", "conjure", "double team", "draft", "heist", "incorporate",
   "intensity", "intensify", "perpetually", "seek", "specialize", "spellbook"]

/-- `has_digital_only_oracle_marker(oracle_text)` from the source. -/
def has_digital_only_oracle_marker (oracle_text : String) : Bool :=
  DIGITAL_ONLY_ORACLE_MARKERS.any
    (fun marker => contains_marker_with_boundaries (pyLower oracle_text) marker)

/-- The layout exclusion set of `is_non_playable`. -/
def NON_PLAYABLE_LAYOUTS : List String :=
  ["token", "double_faced_token", "emblem", "planar", "scheme", "vanguard",
   "art_series", "reversible_card"]

/-- The type-line exclusion labels of `is_non_playable`. -/
def NON_PLAYABLE_TYPES : List String :=
  ["Token", "Emblem", "Plane", "Scheme", "Vanguard", "Phenomenon",
   "Conspiracy", "Dungeon", "Attraction", "Contraption"]

/-- `is_non_playable(card, type_line, oracle_text)` from the source, clause by
clause in the source's order. -/
def is_non_playable (card : Card) (type_line oracle_text : Option String) : Bool :=
  let border_color := pyLower (pyStrip (card.border_color.getD ""))
  if border_color = "silver" then true
  else if card.has_acorn then true
  else
    let legalities := card.legalities.getD []
    if !legalities.isEmpty && legalities.all (fun p => p.2 = "not_legal") then true
    else
      let layout := pyLower (pyStrip (card.layout.getD ""))
      if NON_PLAYABLE_LAYOUTS.contains layout then true
      else
        let typeHit :=
          match type_line with
          | some tl =>
            if tl = "" then false
            else if NON_PLAYABLE_TYPES.any (fun lab => containsSub tl lab) then true
            else pyStrip tl = "Card"
          | none => false
        if typeHit then true
        else
          let themeHit :=
            match oracle_text with
            | some ot => if ot = "" then false else containsSub ot "Theme color"
            | none => false
          if themeHit then true
          else
            match oracle_text with
            | some ot => if ot = "" then false else has_digital_only_oracle_marker ot
            | none => false

/-- `pick_field(card, face, key)` from the source; the dictionary key is modelled
by the pair of projections for that key. -/
def pick_field (card : Card) (face : Option Face)
    (getC : Card → Option String) (getF : Face → Option String) : Option String :=
  match getC card with
  | some v => some v
  | none =>
    match face with
    | some f => getF f
    | none => none

/-- Python `sep.join(lines)`. -/
def pyJoin (sep : String) : List String → String
  | [] => ""
  | x :: xs => xs.foldl (fun acc y => acc ++ sep ++ y) x

/-- `build_block(card)` from the source. -/
def build_block (card : Card) : Option String :=
  let face : Option Face := card.card_faces.head?
  let name := pyOrOpt card.name (match face with | some f => f.name | none => none)
  match name with
  | none => none
  | some nm =>
    if nm = "" then none
    else
      let mana_cost := pick_field card face Card.mana_cost Face.mana_cost
      let type_line := pick_field card face Card.type_line Face.type_line
      let oracle_text := pick_field card face Card.oracle_text Face.oracle_text
      let power := pick_field card face Card.power Face.power
      let toughness := pick_field card face Card.toughness Face.toughness
      let loyalty := pick_field card face Card.loyalty Face.loyalty
      let defense := pick_field card face Card.defense Face.defense
      if is_non_playable card type_line oracle_text then none
      else
        let lines := ["Name: " ++ nm]
          ++ (match mana_cost with
              | some v => if v = "" then [] else ["Mana cost: " ++ v]
              | none => [])
          ++ (match type_line with
              | some v => if v = "" then [] else ["Type: " ++ v]
              | none => [])
          ++ (match power, toughness with
              | some p, some t => ["Power/Toughness: " ++ p ++ "/" ++ t]
              | _, _ => [])
          ++ (match loyalty with
              | some v => ["Loyalty: " ++ v]
              | none => [])
          ++ (match defense with
              | some v => ["Defense: " ++ v]
              | none => [])
          ++ (match oracle_text with
              | some v => if v = "" then [] else [v]
              | none => [])
        some (pyJoin "\n" lines)

/-- The loop body of `main()`: for each record the block is printed followed by
`---` unless the block is falsy (`None` or the empty string). -/
def main_output (cards : List Card) : List String :=
  cards.foldr
    (fun card acc =>
      (match build_block card with
       | none => []
       | some block => if block = "" then [] else [block, "---"]) ++ acc)
    []

/-! ## Derived definitions used to state the claims -/

/-- The name actually resolved by `build_block`: Python truthiness fallback
(`card.get("name") or (face or {}).get("name")`). -/
def resolvedName (card : Card) : Option String :=
  pyOrOpt card.name
    (match card.card_faces.head? with | some f => f.name | none => none)

/-- Clause 1 of `is_non_playable`: silver border. -/
def ruleBorder (card : Card) : Bool :=
  pyLower (pyStrip (card.border_color.getD "")) = "silver"

/-- Clause 2 of `is_non_playable`: the `has_acorn` flag. -/
def ruleAcorn (card : Card) : Bool := card.has_acorn

/-- Clause 3 of `is_non_playable`: a non-empty `legalities` mapping whose every
value is `"not_legal"`. -/
def ruleLegalities (card : Card) : Bool :=
  let ls := card.legalities.getD []
  !ls.isEmpty && ls.all (fun p => p.2 = "not_legal")

/-- Clause 4 of `is_non_playable`: an excluded layout. -/
def ruleLayout (card : Card) : Bool :=
  NON_PLAYABLE_LAYOUTS.contains (pyLower (pyStrip (card.layout.getD "")))

/-- Clause 5 of `is_non_playable`: the type-line tests. -/
def ruleTypeLine (tl : Option String) : Bool :=
  match tl with
  | some t =>
    if t = "" then false
    else if NON_PLAYABLE_TYPES.any (fun lab => containsSub t lab) then true
    else pyStrip t = "Card"
  | none => false

/-- Clause 6 of `is_non_playable`: the `"Theme color"` test. -/
def ruleTheme (ot : Option String) : Bool :=
  match ot with
  | some t => if t = "" then false else containsSub t "Theme color"
  | none => false

/-- Clause 7 of `is_non_playable`: the digital-only marker scan. -/
def ruleMarkers (ot : Option String) : Bool :=
  match ot with
  | some t => if t = "" then false else has_digital_only_oracle_marker t
  | none => false

/-- The seven key-getter pairs `pick_field` is called with. -/
def keyGetters : List ((Card → Option String) × (Face → Option String)) :=
  [(Card.mana_cost, Face.mana_cost), (Card.type_line, Face.type_line),
   (Card.oracle_text, Face.oracle_text), (Card.power, Face.power),
   (Card.toughness, Face.toughness), (Card.loyalty, Face.loyalty),
   (Card.defense, Face.defense)]

/-- The ordered line list of a rendered block as the spec states it: the
mandatory name line, then each optional line exactly when its resolved source
value is present (and non-empty, for the string-truthiness lines). -/
def spec_lines (card : Card) : List String :=
  let face := card.card_faces.head?
  let nm := (resolvedName card).getD ""
  let mana_cost := pick_field card face Card.mana_cost Face.mana_cost
  let type_line := pick_field card face Card.type_line Face.type_line
  let oracle_text := pick_field card face Card.oracle_text Face.oracle_text
  let power := pick_field card face Card.power Face.power
  let toughness := pick_field card face Card.toughness Face.toughness
  let loyalty := pick_field card face Card.loyalty Face.loyalty
  let defense := pick_field card face Card.defense Face.defense
  ["Name: " ++ nm]
  ++ (if isTruthy mana_cost then ["Mana cost: " ++ mana_cost.getD ""] else [])
  ++ (if isTruthy type_line then ["Type: " ++ type_line.getD ""] else [])
  ++ (if power.isSome && toughness.isSome then
        ["Power/Toughness: " ++ power.getD "" ++ "/" ++ toughness.getD ""] else [])
  ++ (if loyalty.isSome then ["Loyalty: " ++ loyalty.getD ""] else [])
  ++ (if defense.isSome then ["Defense: " ++ defense.getD ""] else [])
  ++ (if isTruthy oracle_text then [oracle_text.getD ""] else [])

/-- An occurrence of `marker` at position `i` of `text` that passes the
word-boundary test: the neighbouring characters, where they exist, are both
non-alphabetic. -/
def markerBoundaryAt (text marker : List Char) (i : Nat) : Prop :=
  i ≤ text.length ∧ marker <+: text.drop i ∧
  (0 < i → ∀ c, text.get? (i - 1) = some c → pyIsAlpha c = false) ∧
  (∀ c, text.get? (i + marker.length) = some c → pyIsAlpha c = false)

/-- The scenario record of the spec: Lightning Bolt. -/
def boltCard : Card :=
  { name := some "Bolt", mana_cost := some "{R}", type_line := some "Instant",
    oracle_text := some "Deal 3 damage.", border_color := some "black",
    legalities := some [("standard", "legal")] }

/-- The power/toughness round-trip record of the spec. -/
def ptCard : Card := { name := some "PT", power := some "2", toughness := some "3" }

/-- The record refuting C4: a top-level empty-string `name` (present, non-null)
with a first face named `"Face"`. -/
def c4Card : Card := { name := some "", card_faces := [{ name := some "Face" }] }

/-! ## The liberal array-tail grammar accepted by the streaming loop -/

/-- The texts the streaming loop consumes after the opening bracket, together
with the values they denote: any interleaving of Python whitespace and
separator commas around `raw_decode`-decodable values, closed by `]` (whatever
follows the bracket is ignored).  This covers both strict JSON array tails and
the comma-tolerant inputs of the loop. -/
inductive LTail : List Char → List Jv → Prop where
  | close : ∀ t, LTail (']' :: t) []
  | ws : ∀ c t vs, pyWsB c = true → LTail t vs → LTail (c :: t) vs
  | comma : ∀ t vs, LTail t vs → LTail (',' :: t) vs
  | elem : ∀ T v n vs, rawDecodeL T = some (v, n) → LTail (T.drop n) vs →
      LTail T (v :: vs)

/-- The characters that can extend a number-regex match beyond an already
matched token: digits lengthen a digit run, and `.`, `e`, `E` start the
optional fraction/exponent groups. -/
def numCont (c : Char) : Bool := c.isDigit || c = '.' || c = 'e' || c = 'E'

/-- The characters that can begin a JSON value for the CPython scanner. -/
def canStartValue (c : Char) : Bool :=
  c = '"' || c = '{' || c = '[' || c = 'n' || c = 't' || c = 'f' ||
  c = 'N' || c = 'I' || c = '-' || c.isDigit

/-! ## Helper lemmas about the classifier -/

theorem containsSub_iff_occ (hay pat : String) :
    containsSub hay pat = true ↔ pat.toList <:+: hay.toList := by
  unfold containsSub
  rw [List.any_eq_true]
  constructor
  · rintro ⟨t, ht, hp⟩
    rw [List.mem_tails] at ht
    rw [List.isPrefixOf_iff_prefix] at hp
    exact List.infix_iff_prefix_suffix.mpr ⟨t, hp, ht⟩
  · intro h
    obtain ⟨t, hp, ht⟩ := List.infix_iff_prefix_suffix.mp h
    exact ⟨t, (List.mem_tails t _).mpr ht, List.isPrefixOf_iff_prefix.mpr hp⟩

theorem is_non_playable_eq_rules (card : Card) (tl ot : Option String) :
    is_non_playable card tl ot =
      (ruleBorder card || ruleAcorn card || ruleLegalities card || ruleLayout card ||
       ruleTypeLine tl || ruleTheme ot || ruleMarkers ot) := by
  unfold is_non_playable ruleBorder ruleAcorn ruleLegalities ruleLayout ruleTypeLine
    ruleTheme ruleMarkers
  split_ifs <;> simp_all [Bool.or_assoc]

/-! ## C8, C6, C5 -/

/-- C8: for every record, face, and key among
`mana_cost/type_line/oracle_text/power/toughness/loyalty/defense`, `pick_field`
returns the top-level record's value when it is present and non-null; otherwise,
when a first face exists, it returns that face's value (which may itself be null
or absent); otherwise it returns null. -/
theorem pick_field_resolution (card : Card) (face : Option Face)
    (gp : (Card → Option String) × (Face → Option String)) (_hg : gp ∈ keyGetters) :
    (∀ v, gp.1 card = some v → pick_field card face gp.1 gp.2 = some v) ∧
    (gp.1 card = none → ∀ f, face = some f → pick_field card face gp.1 gp.2 = gp.2 f) ∧
    (gp.1 card = none → face = none → pick_field card face gp.1 gp.2 = none) := by
  refine ⟨fun v hv => ?_, fun h f hf => ?_, fun h hf => ?_⟩ <;> simp [pick_field, *]

/-- Witness for C8: a record with `mana_cost` absent at top level and a face
resolves to the face's value. -/
theorem pick_field_resolution_witness :
    pick_field { name := some "X" } (some { mana_cost := some "{G}" })
      Card.mana_cost Face.mana_cost = some "{G}" :=
  (pick_field_resolution { name := some "X" } (some { mana_cost := some "{G}" })
    (Card.mana_cost, Face.mana_cost) (by simp [keyGetters])).2.1 rfl _ rfl

/-- C6: the legalities exclusion applies iff the `legalities` mapping is
non-empty and every value in it equals `"not_legal"`; such a record is excluded
whatever its other fields, and an empty or absent mapping never triggers the
rule (with every other clause off, the record stays playable). -/
theorem legalities_exclusion (card : Card) (tl ot : Option String) :
    (ruleLegalities card = true ↔
      card.legalities.getD [] ≠ [] ∧ ∀ p ∈ card.legalities.getD [], p.2 = "not_legal") ∧
    (ruleLegalities card = true → is_non_playable card tl ot = true) ∧
    ((card.legalities = none ∨ card.legalities = some []) →
      ruleBorder card = false → ruleAcorn card = false → ruleLayout card = false →
      ruleTypeLine tl = false → ruleTheme ot = false → ruleMarkers ot = false →
      is_non_playable card tl ot = false) := by
  refine ⟨?_, fun h => ?_, fun he h1 h2 h4 h5 h6 h7 => ?_⟩
  · unfold ruleLegalities
    simp [List.isEmpty_iff]
  · rw [is_non_playable_eq_rules]
    simp [h]
  · rw [is_non_playable_eq_rules]
    have h3 : ruleLegalities card = false := by
      rcases he with he | he <;> simp [ruleLegalities, he]
    simp [h1, h2, h3, h4, h5, h6, h7]

/-- Witness for C6: a record whose only legality value is `"not_legal"` is
excluded, and one with an absent mapping and all other clauses off is kept. -/
theorem legalities_exclusion_witness :
    is_non_playable { legalities := some [("standard", "not_legal")] } none none = true ∧
    is_non_playable { name := some "X" } none none = false :=
  ⟨(legalities_exclusion { legalities := some [("standard", "not_legal")] } none none).2.1
      (by decide),
   (legalities_exclusion { name := some "X" } none none).2.2 (Or.inl rfl)
      rfl rfl rfl rfl rfl rfl⟩

/-- C5: with a present type line, a record is excluded by the type-line clause
iff the type line contains one of the ten labels as a substring or strips to
exactly `"Card"`; a type line stripping to `"Card"` excludes the record
regardless of all other fields. -/
theorem type_line_exclusion (card : Card) (s : String) (ot : Option String) :
    (pyStrip s = "Card" → is_non_playable card (some s) ot = true) ∧
    (ruleBorder card = false → ruleAcorn card = false → ruleLegalities card = false →
     ruleLayout card = false → ruleTheme ot = false → ruleMarkers ot = false →
      (is_non_playable card (some s) ot = true ↔
        (∃ lab ∈ NON_PLAYABLE_TYPES, lab.toList <:+: s.toList) ∨ pyStrip s = "Card")) := by
  have hrule : ruleTypeLine (some s) = true ↔
      (∃ lab ∈ NON_PLAYABLE_TYPES, lab.toList <:+: s.toList) ∨ pyStrip s = "Card" := by
    unfold ruleTypeLine
    by_cases hs : s = ""
    · subst hs
      decide
    · simp only [hs, if_false]
      constructor
      · intro h
        split_ifs at h with h2
        · rw [List.any_eq_true] at h2
          obtain ⟨lab, hlab, hc⟩ := h2
          exact Or.inl ⟨lab, hlab, (containsSub_iff_occ s lab).mp hc⟩
        · exact Or.inr (by simpa using h)
      · rintro (⟨lab, hlab, hinf⟩ | hcard)
        · have : NON_PLAYABLE_TYPES.any (fun lab => containsSub s lab) = true := by
            rw [List.any_eq_true]
            exact ⟨lab, hlab, (containsSub_iff_occ s lab).mpr hinf⟩
          simp [this]
        · split_ifs <;> simp [hcard]
  refine ⟨fun hcard => ?_, fun h1 h2 h3 h4 h6 h7 => ?_⟩
  · rw [is_non_playable_eq_rules]
    have : ruleTypeLine (some s) = true := hrule.mpr (Or.inr hcard)
    simp [this]
  · rw [is_non_playable_eq_rules]
    simp [h1, h2, h3, h4, h6, h7, hrule]

/-- Witness for C5: `" Card "` is excluded on an otherwise playable record, and
`"Instant"` with every other clause off is kept. -/
theorem type_line_exclusion_witness :
    is_non_playable { name := some "X" } (some " Card ") none = true ∧
    is_non_playable { name := some "X" } (some "Instant") none = false :=
  ⟨(type_line_exclusion { name := some "X" } " Card " none).1 (by decide),
   by
    have h := (type_line_exclusion { name := some "X" } "Instant" none).2
      rfl rfl rfl rfl rfl rfl
    rw [Bool.eq_false_iff]
    intro htrue
    have hx := h.mp htrue
    revert hx
    decide⟩

/-! ## Helper lemmas about the renderer -/

theorem optLineT (o : Option String) (pre : String) :
    (match o with
     | some v => if v = "" then [] else [pre ++ v]
     | none => ([] : List String)) =
    (if isTruthy o then [pre ++ o.getD ""] else []) := by
  cases o with
  | none => simp [isTruthy]
  | some v => by_cases hv : v = "" <;> simp [isTruthy, hv]

theorem optLineRaw (o : Option String) :
    (match o with
     | some v => if v = "" then [] else [v]
     | none => ([] : List String)) =
    (if isTruthy o then [o.getD ""] else []) := by
  cases o with
  | none => simp [isTruthy]
  | some v => by_cases hv : v = "" <;> simp [isTruthy, hv]

theorem optLineSome (o : Option String) (pre : String) :
    (match o with
     | some v => [pre ++ v]
     | none => ([] : List String)) =
    (if o.isSome then [pre ++ o.getD ""] else []) := by
  cases o <;> simp

theorem ptLineEq (p t : Option String) :
    (match p, t with
     | some pv, some tv => ["Power/Toughness: " ++ pv ++ "/" ++ tv]
     | _, _ => ([] : List String)) =
    (if p.isSome && t.isSome then
      ["Power/Toughness: " ++ p.getD "" ++ "/" ++ t.getD ""] else []) := by
  cases p <;> cases t <;> simp

theorem build_block_eq (card : Card) :
    build_block card =
      match resolvedName card with
      | none => none
      | some nm =>
        if nm = "" then none
        else if is_non_playable card
            (pick_field card card.card_faces.head? Card.type_line Face.type_line)
            (pick_field card card.card_faces.head? Card.oracle_text Face.oracle_text)
          then none
        else some (pyJoin "\n" (spec_lines card)) := by
  have hrn : resolvedName card =
      pyOrOpt card.name
        (match card.card_faces.head? with | some f => f.name | none => none) := rfl
  simp only [build_block, spec_lines, hrn]
  cases hn : pyOrOpt card.name
      (match card.card_faces.head? with | some f => f.name | none => none) with
  | none => rfl
  | some nm =>
    by_cases hnm : nm = ""
    · simp [hnm]
    · simp only [hnm, if_false]
      by_cases hp : is_non_playable card
          (pick_field card card.card_faces.head? Card.type_line Face.type_line)
          (pick_field card card.card_faces.head? Card.oracle_text Face.oracle_text) = true
      · simp [hp]
      · rw [Bool.not_eq_true] at hp
        simp only [hp, Bool.false_eq_true, if_false, Option.some.injEq]
        rw [optLineT, optLineT, optLineRaw, optLineSome, optLineSome, ptLineEq]
        simp [hn]


theorem pyJoin_cons_exists (sep : String) (x : String) (xs : List String) :
    ∃ r, pyJoin sep (x :: xs) = x ++ r := by
  show ∃ r, xs.foldl (fun acc y => acc ++ sep ++ y) x = x ++ r
  induction xs generalizing x with
  | nil => exact ⟨"", by simp⟩
  | cons y ys ih =>
    obtain ⟨r, hr⟩ := ih (x ++ sep ++ y)
    refine ⟨sep ++ y ++ r, ?_⟩
    have hstep : List.foldl (fun acc y => acc ++ sep ++ y) x (y :: ys) =
        List.foldl (fun acc y => acc ++ sep ++ y) (x ++ sep ++ y) ys := rfl
    rw [hstep, hr]
    simp [String.append_assoc]

theorem build_block_some_elim (card : Card) (s : String)
    (h : build_block card = some s) :
    ∃ nm, resolvedName card = some nm ∧ nm ≠ "" ∧
      is_non_playable card
        (pick_field card card.card_faces.head? Card.type_line Face.type_line)
        (pick_field card card.card_faces.head? Card.oracle_text Face.oracle_text)
        = false ∧
      s = pyJoin "\n" (spec_lines card) := by
  rw [build_block_eq] at h
  cases hn : resolvedName card with
  | none => rw [hn] at h; exact absurd h (by simp)
  | some nm =>
    rw [hn] at h
    simp only [] at h
    split_ifs at h with h1 h2
    exact ⟨nm, rfl, h1, by rw [Bool.not_eq_true] at h2; exact h2,
      (Option.some.inj h).symm⟩

theorem spec_lines_head (card : Card) (nm : String)
    (hn : resolvedName card = some nm) :
    spec_lines card = ("Name: " ++ nm) :: (spec_lines card).tail := by
  unfold spec_lines
  simp [hn]

/-! ## C7, C10, C4 -/

/-- C7: every rendered block is, in the fixed order joined by newlines, the
mandatory name line, a mana-cost line iff the resolved mana cost is present and
non-empty, a type line iff the resolved type line is present and non-empty, a
power/toughness line iff both resolved values are non-null, a loyalty line iff
resolved loyalty is non-null, a defense line iff resolved defense is non-null,
and the raw oracle text iff present and non-empty (the list `spec_lines`); the
Bolt scenario record renders exactly its four lines, and the power/toughness
record gets its `Power/Toughness: 2/3` line with no loyalty or defense lines. -/
theorem render_block_shape :
    (∀ card s, build_block card = some s → s = pyJoin "\n" (spec_lines card)) ∧
    build_block boltCard =
      some "Name: Bolt\nMana cost: {R}\nType: Instant\nDeal 3 damage." ∧
    build_block ptCard = some "Name: PT\nPower/Toughness: 2/3" :=
  ⟨fun card s h => (build_block_some_elim card s h).choose_spec.2.2.2, rfl, rfl⟩

/-- Witness for C7: the Bolt scenario satisfies the universal shape clause. -/
theorem render_block_shape_witness :
    "Name: Bolt\nMana cost: {R}\nType: Instant\nDeal 3 damage." =
      pyJoin "\n" (spec_lines boltCard) :=
  render_block_shape.1 boltCard _ rfl

/-- C10: `build_block` returns `none` or a non-empty string whose first line is
`Name: ` followed by the resolved name, so the pipeline's truthiness test skips
exactly the records whose block is `none`, and every block is printed followed
by the `---` separator. -/
theorem block_truthiness_pipeline :
    (∀ card s, build_block card = some s →
      s ≠ "" ∧ ∃ nm r, resolvedName card = some nm ∧ s = "Name: " ++ nm ++ r) ∧
    (∀ cards, main_output cards =
      cards.foldr (fun c acc =>
        (match build_block c with
         | none => []
         | some s => [s, "---"]) ++ acc) []) := by
  have key : ∀ card s, build_block card = some s →
      ∃ nm r, resolvedName card = some nm ∧ s = "Name: " ++ nm ++ r := by
    intro card s h
    obtain ⟨nm, hn, hnm, hp, hs⟩ := build_block_some_elim card s h
    obtain ⟨r, hr⟩ := pyJoin_cons_exists "\n" ("Name: " ++ nm)
      ((spec_lines card).tail)
    refine ⟨nm, r, hn, ?_⟩
    rw [hs, spec_lines_head card nm hn, hr, String.append_assoc]
  have hne : ∀ card s, build_block card = some s → s ≠ "" := by
    intro card s h hemp
    obtain ⟨nm, r, _, hs⟩ := key card s h
    have hl : s.length = "Name: ".length + nm.length + r.length := by
      rw [hs]
      simp [String.length_append]
    rw [hemp] at hl
    have h6 : ("Name: " : String).length = 6 := rfl
    have h0 : ("" : String).length = 0 := rfl
    omega
  refine ⟨fun card s h => ⟨hne card s h, key card s h⟩, fun cards => ?_⟩
  unfold main_output
  induction cards with
  | nil => rfl
  | cons c cs ih =>
    simp only [List.foldr_cons, ih]
    cases hb : build_block c with
    | none => rfl
    | some s =>
      have := hne c s hb
      simp [this]

/-- Witness for C10: the Bolt scenario block is non-empty and starts with its
name line. -/
theorem block_truthiness_pipeline_witness :
    "Name: Bolt\nMana cost: {R}\nType: Instant\nDeal 3 damage." ≠ "" ∧
    ∃ nm r, resolvedName boltCard = some nm ∧
      "Name: Bolt\nMana cost: {R}\nType: Instant\nDeal 3 damage." =
        "Name: " ++ nm ++ r :=
  block_truthiness_pipeline.1 boltCard _ rfl

/-- C4 is refuted by the code: a record whose top-level `name` is present and
non-null (the empty string) with a named first face.  The `pick_field` rule the
claim prescribes resolves the name to `some ""`, yet `build_block` falls back to
the face and renders `Name: Face`. -/
theorem name_fallback_counterexample :
    c4Card.name = some "" ∧
    pick_field c4Card c4Card.card_faces.head? Card.name Face.name = some "" ∧
    build_block c4Card = some "Name: Face" ∧
    build_block c4Card ≠ some ("Name: " ++ "") :=
  ⟨rfl, rfl, rfl, by decide⟩

/-- C4 amended: `build_block` resolves `name` by Python truthiness — the
top-level value when it is non-null and non-empty, otherwise the first face's
value — and, for records passing the playability test, produces no block
exactly when that resolved name is `None` or empty. -/
theorem name_resolution_amended (card : Card) :
    (resolvedName card = none → build_block card = none) ∧
    (resolvedName card = some "" → build_block card = none) ∧
    (∀ nm, resolvedName card = some nm → nm ≠ "" →
      ((build_block card = none ↔
        is_non_playable card
          (pick_field card card.card_faces.head? Card.type_line Face.type_line)
          (pick_field card card.card_faces.head? Card.oracle_text Face.oracle_text)
          = true) ∧
       ∀ s, build_block card = some s → ∃ r, s = "Name: " ++ nm ++ r)) := by
  refine ⟨fun h => ?_, fun h => ?_, fun nm hn hnm => ⟨⟨fun hnone => ?_, fun hp => ?_⟩,
    fun s hs => ?_⟩⟩
  · rw [build_block_eq, h]
  · rw [build_block_eq, h]
    simp
  · by_contra hp
    rw [Bool.not_eq_true] at hp
    rw [build_block_eq, hn] at hnone
    simp only [] at hnone
    rw [if_neg hnm, if_neg (by simp [hp])] at hnone
    exact absurd hnone (by simp)
  · rw [build_block_eq, hn]
    simp only [] 
    rw [if_neg hnm, if_pos hp]
  · obtain ⟨nm', hn', _, _, hs'⟩ := build_block_some_elim card s hs
    rw [hn] at hn'
    obtain rfl : nm = nm' := Option.some.inj hn'
    obtain ⟨r, hr⟩ := pyJoin_cons_exists "\n" ("Name: " ++ nm)
      ((spec_lines card).tail)
    exact ⟨r, by rw [hs', spec_lines_head card nm hn, hr, String.append_assoc]⟩

/-- Witness for C4's amended statement: a record with no name anywhere produces
no block. -/
theorem name_resolution_amended_witness :
    build_block { border_color := some "black" } = none :=
  (name_resolution_amended { border_color := some "black" }).1 rfl

/-! ## Helper lemmas about the marker scan -/

theorem pyFindFrom_some (hay pat : List Char) (start i : Nat)
    (h : pyFindFrom hay pat start = some i) :
    start ≤ i ∧ i ≤ hay.length ∧ pat <+: hay.drop i ∧
      ∀ j, start ≤ j → j < i → ¬ pat <+: hay.drop j := by
  unfold pyFindFrom at h
  rw [List.find?_eq_some_iff_getElem] at h
  obtain ⟨hpi, k, hk, hki, hmin⟩ := h
  rw [List.length_range] at hk
  rw [List.getElem_range] at hki
  subst hki
  rw [Bool.and_eq_true, decide_eq_true_eq, List.isPrefixOf_iff_prefix] at hpi
  refine ⟨hpi.1, by omega, hpi.2, fun j hsj hji hpre => ?_⟩
  have hjb : j < hay.length + 1 := by omega
  have := hmin j (by omega)
  rw [List.getElem_range] at this
  rw [Bool.not_eq_eq_eq_not, Bool.not_true, Bool.and_eq_false_iff] at this
  rcases this with hc | hc
  · rw [decide_eq_false_iff_not] at hc
    exact hc hsj
  · rw [← Bool.not_eq_true, List.isPrefixOf_iff_prefix] at hc
    exact hc hpre

theorem pyFindFrom_none (hay pat : List Char) (start : Nat)
    (h : pyFindFrom hay pat start = none) :
    ∀ j, start ≤ j → j ≤ hay.length → ¬ pat <+: hay.drop j := by
  unfold pyFindFrom at h
  rw [List.find?_eq_none] at h
  intro j hsj hjl hpre
  have hj : j ∈ List.range (hay.length + 1) := by
    rw [List.mem_range]
    omega
  apply h j hj
  rw [Bool.and_eq_true, decide_eq_true_eq, List.isPrefixOf_iff_prefix]
  exact ⟨hsj, hpre⟩

theorem optAlpha_false_iff (o : Option Char) :
    ((match o with | some c => pyIsAlpha c | none => false) = false) ↔
      ∀ c, o = some c → pyIsAlpha c = false := by
  cases o <;> simp

theorem cmwbLoop_iff (text marker : List Char) :
    ∀ fuel start, text.length + 1 ≤ fuel + start →
    (cmwbLoop text marker fuel start = true ↔
      ∃ i, start ≤ i ∧ markerBoundaryAt text marker i) := by
  intro fuel
  induction fuel with
  | zero =>
    intro start h
    constructor
    · intro hc
      exact absurd hc (by simp [cmwbLoop])
    · rintro ⟨i, hsi, hil, -⟩
      omega
  | succ f ih =>
    intro start hfs
    cases hf : pyFindFrom text marker start with
    | none =>
      simp only [cmwbLoop, hf]
      constructor
      · intro hc
        exact absurd hc (by simp)
      · rintro ⟨i, hsi, hil, hpre, -⟩
        exact absurd hpre (pyFindFrom_none text marker start hf i hsi hil)
    | some i =>
      obtain ⟨hsi, hil, hipre, hmin⟩ := pyFindFrom_some text marker start i hf
      simp only [cmwbLoop, hf]
      by_cases hok :
          ((!(match (if 0 < i then text.get? (i - 1) else none) with
              | some c => pyIsAlpha c | none => false)) &&
           (!(match text.get? (i + marker.length) with
              | some c => pyIsAlpha c | none => false))) = true
      · rw [if_pos hok]
        simp only [true_iff]
        rw [Bool.and_eq_true, Bool.not_eq_true', Bool.not_eq_true'] at hok
        obtain ⟨hb, ha⟩ := hok
        refine ⟨i, hsi, hil, hipre, ?_, (optAlpha_false_iff _).mp ha⟩
        intro h0 c hc
        rw [if_pos h0] at hb
        exact (optAlpha_false_iff _).mp hb c hc
      · rw [if_neg hok]
        rw [ih (i + 1) (by omega)]
        constructor
        · rintro ⟨j, hij, hbd⟩
          exact ⟨j, by omega, hbd⟩
        · rintro ⟨j, hsj, hjl, hjpre, hjb, hja⟩
          rcases Nat.lt_trichotomy j i with hji | hji | hji
          · exact absurd hjpre (hmin j hsj hji)
          · subst hji
            exfalso
            apply hok
            rw [Bool.and_eq_true, Bool.not_eq_true', Bool.not_eq_true']
            constructor
            · rw [optAlpha_false_iff]
              intro c hc
              by_cases h0 : 0 < j
              · rw [if_pos h0] at hc
                exact hjb h0 c hc
              · rw [if_neg h0] at hc
                exact absurd hc (by simp)
            · rw [optAlpha_false_iff]
              exact hja
          · exact ⟨j, by omega, hjl, hjpre, hjb, hja⟩

/-! ## C3 -/

/-- C3: for every oracle text and marker, the marker scan of
`contains_marker_with_boundaries` succeeds iff some occurrence of the marker has
non-alphabetic (or absent) characters immediately before and after it (all
occurrences are scanned); in particular `"Seeker"` does not trigger the `seek`
exclusion of `has_digital_only_oracle_marker` while `"Seek a card"` does. -/
theorem marker_boundary_scan :
    (∀ (text marker : String),
      contains_marker_with_boundaries text marker = true ↔
        ∃ i, markerBoundaryAt text.toList marker.toList i) ∧
    has_digital_only_oracle_marker "Seeker" = false ∧
    has_digital_only_oracle_marker "Seek a card" = true := by
  refine ⟨fun text marker => ?_, by decide, by decide⟩
  unfold contains_marker_with_boundaries
  rw [cmwbLoop_iff text.toList marker.toList (text.toList.length + 2) 0 (by omega)]
  constructor
  · rintro ⟨i, -, hbd⟩
    exact ⟨i, hbd⟩
  · rintro ⟨i, hbd⟩
    exact ⟨i, Nat.zero_le i, hbd⟩

/-- Witness for C3: in `"xseek."` the occurrence of `seek` at index 1 fails the
left boundary, and the scan agrees with the existential characterization. -/
theorem marker_boundary_scan_witness :
    contains_marker_with_boundaries "seek me" "seek" = true ↔
      ∃ i, markerBoundaryAt "seek me".toList "seek".toList i :=
  marker_boundary_scan.1 "seek me" "seek"

/-! ## List utilities for the decoder proofs -/

theorem getElem?_some_lt {l : List Char} {i : Nat} {c : Char} (h : l[i]? = some c) :
    i < l.length := by
  by_contra hc
  rw [List.getElem?_eq_none (by omega)] at h
  exact absurd h (by simp)

theorem exists_getElem?_of_lt {l : List Char} {i : Nat} (h : i < l.length) :
    ∃ c, l[i]? = some c :=
  ⟨l[i], List.getElem?_eq_some.mpr ⟨h, rfl⟩⟩

theorem spanLen_iff (p : Char → Bool) (l : List Char) (j : Nat) :
    (l.takeWhile p).length = j ↔
      ((∀ i, i < j → ∃ c, l[i]? = some c ∧ p c = true) ∧
       (∀ c, l[j]? = some c → p c = false)) := by
  induction l generalizing j with
  | nil =>
    constructor
    · intro h
      simp at h
      subst h
      exact ⟨fun i hi => absurd hi (by omega), fun c hc => absurd hc (by simp)⟩
    · rintro ⟨h1, -⟩
      by_contra hne
      have hj : 0 < j := by
        simp at hne ⊢
        omega
      obtain ⟨c, hc, -⟩ := h1 0 hj
      exact absurd hc (by simp)
  | cons a l ih =>
    by_cases hp : p a
    · cases j with
      | zero =>
        constructor
        · intro h
          rw [List.takeWhile_cons, if_pos hp] at h
          simp at h
        · rintro ⟨-, h2⟩
          exact absurd (h2 a (by simp)) (by simp [hp])
      | succ j =>
        rw [List.takeWhile_cons, if_pos hp]
        simp only [List.length_cons, Nat.add_left_inj]
        rw [ih j]
        constructor
        · rintro ⟨h1, h2⟩
          refine ⟨fun i hi => ?_, fun c hc => h2 c (by simpa using hc)⟩
          cases i with
          | zero => exact ⟨a, by simp, hp⟩
          | succ i =>
            obtain ⟨c, hc, hpc⟩ := h1 i (by omega)
            exact ⟨c, by simpa using hc, hpc⟩
        · rintro ⟨h1, h2⟩
          refine ⟨fun i hi => ?_, fun c hc => h2 c (by simpa using hc)⟩
          obtain ⟨c, hc, hpc⟩ := h1 (i + 1) (by omega)
          exact ⟨c, by simpa using hc, hpc⟩
    · constructor
      · intro h
        rw [List.takeWhile_cons, if_neg hp] at h
        simp at h
        subst h
        exact ⟨fun i hi => absurd hi (by omega),
          fun c hc => by simp at hc; simpa [← hc] using hp⟩
      · rintro ⟨h1, -⟩
        rw [List.takeWhile_cons, if_neg hp]
        by_contra hne
        have hj : 0 < j := by
          simp at hne ⊢
          omega
        obtain ⟨c, hc, hpc⟩ := h1 0 hj
        simp at hc
        exact absurd hpc (by simp [← hc, hp])

theorem spanLen_append_agree (p : Char → Bool) (a t u : List Char)
    (h : ((a ++ t).takeWhile p).length < a.length) :
    ((a ++ u).takeWhile p).length = ((a ++ t).takeWhile p).length := by
  set j := ((a ++ t).takeWhile p).length with hj
  obtain ⟨h1, h2⟩ := (spanLen_iff p (a ++ t) j).mp hj.symm
  rw [spanLen_iff]
  constructor
  · intro i hi
    obtain ⟨c, hc, hpc⟩ := h1 i hi
    refine ⟨c, ?_, hpc⟩
    rw [List.getElem?_append, if_pos (by omega)] at hc ⊢
    exact hc
  · intro c hc
    apply h2 c
    rw [List.getElem?_append, if_pos h] at hc ⊢
    exact hc

theorem spanLen_take (p : Char → Bool) (l : List Char) (m : Nat) :
    ((l.take m).takeWhile p).length = min ((l.takeWhile p).length) m := by
  set j0 := (l.takeWhile p).length with hj0
  obtain ⟨h1, h2⟩ := (spanLen_iff p l j0).mp hj0.symm
  rw [spanLen_iff]
  rcases Nat.le_total j0 m with hle | hle
  · rw [Nat.min_eq_left hle]
    refine ⟨fun i hi => ?_, fun c hc => ?_⟩
    · obtain ⟨c, hc, hpc⟩ := h1 i hi
      exact ⟨c, by rw [List.getElem?_take, if_pos (by omega)]; exact hc, hpc⟩
    · apply h2 c
      rw [List.getElem?_take] at hc
      split_ifs at hc with hh
      exact hc
  · rw [Nat.min_eq_right hle]
    refine ⟨fun i hi => ?_, fun c hc => ?_⟩
    · obtain ⟨c, hc, hpc⟩ := h1 i (by omega)
      exact ⟨c, by rw [List.getElem?_take, if_pos (by omega)]; exact hc, hpc⟩
    · rw [List.getElem?_take] at hc
      split_ifs at hc with hh
      omega

theorem spanLen_all_append (p : Char → Bool) (a t : List Char)
    (ha : ∀ c ∈ a, p c = true) :
    ((a ++ t).takeWhile p).length = a.length + (t.takeWhile p).length := by
  induction a with
  | nil => simp
  | cons x a ih =>
    have hx : p x = true := ha x (by simp)
    rw [List.cons_append, List.takeWhile_cons, if_pos hx]
    simp only [List.length_cons]
    rw [ih (fun c hc => ha c (by simp [hc]))]
    omega

theorem getElem?_append_agree {a t u : List Char} {i : Nat} (h : i < a.length) :
    (a ++ t)[i]? = (a ++ u)[i]? := by
  rw [List.getElem?_append, if_pos h, List.getElem?_append, if_pos h]

/-! ## Whitespace, digit-span and literal lemmas -/

theorem wsCount_le (l : List Char) : wsCount l ≤ l.length :=
  (List.takeWhile_prefix jsonWsB).length_le

theorem wsCount_append_agree (a t u : List Char) (h : wsCount (a ++ t) < a.length) :
    wsCount (a ++ u) = wsCount (a ++ t) :=
  spanLen_append_agree jsonWsB a t u h

theorem wsCount_take (l : List Char) (m : Nat) :
    wsCount (l.take m) = min (wsCount l) m :=
  spanLen_take jsonWsB l m

theorem wsCount_ws (l : List Char) (i : Nat) (h : i < wsCount l) :
    ∃ c, l[i]? = some c ∧ jsonWsB c = true :=
  ((spanLen_iff jsonWsB l (wsCount l)).mp rfl).1 i h

theorem wsCount_stop (l : List Char) (c : Char) (h : l[wsCount l]? = some c) :
    jsonWsB c = false :=
  ((spanLen_iff jsonWsB l (wsCount l)).mp rfl).2 c h

theorem wsCount_all_append (a t : List Char) (ha : ∀ c ∈ a, jsonWsB c = true) :
    wsCount (a ++ t) = a.length + wsCount t :=
  spanLen_all_append jsonWsB a t ha

theorem digitSpan_le (l : List Char) : digitSpan l ≤ l.length :=
  (List.takeWhile_prefix Char.isDigit).length_le

theorem digitSpan_append_agree (a t u : List Char) (h : digitSpan (a ++ t) < a.length) :
    digitSpan (a ++ u) = digitSpan (a ++ t) :=
  spanLen_append_agree Char.isDigit a t u h

theorem digitSpan_take (l : List Char) (m : Nat) :
    digitSpan (l.take m) = min (digitSpan l) m :=
  spanLen_take Char.isDigit l m

theorem digitSpan_digit (l : List Char) (i : Nat) (h : i < digitSpan l) :
    ∃ c, l[i]? = some c ∧ c.isDigit = true :=
  ((spanLen_iff Char.isDigit l (digitSpan l)).mp rfl).1 i h

theorem digitSpan_stop (l : List Char) (c : Char) (h : l[digitSpan l]? = some c) :
    c.isDigit = false :=
  ((spanLen_iff Char.isDigit l (digitSpan l)).mp rfl).2 c h

theorem digitSpan_zero_iff (l : List Char) :
    digitSpan l = 0 ↔ ∀ c, l[0]? = some c → c.isDigit = false := by
  constructor
  · intro h c hc
    exact ((spanLen_iff Char.isDigit l 0).mp h).2 c hc
  · intro h
    show (l.takeWhile Char.isDigit).length = 0
    rw [spanLen_iff]
    exact ⟨fun i hi => absurd hi (by omega), h⟩

theorem take_append_of_le {a t : List Char} {k : Nat} (h : k ≤ a.length) :
    (a ++ t).take k = a.take k := by
  rw [List.take_append_eq_append_take]
  have hz : k - a.length = 0 := by omega
  rw [hz]
  simp

theorem prefix_append_iff (a t pat : List Char) (h : pat.length ≤ a.length) :
    pat <+: (a ++ t) ↔ pat <+: a := by
  constructor
  · intro hp
    rw [List.prefix_iff_eq_take] at hp
    rw [take_append_of_le h] at hp
    exact List.prefix_iff_eq_take.mpr hp
  · intro hp
    exact hp.trans (List.prefix_append a t)

theorem litHere_agree (a t u pat : List Char) (h : pat.length ≤ a.length) :
    litHere (a ++ u) pat = litHere (a ++ t) pat := by
  unfold litHere
  by_cases hp : pat <+: a
  · rw [List.isPrefixOf_iff_prefix.mpr ((prefix_append_iff a u pat h).mpr hp),
      List.isPrefixOf_iff_prefix.mpr ((prefix_append_iff a t pat h).mpr hp)]
  · have h1 : pat.isPrefixOf (a ++ u) = false := by
      rw [← Bool.not_eq_true, List.isPrefixOf_iff_prefix]
      exact fun hc => hp ((prefix_append_iff a u pat h).mp hc)
    have h2 : pat.isPrefixOf (a ++ t) = false := by
      rw [← Bool.not_eq_true, List.isPrefixOf_iff_prefix]
      exact fun hc => hp ((prefix_append_iff a t pat h).mp hc)
    rw [h1, h2]

theorem litHere_true_take {l pat : List Char} (h : litHere l pat = true) :
    l.take pat.length = pat := by
  unfold litHere at h
  rw [List.isPrefixOf_iff_prefix, List.prefix_iff_eq_take] at h
  exact h.symm

theorem litHere_of_take {l pat : List Char} (h : l.take pat.length = pat) :
    litHere l pat = true := by
  unfold litHere
  rw [List.isPrefixOf_iff_prefix, List.prefix_iff_eq_take]
  exact h.symm

theorem litHere_length {l pat : List Char} (h : litHere l pat = true) :
    pat.length ≤ l.length := by
  unfold litHere at h
  rw [List.isPrefixOf_iff_prefix] at h
  exact h.length_le

theorem litHere_head_ne {l pat : List Char} {p c : Char}
    (hpat : pat.head? = some p) (hl : l[0]? = some c) (hne : c ≠ p) :
    litHere l pat = false := by
  rw [← Bool.not_eq_true]
  intro hlit
  have htake := litHere_true_take hlit
  cases pat with
  | nil => exact absurd hpat (by simp)
  | cons p' pr =>
    cases l with
    | nil => exact absurd hl (by simp)
    | cons c' lr =>
      simp only [List.head?_cons, Option.some.injEq] at hpat
      simp only [List.getElem?_cons_zero, Option.some.injEq] at hl
      rw [List.length_cons, List.take_succ_cons, List.cons.injEq] at htake
      exact hne (by rw [← hl, htake.1, hpat])

theorem litHere_take_short {l pat : List Char} {m : Nat} (h : m < pat.length) :
    litHere (l.take m) pat = false := by
  rw [← Bool.not_eq_true]
  intro hlit
  have := litHere_length hlit
  rw [List.length_take] at this
  omega

theorem litHere_getElem {l pat : List Char} (h : litHere l pat = true)
    (i : Nat) (hi : i < pat.length) : l[i]? = pat[i]? := by
  have htake := litHere_true_take h
  rw [← htake, List.getElem?_take, if_pos hi]

/-! ## Lemmas about the number matcher -/

theorem getElem?_agree_take {l l' : List Char} {n : Nat}
    (h : ∀ i, i < n → l[i]? = l'[i]?) : l.take n = l'.take n := by
  apply List.ext_getElem?
  intro i
  rw [List.getElem?_take, List.getElem?_take]
  split_ifs with hi
  · exact h i hi
  · rfl

theorem getElem?_drop_add (l : List Char) (p i : Nat) :
    (l.drop p)[i]? = l[p + i]? := by
  rw [List.getElem?_drop]

theorem span_transfer {l l' : List Char} {p d n : Nat}
    (hd : digitSpan (l.drop p) = d) (hpd : p + d ≤ n)
    (hag : ∀ i, i < n → l[i]? = l'[i]?)
    (hstop : p + d = n → ∀ c, l'[n]? = some c → c.isDigit = false) :
    digitSpan (l'.drop p) = d := by
  obtain ⟨h1, h2⟩ := (spanLen_iff Char.isDigit (l.drop p) d).mp hd
  refine (spanLen_iff Char.isDigit (l'.drop p) d).mpr ⟨?_, ?_⟩
  · intro i hi
    obtain ⟨c, hc, hdig⟩ := h1 i hi
    refine ⟨c, ?_, hdig⟩
    rw [getElem?_drop_add] at hc ⊢
    rw [← hag (p + i) (by omega)]
    exact hc
  · intro c hc
    rw [getElem?_drop_add] at hc
    rcases Nat.lt_or_ge (p + d) n with hlt | hge
    · apply h2 c
      rw [getElem?_drop_add, hag (p + d) hlt]
      exact hc
    · have hpdn : p + d = n := by omega
      exact hstop hpdn c (hpdn ▸ hc)


/-! ## Lemmas about the number-regex components -/

theorem numSignLen_le_one (l : List Char) : numSignLen l ≤ 1 := by
  unfold numSignLen
  split_ifs <;> omega

theorem numSignLen_le_length (l : List Char) : numSignLen l ≤ l.length := by
  unfold numSignLen
  split_ifs with h
  · exact getElem?_some_lt h
  · omega

theorem numIntEnd_ge (l : List Char)
    (hz : digitSpan (l.drop (numSignLen l)) ≠ 0) :
    numSignLen l + 1 ≤ numIntEnd l := by
  unfold numIntEnd
  split_ifs <;> omega

theorem numIntEnd_le_length (l : List Char) : numIntEnd l ≤ l.length := by
  unfold numIntEnd
  split_ifs with h0
  · exact getElem?_some_lt h0
  · have h1 := numSignLen_le_length l
    have h2 := digitSpan_le (l.drop (numSignLen l))
    simp only [List.length_drop] at h2
    omega

theorem numFracEnd_ge (l : List Char) : numIntEnd l ≤ numFracEnd l := by
  unfold numFracEnd
  split_ifs <;> omega

theorem numFracEnd_le_length (l : List Char) : numFracEnd l ≤ l.length := by
  unfold numFracEnd
  split_ifs with hdot hzf
  · exact numIntEnd_le_length l
  · have h1 := getElem?_some_lt hdot
    have h2 := digitSpan_le (l.drop (numIntEnd l + 1))
    simp only [List.length_drop] at h2
    omega
  · exact numIntEnd_le_length l

theorem numExpEnd_ge (l : List Char) : numFracEnd l ≤ numExpEnd l := by
  unfold numExpEnd
  split
  · split_ifs <;> omega
  · omega

theorem numExpEnd_le_length (l : List Char) : numExpEnd l ≤ l.length := by
  unfold numExpEnd
  split
  · split_ifs with he hz
    · exact numFracEnd_le_length l
    · have h2 := digitSpan_le (l.drop (numFracEnd l + 1 + numExpSg l))
      simp only [List.length_drop] at h2
      omega
    · exact numFracEnd_le_length l
  · exact numFracEnd_le_length l

theorem parseNum_bounds (l : List Char) (lex : String) (n : Nat)
    (h : parseNum l = some (lex, n)) :
    1 ≤ n ∧ n ≤ l.length ∧ lex = String.mk (l.take n) ∧ n = numExpEnd l := by
  unfold parseNum at h
  split_ifs at h with hz
  rw [Option.some.injEq, Prod.mk.injEq] at h
  obtain ⟨hlex, hn⟩ := h
  have h1 := numIntEnd_ge l hz
  have h2 := numFracEnd_ge l
  have h3 := numExpEnd_ge l
  have h4 := numExpEnd_le_length l
  exact ⟨by omega, by omega, by rw [← hlex, hn], hn.symm⟩

theorem numCont_false_not_digit {c : Char} (h : numCont c = false) :
    c.isDigit = false := by
  unfold numCont at h
  simp only [Bool.or_eq_false_iff] at h
  exact h.1.1.1

theorem numCont_false_ne_dot {c : Char} (h : numCont c = false) : c ≠ '.' := by
  unfold numCont at h
  simp only [Bool.or_eq_false_iff, decide_eq_false_iff_not] at h
  exact h.1.1.2

theorem numCont_false_ne_exp {c : Char} (h : numCont c = false) :
    c ≠ 'e' ∧ c ≠ 'E' := by
  unfold numCont at h
  simp only [Bool.or_eq_false_iff, decide_eq_false_iff_not] at h
  exact ⟨h.1.2, h.2⟩

theorem parseNum_none_iff (l : List Char) :
    parseNum l = none ↔ ∀ c, l[numSignLen l]? = some c → c.isDigit = false := by
  unfold parseNum
  by_cases hz : digitSpan (l.drop (numSignLen l)) = 0
  · rw [if_pos hz]
    rw [digitSpan_zero_iff] at hz
    simp only [true_iff]
    intro c hc
    apply hz c
    rw [getElem?_drop_add, Nat.add_zero]
    exact hc
  · rw [if_neg hz]
    refine iff_of_false (by simp) (fun hr => hz ?_)
    rw [digitSpan_zero_iff]
    intro c hc
    apply hr c
    rw [getElem?_drop_add, Nat.add_zero] at hc
    exact hc

theorem numSignLen_agree {l l' : List Char} {n : Nat} (h0 : 0 < n)
    (hag : ∀ i, i < n → l[i]? = l'[i]?) : numSignLen l' = numSignLen l := by
  unfold numSignLen
  rw [← hag 0 h0]

theorem numIntEnd_agree {l l' : List Char} {n : Nat}
    (hag : ∀ i, i < n → l[i]? = l'[i]?)
    (hz : digitSpan (l.drop (numSignLen l)) ≠ 0)
    (hIE : numIntEnd l ≤ n)
    (hstop : ∀ c, l'[n]? = some c → numCont c = false) :
    numIntEnd l' = numIntEnd l ∧ digitSpan (l'.drop (numSignLen l')) ≠ 0 := by
  have hS1 := numSignLen_le_one l
  have hIEg := numIntEnd_ge l hz
  have h0n : 0 < n := by omega
  have hSeq := numSignLen_agree h0n hag
  have hSn : numSignLen l < n := by omega
  have hchar : l'[numSignLen l]? = l[numSignLen l]? := (hag _ hSn).symm
  have hz' : digitSpan (l'.drop (numSignLen l')) ≠ 0 := by
    rw [hSeq]
    intro hq
    rw [digitSpan_zero_iff] at hq
    rcases Nat.eq_zero_or_pos (digitSpan (l.drop (numSignLen l))) with hq2 | hq2
    · exact hz hq2
    · obtain ⟨c, hc, hdig⟩ := digitSpan_digit (l.drop (numSignLen l)) 0 hq2
      rw [getElem?_drop_add, Nat.add_zero] at hc
      have := hq c (by rw [getElem?_drop_add, Nat.add_zero, hchar]; exact hc)
      rw [this] at hdig
      exact absurd hdig (by simp)
  refine ⟨?_, hz'⟩
  unfold numIntEnd
  rw [hSeq, hchar]
  by_cases h0 : l[numSignLen l]? = some '0'
  · rw [if_pos h0, if_pos h0]
  · rw [if_neg h0, if_neg h0]
    congr 1
    have hd : numSignLen l + digitSpan (l.drop (numSignLen l)) ≤ n := by
      have : numIntEnd l = numSignLen l + digitSpan (l.drop (numSignLen l)) := by
        unfold numIntEnd
        rw [if_neg h0]
      omega
    exact span_transfer rfl hd hag
      (fun hpd c hc => numCont_false_not_digit (hstop c hc))

theorem numFracEnd_agree {l l' : List Char} {n : Nat}
    (hag : ∀ i, i < n → l[i]? = l'[i]?)
    (hz : digitSpan (l.drop (numSignLen l)) ≠ 0)
    (hFE : numFracEnd l ≤ n)
    (hstop : ∀ c, l'[n]? = some c → numCont c = false) :
    numFracEnd l' = numFracEnd l := by
  have hIEg := numIntEnd_ge l hz
  have hFEg := numFracEnd_ge l
  obtain ⟨hIEeq, hz'⟩ := numIntEnd_agree hag hz (by omega) hstop
  by_cases hIEn : numIntEnd l < n
  · have hchar : l'[numIntEnd l]? = l[numIntEnd l]? := (hag _ hIEn).symm
    by_cases hdot : l[numIntEnd l]? = some '.'
    · by_cases hzf : digitSpan (l.drop (numIntEnd l + 1)) = 0
      · have hzf' : digitSpan (l'.drop (numIntEnd l + 1)) = 0 := by
          rw [digitSpan_zero_iff] at hzf ⊢
          intro c hc
          rw [getElem?_drop_add, Nat.add_zero] at hc
          rcases Nat.lt_or_ge (numIntEnd l + 1) n with hlt | hge
          · exact hzf c (by rw [getElem?_drop_add, Nat.add_zero, hag _ hlt]; exact hc)
          · have hn : numIntEnd l + 1 = n := by omega
            exact numCont_false_not_digit (hstop c (hn ▸ hc))
        unfold numFracEnd
        rw [hIEeq, hchar, if_pos hdot, if_pos hdot, if_pos hzf, if_pos hzf']
      · have hFEval : numFracEnd l =
            numIntEnd l + 1 + digitSpan (l.drop (numIntEnd l + 1)) := by
          unfold numFracEnd
          rw [if_pos hdot, if_neg hzf]
        have hsp : digitSpan (l'.drop (numIntEnd l + 1)) =
            digitSpan (l.drop (numIntEnd l + 1)) :=
          span_transfer rfl (by omega) hag
            (fun hpd c hc => numCont_false_not_digit (hstop c hc))
        have hzf'' : digitSpan (l'.drop (numIntEnd l + 1)) ≠ 0 := by
          rw [hsp]
          exact hzf
        unfold numFracEnd
        rw [hIEeq, hchar, if_pos hdot, if_pos hdot, if_neg hzf, if_neg hzf'', hsp]
    · unfold numFracEnd
      rw [hIEeq, hchar, if_neg hdot, if_neg hdot]
  · have hIEn' : numIntEnd l = n := by omega
    have hFEIE : numFracEnd l = numIntEnd l := by
      by_cases hdot : l[numIntEnd l]? = some '.'
      · by_cases hzf : digitSpan (l.drop (numIntEnd l + 1)) = 0
        · unfold numFracEnd
          rw [if_pos hdot, if_pos hzf]
        · exfalso
          have hv : numFracEnd l =
              numIntEnd l + 1 + digitSpan (l.drop (numIntEnd l + 1)) := by
            unfold numFracEnd
            rw [if_pos hdot, if_neg hzf]
          omega
      · unfold numFracEnd
        rw [if_neg hdot]
    have hdot' : ¬ l'[numIntEnd l]? = some '.' := by
      rw [hIEn']
      intro hc
      exact (numCont_false_ne_dot (hstop '.' hc)) rfl
    have hgoal : numFracEnd l' = numIntEnd l := by
      unfold numFracEnd
      rw [hIEeq, if_neg hdot']
    rw [hgoal, hFEIE]

theorem numExpEnd_agree {l l' : List Char} {n : Nat}
    (hag : ∀ i, i < n → l[i]? = l'[i]?)
    (hz : digitSpan (l.drop (numSignLen l)) ≠ 0)
    (hEE : numExpEnd l = n)
    (hstop : ∀ c, l'[n]? = some c → numCont c = false) :
    numExpEnd l' = numExpEnd l := by
  have hFEg := numFracEnd_ge l
  have hEEg := numExpEnd_ge l
  have hlen := numExpEnd_le_length l
  have hFEeq : numFracEnd l' = numFracEnd l :=
    numFracEnd_agree hag hz (by omega) hstop
  by_cases hFEn : numFracEnd l < n
  · have hchar : l'[numFracEnd l]? = l[numFracEnd l]? := (hag _ hFEn).symm
    obtain ⟨c, hfc⟩ := exists_getElem?_of_lt
      (show numFracEnd l < l.length by omega)
    by_cases he : (c = 'e' || c = 'E') = true
    · by_cases hzE : digitSpan (l.drop (numFracEnd l + 1 + numExpSg l)) = 0
      · exfalso
        have hv : numExpEnd l = numFracEnd l := by
          unfold numExpEnd
          rw [hfc]
          simp only []
          rw [if_pos he, if_pos hzE]
        omega
      · have hv : numExpEnd l = numFracEnd l + 1 + numExpSg l +
            digitSpan (l.drop (numFracEnd l + 1 + numExpSg l)) := by
          unfold numExpEnd
          rw [hfc]
          simp only []
          rw [if_pos he, if_neg hzE]
        have hsgle : numExpSg l ≤ 1 := by
          unfold numExpSg
          rcases l[numFracEnd l + 1]? with _ | c2
          · simp
          · simp only []
            split_ifs <;> omega
        have hdEpos : 1 ≤ digitSpan (l.drop (numFracEnd l + 1 + numExpSg l)) := by
          omega
        have hFE1n : numFracEnd l + 1 < n := by omega
        have hsgeq : numExpSg l' = numExpSg l := by
          unfold numExpSg
          rw [hFEeq, ← hag (numFracEnd l + 1) hFE1n]
        have hsp : digitSpan (l'.drop (numFracEnd l + 1 + numExpSg l)) =
            digitSpan (l.drop (numFracEnd l + 1 + numExpSg l)) :=
          span_transfer rfl (by omega) hag
            (fun hpd c2 hc2 => numCont_false_not_digit (hstop c2 hc2))
        have hzE' : digitSpan (l'.drop (numFracEnd l + 1 + numExpSg l)) ≠ 0 := by
          rw [hsp]
          exact hzE
        unfold numExpEnd
        rw [hFEeq, hchar, hfc]
        simp only []
        rw [if_pos he, if_pos he, if_neg hzE, hsgeq]
        rw [if_neg hzE', hsp]
    · exfalso
      have hv : numExpEnd l = numFracEnd l := by
        unfold numExpEnd
        rw [hfc]
        simp only []
        rw [if_neg he]
      omega
  · have hFEn' : numFracEnd l = n := by omega
    have hEEFE : numExpEnd l = numFracEnd l := by omega
    have hgoal : numExpEnd l' = numFracEnd l := by
      unfold numExpEnd
      rw [hFEeq, hFEn']
      rcases hfc' : l'[n]? with _ | c
      · simp only []
      · simp only []
        have hne := numCont_false_ne_exp (hstop c hfc')
        rw [if_neg (by simp [hne.1, hne.2])]
    rw [hgoal, hEEFE]

theorem parseNum_master {l l' : List Char} {lex : String} {n : Nat}
    (h : parseNum l = some (lex, n))
    (hag : ∀ i, i < n → l[i]? = l'[i]?)
    (hstop : ∀ c, l'[n]? = some c → numCont c = false) :
    parseNum l' = some (lex, n) := by
  obtain ⟨h1, h2, hlex, hEE⟩ := parseNum_bounds l lex n h
  unfold parseNum at h
  split_ifs at h with hz
  obtain ⟨-, hz'⟩ := numIntEnd_agree hag hz
    (by have := numFracEnd_ge l; have := numExpEnd_ge l; omega) hstop
  have hEE' : numExpEnd l' = numExpEnd l := numExpEnd_agree hag hz hEE.symm hstop
  unfold parseNum
  rw [if_neg hz']
  have htake : l'.take n = l.take n := (getElem?_agree_take hag).symm
  rw [hEE', ← hEE, htake, hlex]

theorem parseNum_take_self {l : List Char} {lex : String} {n : Nat}
    (h : parseNum l = some (lex, n)) : parseNum (l.take n) = some (lex, n) := by
  apply parseNum_master h
  · intro i hi
    rw [List.getElem?_take, if_pos hi]
  · intro c hc
    rw [List.getElem?_take] at hc
    split_ifs at hc with hx
    omega

theorem parseNum_prefix_exp (l : List Char) (n m : Nat)
    (hm : m < n) (hnlen : n ≤ l.length) (hEEn : n = numExpEnd l)
    (hzT : ¬ digitSpan ((l.take m).drop (numSignLen (l.take m))) = 0)
    (hFETeq : numFracEnd (l.take m) = numFracEnd l)
    (hFElt : numFracEnd l < m) :
    parseNum (l.take m) = none ∨
    (∃ lex2, parseNum (l.take m) = some (lex2, m)) ∨
    (∃ lex2 n2, parseNum (l.take m) = some (lex2, n2) ∧ n2 < m ∧
      ∃ c, l[n2]? = some c ∧ (c = '.' ∨ c = 'e' ∨ c = 'E')) := by
  have hagT : ∀ i, i < m → (l.take m)[i]? = l[i]? := fun i hi => by
    rw [List.getElem?_take, if_pos hi]
  have hTnone : ∀ i, m ≤ i → (l.take m)[i]? = none := fun i hi => by
    rw [List.getElem?_take, if_neg (by omega)]
  have hdSpanT : ∀ p, digitSpan ((l.take m).drop p) =
      min (digitSpan (l.drop p)) (m - p) := by
    intro p
    rw [List.drop_take]
    exact digitSpan_take (l.drop p) (m - p)
  obtain ⟨c, hc⟩ := exists_getElem?_of_lt
    (show numFracEnd l < l.length by omega)
  have hcharFE : (l.take m)[numFracEnd l]? = l[numFracEnd l]? := hagT _ hFElt
  by_cases he : (c = 'e' || c = 'E') = true
  · by_cases hdE0 : digitSpan (l.drop (numFracEnd l + 1 + numExpSg l)) = 0
    · exfalso
      have hv : numExpEnd l = numFracEnd l := by
        unfold numExpEnd
        rw [hc]
        simp only []
        rw [if_pos he, if_pos hdE0]
      omega
    · have hEEval : n = numFracEnd l + 1 + numExpSg l +
          digitSpan (l.drop (numFracEnd l + 1 + numExpSg l)) := by
        rw [hEEn]
        unfold numExpEnd
        rw [hc]
        simp only []
        rw [if_pos he, if_neg hdE0]
      have hsgle : numExpSg l ≤ 1 := by
        unfold numExpSg
        rcases l[numFracEnd l + 1]? with _ | c2
        · simp
        · simp only []
          split_ifs <;> omega
      have hcE : c = 'e' ∨ c = 'E' := by
        rcases Bool.or_eq_true_iff.mp he with h1 | h1
        · exact Or.inl (by simpa using h1)
        · exact Or.inr (by simpa using h1)
      by_cases hmFE1 : m = numFracEnd l + 1
      · have hsgT : numExpSg (l.take m) = 0 := by
          unfold numExpSg
          rw [hFETeq, hTnone (numFracEnd l + 1) (by omega)]
        have hdET : digitSpan ((l.take m).drop (numFracEnd l + 1 + 0)) = 0 := by
          rw [hdSpanT]
          omega
        have hEET : numExpEnd (l.take m) = numFracEnd l := by
          unfold numExpEnd
          rw [hFETeq, hcharFE, hc]
          simp only []
          rw [if_pos he, hsgT, hdET]
          simp
        refine Or.inr (Or.inr ⟨String.mk ((l.take m).take (numFracEnd l)),
          numFracEnd l, ?_, by omega, c, hc, Or.inr hcE⟩)
        unfold parseNum
        rw [if_neg hzT, hEET]
      · have hFE1m : numFracEnd l + 1 < m := by omega
        have hsgT : numExpSg (l.take m) = numExpSg l := by
          unfold numExpSg
          rw [hFETeq, hagT _ hFE1m]
        by_cases hmFE2 : m ≤ numFracEnd l + 1 + numExpSg l
        · have hdET : digitSpan ((l.take m).drop
              (numFracEnd l + 1 + numExpSg l)) = 0 := by
            rw [hdSpanT]
            omega
          have hEET : numExpEnd (l.take m) = numFracEnd l := by
            unfold numExpEnd
            rw [hFETeq, hcharFE, hc]
            simp only []
            rw [if_pos he, hsgT, hdET]
            simp
          refine Or.inr (Or.inr ⟨String.mk ((l.take m).take (numFracEnd l)),
            numFracEnd l, ?_, by omega, c, hc, Or.inr hcE⟩)
          unfold parseNum
          rw [if_neg hzT, hEET]
        · have hdET : digitSpan ((l.take m).drop
              (numFracEnd l + 1 + numExpSg l)) =
              m - (numFracEnd l + 1 + numExpSg l) := by
            rw [hdSpanT]
            omega
          have hdETpos : digitSpan ((l.take m).drop
              (numFracEnd l + 1 + numExpSg l)) ≠ 0 := by
            rw [hdET]
            omega
          have hEET : numExpEnd (l.take m) = m := by
            unfold numExpEnd
            rw [hFETeq, hcharFE, hc]
            simp only []
            rw [if_pos he, hsgT, if_neg hdETpos, hdET]
            omega
          refine Or.inr (Or.inl ⟨String.mk ((l.take m).take m), ?_⟩)
          unfold parseNum
          rw [if_neg hzT, hEET]
  · exfalso
    have hv : numExpEnd l = numFracEnd l := by
      unfold numExpEnd
      rw [hc]
      simp only []
      rw [if_neg he]
    omega

theorem numExpEnd_stop_none (l : List Char) (h : l[numFracEnd l]? = none) :
    numExpEnd l = numFracEnd l := by
  simp only [numExpEnd, h]

theorem numExpEnd_stop (l : List Char) (c : Char)
    (hc : l[numFracEnd l]? = some c) (hne : (c = 'e' || c = 'E') = false) :
    numExpEnd l = numFracEnd l := by
  unfold numExpEnd
  rw [hc]
  simp only []
  rw [if_neg (by simp [hne])]

theorem parseNum_prefix_frac (l : List Char) (n m : Nat)
    (hm : m < n) (hnlen : n ≤ l.length) (hEEn : n = numExpEnd l)
    (hzT : ¬ digitSpan ((l.take m).drop (numSignLen (l.take m))) = 0)
    (hIETeq : numIntEnd (l.take m) = numIntEnd l)
    (hIEle : numIntEnd l ≤ m) :
    parseNum (l.take m) = none ∨
    (∃ lex2, parseNum (l.take m) = some (lex2, m)) ∨
    (∃ lex2 n2, parseNum (l.take m) = some (lex2, n2) ∧ n2 < m ∧
      ∃ c, l[n2]? = some c ∧ (c = '.' ∨ c = 'e' ∨ c = 'E')) := by
  have hagT : ∀ i, i < m → (l.take m)[i]? = l[i]? := fun i hi => by
    rw [List.getElem?_take, if_pos hi]
  have hTnone : ∀ i, m ≤ i → (l.take m)[i]? = none := fun i hi => by
    rw [List.getElem?_take, if_neg (by omega)]
  have hdSpanT : ∀ p, digitSpan ((l.take m).drop p) =
      min (digitSpan (l.drop p)) (m - p) := by
    intro p
    rw [List.drop_take]
    exact digitSpan_take (l.drop p) (m - p)
  by_cases hIEltm : numIntEnd l < m
  · have hcharIE : (l.take m)[numIntEnd l]? = l[numIntEnd l]? := hagT _ hIEltm
    by_cases hdot : l[numIntEnd l]? = some '.'
    · by_cases hdF0 : digitSpan (l.drop (numIntEnd l + 1)) = 0
      · have hdFT : digitSpan ((l.take m).drop (numIntEnd l + 1)) = 0 := by
          rw [hdSpanT]
          omega
        have hFETv : numFracEnd (l.take m) = numIntEnd l := by
          unfold numFracEnd
          rw [hIETeq, hcharIE, if_pos hdot, hdFT]
          simp
        have hFEv : numFracEnd l = numIntEnd l := by
          unfold numFracEnd
          rw [if_pos hdot, if_pos hdF0]
        have hFETeq : numFracEnd (l.take m) = numFracEnd l := by
          rw [hFETv, hFEv]
        exact parseNum_prefix_exp l n m hm hnlen hEEn hzT hFETeq (by omega)
      · have hFEv : numFracEnd l =
            numIntEnd l + 1 + digitSpan (l.drop (numIntEnd l + 1)) := by
          unfold numFracEnd
          rw [if_pos hdot, if_neg hdF0]
        have hdFpos : 0 < digitSpan (l.drop (numIntEnd l + 1)) :=
          Nat.pos_of_ne_zero hdF0
        by_cases hmIE1 : m = numIntEnd l + 1
        · have hdFT : digitSpan ((l.take m).drop (numIntEnd l + 1)) = 0 := by
            rw [hdSpanT]
            omega
          have hFETv : numFracEnd (l.take m) = numIntEnd l := by
            unfold numFracEnd
            rw [hIETeq, hcharIE, if_pos hdot, hdFT]
            simp
          have hEET : numExpEnd (l.take m) = numIntEnd l := by
            have hcT : (l.take m)[numFracEnd (l.take m)]? = some '.' := by
              rw [hFETv, hcharIE]
              exact hdot
            rw [numExpEnd_stop (l.take m) '.' hcT (by decide), hFETv]
          refine Or.inr (Or.inr ⟨String.mk ((l.take m).take (numIntEnd l)),
            numIntEnd l, ?_, hIEltm, '.', hdot, Or.inl rfl⟩)
          unfold parseNum
          rw [if_neg hzT, hEET]
        · by_cases hmFE : m ≤ numFracEnd l
          · have hdFT : digitSpan ((l.take m).drop (numIntEnd l + 1)) =
                m - (numIntEnd l + 1) := by
              rw [hdSpanT]
              omega
            have hdFTne : digitSpan ((l.take m).drop (numIntEnd l + 1)) ≠ 0 := by
              rw [hdFT]
              omega
            have hFETv : numFracEnd (l.take m) = m := by
              unfold numFracEnd
              rw [hIETeq, hcharIE, if_pos hdot, if_neg hdFTne, hdFT]
              omega
            have hEET : numExpEnd (l.take m) = m := by
              rw [numExpEnd_stop_none (l.take m)
                (by rw [hFETv]; exact hTnone m le_rfl), hFETv]
            refine Or.inr (Or.inl ⟨String.mk ((l.take m).take m), ?_⟩)
            unfold parseNum
            rw [if_neg hzT, hEET]
          · have hdFT : digitSpan ((l.take m).drop (numIntEnd l + 1)) =
                digitSpan (l.drop (numIntEnd l + 1)) := by
              rw [hdSpanT]
              omega
            have hdFTne : digitSpan ((l.take m).drop (numIntEnd l + 1)) ≠ 0 := by
              rw [hdFT]
              exact hdF0
            have hFETeq : numFracEnd (l.take m) = numFracEnd l := by
              unfold numFracEnd
              rw [hIETeq, hcharIE, if_pos hdot, if_pos hdot, if_neg hdFTne,
                if_neg hdF0, hdFT]
            exact parseNum_prefix_exp l n m hm hnlen hEEn hzT hFETeq (by omega)
    · have hFEv : numFracEnd l = numIntEnd l := by
        unfold numFracEnd
        rw [if_neg hdot]
      have hFETv : numFracEnd (l.take m) = numIntEnd l := by
        unfold numFracEnd
        rw [hIETeq, hcharIE, if_neg hdot]
      have hFETeq : numFracEnd (l.take m) = numFracEnd l := by
        rw [hFETv, hFEv]
      exact parseNum_prefix_exp l n m hm hnlen hEEn hzT hFETeq (by omega)
  · have hIEm : numIntEnd l = m := by omega
    have hFETv : numFracEnd (l.take m) = m := by
      unfold numFracEnd
      rw [hIETeq, hIEm, hTnone m le_rfl]
      simp
    have hEET : numExpEnd (l.take m) = m := by
      rw [numExpEnd_stop_none (l.take m)
        (by rw [hFETv]; exact hTnone m le_rfl), hFETv]
    refine Or.inr (Or.inl ⟨String.mk ((l.take m).take m), ?_⟩)
    unfold parseNum
    rw [if_neg hzT, hEET]

theorem parseNum_pref (l : List Char) (lex : String) (n m : Nat)
    (h : parseNum l = some (lex, n)) (hm : m < n) :
    parseNum (l.take m) = none ∨
    (∃ lex2, parseNum (l.take m) = some (lex2, m)) ∨
    (∃ lex2 n2, parseNum (l.take m) = some (lex2, n2) ∧ n2 < m ∧
      ∃ c, l[n2]? = some c ∧ (c = '.' ∨ c = 'e' ∨ c = 'E')) := by
  obtain ⟨h1n, hnlen, hlexv, hEEn⟩ := parseNum_bounds l lex n h
  have hz : ¬ digitSpan (l.drop (numSignLen l)) = 0 := by
    intro h0
    unfold parseNum at h
    rw [if_pos h0] at h
    exact Option.noConfusion h
  rcases Nat.eq_zero_or_pos m with hm0 | hm0
  · subst hm0
    rw [List.take_zero]
    exact Or.inl rfl
  have hagT : ∀ i, i < m → (l.take m)[i]? = l[i]? := fun i hi => by
    rw [List.getElem?_take, if_pos hi]
  have hTnone : ∀ i, m ≤ i → (l.take m)[i]? = none := fun i hi => by
    rw [List.getElem?_take, if_neg (by omega)]
  have hdSpanT : ∀ p, digitSpan ((l.take m).drop p) =
      min (digitSpan (l.drop p)) (m - p) := by
    intro p
    rw [List.drop_take]
    exact digitSpan_take (l.drop p) (m - p)
  have hS_T : numSignLen (l.take m) = numSignLen l := by
    unfold numSignLen
    rw [hagT 0 hm0]
  by_cases hSm : numSignLen l < m
  · have hdIntPos : 0 < digitSpan (l.drop (numSignLen l)) := Nat.pos_of_ne_zero hz
    have hzT : ¬ digitSpan ((l.take m).drop (numSignLen (l.take m))) = 0 := by
      rw [hS_T, hdSpanT]
      omega
    have hchar0 : (l.take m)[numSignLen l]? = l[numSignLen l]? := hagT _ hSm
    by_cases h0 : l[numSignLen l]? = some '0'
    · have hIEval : numIntEnd l = numSignLen l + 1 := by
        unfold numIntEnd
        rw [if_pos h0]
      have hIET : numIntEnd (l.take m) = numIntEnd l := by
        unfold numIntEnd
        rw [hS_T, hchar0, if_pos h0, if_pos h0]
      exact parseNum_prefix_frac l n m hm hnlen hEEn hzT hIET (by omega)
    · have hIEval : numIntEnd l =
          numSignLen l + digitSpan (l.drop (numSignLen l)) := by
        unfold numIntEnd
        rw [if_neg h0]
      have hIET : numIntEnd (l.take m) = min (numIntEnd l) m := by
        unfold numIntEnd
        rw [hS_T, hchar0, if_neg h0, if_neg h0, hdSpanT]
        omega
      by_cases hmIE : m < numIntEnd l
      · have hIETm : numIntEnd (l.take m) = m := by
          rw [hIET]
          omega
        have hFETv : numFracEnd (l.take m) = m := by
          unfold numFracEnd
          rw [hIETm, hTnone m le_rfl]
          simp
        have hEET : numExpEnd (l.take m) = m := by
          rw [numExpEnd_stop_none (l.take m)
            (by rw [hFETv]; exact hTnone m le_rfl), hFETv]
        refine Or.inr (Or.inl ⟨String.mk ((l.take m).take m), ?_⟩)
        unfold parseNum
        rw [if_neg hzT, hEET]
      · have hIETeq : numIntEnd (l.take m) = numIntEnd l := by
          rw [hIET]
          omega
        exact parseNum_prefix_frac l n m hm hnlen hEEn hzT hIETeq (by omega)
  · have hSle := numSignLen_le_one l
    have hdT0 : digitSpan ((l.take m).drop (numSignLen (l.take m))) = 0 := by
      rw [hS_T, hdSpanT]
      omega
    exact Or.inl (by unfold parseNum; rw [if_pos hdT0])

theorem escChar_u : escChar 'u' = none := rfl

theorem scanString_bounds (N : Nat) : ∀ (l acc : List Char) (s : String) (n : Nat),
    l.length ≤ N → scanString l acc = some (s, n) → 1 ≤ n ∧ n ≤ l.length := by
  induction N with
  | zero =>
    intro l acc s n hlen h
    rw [List.length_eq_zero.mp (Nat.le_zero.mp hlen)] at h
    exact absurd h (fun hc => Option.noConfusion hc)
  | succ N ih =>
    intro l acc s n hlen h
    rw [scanString.eq_def] at h
    split at h
    · exact absurd h (fun hc => Option.noConfusion hc)
    · rw [Option.some.injEq, Prod.mk.injEq] at h
      obtain ⟨hs, hn⟩ := h
      exact ⟨by omega, by simp; omega⟩
    · rename_i h1 h2 h3 h4 rest
      split at h
      · rename_i nq hq
        obtain ⟨⟨s1, n1⟩, hrec, hmap⟩ := Option.map_eq_some'.mp h
        simp only [Prod.mk.injEq] at hmap
        obtain ⟨hs, hn⟩ := hmap
        have hb := ih rest (Char.ofNat nq :: acc) s1 n1 (by simp at hlen; omega) hrec
        simp
        omega
      · exact absurd h (fun hc => Option.noConfusion hc)
    · rename_i e rest hne
      split at h
      · rename_i ch hch
        obtain ⟨⟨s1, n1⟩, hrec, hmap⟩ := Option.map_eq_some'.mp h
        simp only [Prod.mk.injEq] at hmap
        obtain ⟨hs, hn⟩ := hmap
        have hb := ih rest (ch :: acc) s1 n1 (by simp at hlen; omega) hrec
        simp
        omega
      · exact absurd h (fun hc => Option.noConfusion hc)
    · exact absurd h (fun hc => Option.noConfusion hc)
    · rename_i c rest hne1 hne2 hne3 hne4
      split at h
      · exact absurd h (fun hc => Option.noConfusion hc)
      · obtain ⟨⟨s1, n1⟩, hrec, hmap⟩ := Option.map_eq_some'.mp h
        simp only [Prod.mk.injEq] at hmap
        obtain ⟨hs, hn⟩ := hmap
        have hb := ih rest (c :: acc) s1 n1 (by simp at hlen; omega) hrec
        simp
        omega

theorem scanString_cons_esc (e : Char) (rest acc : List Char) (he : e ≠ 'u') :
    scanString ('\\' :: e :: rest) acc =
      match escChar e with
      | some ch => (scanString rest (ch :: acc)).map (fun p => (p.1, p.2 + 2))
      | none => none := by
  rw [scanString.eq_def]
  split
  · rename_i heq
    exact List.noConfusion heq
  · rename_i heq
    injection heq with hx
    exact absurd hx (by decide)
  · rename_i heq
    injection heq with hx hy
    injection hy with hz
    exact absurd hz he
  · rename_i hno heq
    injection heq with hx hy
    injection hy with hz hw
    rw [hz, hw]
  · rename_i heq
    injection heq with hx hy
    exact List.noConfusion hy
  · rename_i c r hA hB hC hD heq
    injection heq with hx hy
    exact (hC e rest hx.symm hy.symm).elim

theorem scanString_cons_other (c : Char) (rest acc : List Char)
    (h1 : c ≠ '"') (h2 : c ≠ '\\') :
    scanString (c :: rest) acc =
      if c.toNat < 32 then none
      else (scanString rest (c :: acc)).map (fun p => (p.1, p.2 + 1)) := by
  rw [scanString.eq_def]
  split
  · rename_i heq
    exact List.noConfusion heq
  · rename_i heq
    injection heq with hx
    exact absurd hx h1
  · rename_i heq
    injection heq with hx
    exact absurd hx h2
  · rename_i hno heq
    injection heq with hx
    exact absurd hx h2
  · rename_i heq
    injection heq with hx
    exact absurd hx h2
  · rename_i c2 r hA hB hC hD heq
    injection heq with hx hy
    rw [← hx, ← hy]

theorem agree_head {a a' : Char} {l l' : List Char} {n : Nat} (hn : 0 < n)
    (hag : ∀ i, i < n → (a :: l)[i]? = (a' :: l')[i]?) : a = a' := by
  have := hag 0 hn
  simpa using this

theorem agree_tail {a a' : Char} {l l' : List Char} {n : Nat}
    (hag : ∀ i, i < n → (a :: l)[i]? = (a' :: l')[i]?) :
    ∀ i, i < n - 1 → l[i]? = l'[i]? := by
  intro i hi
  have := hag (i + 1) (by omega)
  simpa using this

theorem scanString_agree (N : Nat) : ∀ (l l' acc : List Char) (s : String) (n : Nat),
    l.length ≤ N → scanString l acc = some (s, n) →
    (∀ i, i < n → l[i]? = l'[i]?) → scanString l' acc = some (s, n) := by
  induction N with
  | zero =>
    intro l l' acc s n hlen h hag
    rw [List.length_eq_zero.mp (Nat.le_zero.mp hlen)] at h
    exact absurd h (fun hc => Option.noConfusion hc)
  | succ N ih =>
    intro l l' acc s n hlen h hag
    rw [scanString.eq_def] at h
    split at h
    · exact absurd h (fun hc => Option.noConfusion hc)
    · rename_i tl
      rw [Option.some.injEq, Prod.mk.injEq] at h
      obtain ⟨hs, hn⟩ := h
      rcases l' with _ | ⟨d0, tl'⟩
      · have h0 := hag 0 (by omega)
        simp at h0
      · have hd := agree_head (by omega) hag
        rw [← hd]
        rw [show scanString ('"' :: tl') acc = some (⟨acc.reverse⟩, 1) from rfl, hs, hn]
    · rename_i c1 c2 c3 c4 rest
      split at h
      · rename_i nq hq
        obtain ⟨⟨s1, n1⟩, hrec, hmap⟩ := Option.map_eq_some'.mp h
        simp only [Prod.mk.injEq] at hmap
        obtain ⟨hs, hn⟩ := hmap
        have hb := scanString_bounds N rest (Char.ofNat nq :: acc) s1 n1
          (by simp at hlen; omega) hrec
        rcases l' with _ | ⟨d0, l'⟩
        · have h0 := hag 0 (by omega)
          simp at h0
        have hd0 := agree_head (by omega) hag
        have hag1 := agree_tail hag
        rcases l' with _ | ⟨d1, l'⟩
        · have h0 := hag1 0 (by omega)
          simp at h0
        have hd1 := agree_head (by omega) hag1
        have hag2 := agree_tail hag1
        rcases l' with _ | ⟨d2, l'⟩
        · have h0 := hag2 0 (by omega)
          simp at h0
        have hd2 := agree_head (by omega) hag2
        have hag3 := agree_tail hag2
        rcases l' with _ | ⟨d3, l'⟩
        · have h0 := hag3 0 (by omega)
          simp at h0
        have hd3 := agree_head (by omega) hag3
        have hag4 := agree_tail hag3
        rcases l' with _ | ⟨d4, l'⟩
        · have h0 := hag4 0 (by omega)
          simp at h0
        have hd4 := agree_head (by omega) hag4
        have hag5 := agree_tail hag4
        rcases l' with _ | ⟨d5, l'⟩
        · have h0 := hag5 0 (by omega)
          simp at h0
        have hd5 := agree_head (by omega) hag5
        have hag6 := agree_tail hag5
        subst hd0 hd1 hd2 hd3 hd4 hd5
        have hred : scanString ('\\' :: 'u' :: c1 :: c2 :: c3 :: c4 :: l') acc =
            (scanString l' (Char.ofNat nq :: acc)).map (fun p => (p.1, p.2 + 6)) := by
          rw [scanString.eq_def]
          simp only []
          rw [hq]
        rw [hred, ih rest l' (Char.ofNat nq :: acc) s1 n1 (by simp at hlen; omega)
          hrec (fun i hi => hag6 i (by omega))]
        simp only [Option.map_some']
        rw [hs, hn]
      · exact absurd h (fun hc => Option.noConfusion hc)
    · rename_i e rest hne
      split at h
      · rename_i ch hch
        obtain ⟨⟨s1, n1⟩, hrec, hmap⟩ := Option.map_eq_some'.mp h
        simp only [Prod.mk.injEq] at hmap
        obtain ⟨hs, hn⟩ := hmap
        have hb := scanString_bounds N rest (ch :: acc) s1 n1
          (by simp at hlen; omega) hrec
        have he : e ≠ 'u' := fun hh => by
          rw [hh, escChar_u] at hch
          exact Option.noConfusion hch
        rcases l' with _ | ⟨d0, l'⟩
        · have h0 := hag 0 (by omega)
          simp at h0
        have hd0 := agree_head (by omega) hag
        have hag1 := agree_tail hag
        rcases l' with _ | ⟨d1, l'⟩
        · have h0 := hag1 0 (by omega)
          simp at h0
        have hd1 := agree_head (by omega) hag1
        have hag2 := agree_tail hag1
        subst hd0 hd1
        rw [scanString_cons_esc e l' acc he, hch]
        simp only []
        rw [ih rest l' (ch :: acc) s1 n1 (by simp at hlen; omega)
          hrec (fun i hi => hag2 i (by omega))]
        simp only [Option.map_some']
        rw [hs, hn]
      · exact absurd h (fun hc => Option.noConfusion hc)
    · exact absurd h (fun hc => Option.noConfusion hc)
    · rename_i c rest hA hB hC hD
      split at h
      · exact absurd h (fun hc => Option.noConfusion hc)
      · rename_i hge
        obtain ⟨⟨s1, n1⟩, hrec, hmap⟩ := Option.map_eq_some'.mp h
        simp only [Prod.mk.injEq] at hmap
        obtain ⟨hs, hn⟩ := hmap
        have hb := scanString_bounds N rest (c :: acc) s1 n1
          (by simp at hlen; omega) hrec
        have hc1 : c ≠ '"' := fun hh => hA hh
        have hc2 : c ≠ '\\' := fun hh => by
          rcases rest with _ | ⟨e1, r1⟩
          · exact hD hh rfl
          · exact hC e1 r1 hh rfl
        rcases l' with _ | ⟨d0, l'⟩
        · have h0 := hag 0 (by omega)
          simp at h0
        have hd0 := agree_head (by omega) hag
        have hag1 := agree_tail hag
        subst hd0
        rw [scanString_cons_other c l' acc hc1 hc2, if_neg hge]
        rw [ih rest l' (c :: acc) s1 n1 (by simp at hlen; omega)
          hrec (fun i hi => hag1 i (by omega))]
        simp only [Option.map_some']
        rw [hs, hn]

theorem scanString_pref (N : Nat) : ∀ (l acc : List Char) (s : String) (n m : Nat),
    l.length ≤ N → scanString l acc = some (s, n) → m < n →
    scanString (l.take m) acc = none := by
  induction N with
  | zero =>
    intro l acc s n m hlen h hm
    rw [List.length_eq_zero.mp (Nat.le_zero.mp hlen)] at h
    exact absurd h (fun hc => Option.noConfusion hc)
  | succ N ih =>
    intro l acc s n m hlen h hm
    rw [scanString.eq_def] at h
    split at h
    · exact absurd h (fun hc => Option.noConfusion hc)
    · rw [Option.some.injEq, Prod.mk.injEq] at h
      obtain ⟨hs, hn⟩ := h
      have hm0 : m = 0 := by omega
      subst hm0
      rfl
    · rename_i c1 c2 c3 c4 rest
      split at h
      · rename_i nq hq
        obtain ⟨⟨s1, n1⟩, hrec, hmap⟩ := Option.map_eq_some'.mp h
        simp only [Prod.mk.injEq] at hmap
        obtain ⟨hs, hn⟩ := hmap
        rcases m with _ | _ | _ | _ | _ | _ | m
        · rfl
        · rfl
        · rfl
        · rfl
        · rfl
        · rfl
        · show scanString ('\\' :: 'u' :: c1 :: c2 :: c3 :: c4 :: rest.take m) acc = none
          rw [scanString.eq_def]
          simp only []
          rw [hq]
          simp only []
          rw [ih rest (Char.ofNat nq :: acc) s1 n1 m
            (by simp at hlen; omega) hrec (by omega)]
          rfl
      · exact absurd h (fun hc => Option.noConfusion hc)
    · rename_i e rest hne
      split at h
      · rename_i ch hch
        obtain ⟨⟨s1, n1⟩, hrec, hmap⟩ := Option.map_eq_some'.mp h
        simp only [Prod.mk.injEq] at hmap
        obtain ⟨hs, hn⟩ := hmap
        have he : e ≠ 'u' := fun hh => by
          rw [hh, escChar_u] at hch
          exact Option.noConfusion hch
        rcases m with _ | _ | m
        · rfl
        · rfl
        · show scanString ('\\' :: e :: rest.take m) acc = none
          rw [scanString_cons_esc e (rest.take m) acc he, hch]
          simp only []
          rw [ih rest (ch :: acc) s1 n1 m (by simp at hlen; omega) hrec (by omega)]
          rfl
      · exact absurd h (fun hc => Option.noConfusion hc)
    · exact absurd h (fun hc => Option.noConfusion hc)
    · rename_i c rest hA hB hC hD
      split at h
      · exact absurd h (fun hc => Option.noConfusion hc)
      · rename_i hge
        obtain ⟨⟨s1, n1⟩, hrec, hmap⟩ := Option.map_eq_some'.mp h
        simp only [Prod.mk.injEq] at hmap
        obtain ⟨hs, hn⟩ := hmap
        have hc1 : c ≠ '"' := fun hh => hA hh
        have hc2 : c ≠ '\\' := fun hh => by
          rcases rest with _ | ⟨e1, r1⟩
          · exact hD hh rfl
          · exact hC e1 r1 hh rfl
        rcases m with _ | m
        · rfl
        · show scanString (c :: rest.take m) acc = none
          rw [scanString_cons_other c (rest.take m) acc hc1 hc2, if_neg hge]
          rw [ih rest (c :: acc) s1 n1 m (by simp at hlen; omega) hrec (by omega)]
          rfl

theorem head?_drop_some_lt {l : List Char} {j : Nat} {c : Char}
    (h : (l.drop j).head? = some c) : j < l.length ∧ l[j]? = some c := by
  rw [List.head?_eq_getElem?, getElem?_drop_add, Nat.add_zero] at h
  exact ⟨getElem?_some_lt h, h⟩

theorem parseStep_bounds (f : Nat) : ∀ (md : PMode) (l : List Char) (r : Jv) (n : Nat),
    parseStep f md l = some (r, n) → 1 ≤ n ∧ n ≤ l.length := by
  induction f with
  | zero => intro md l r n h; exact absurd h (fun hc => Option.noConfusion hc)
  | succ f ih =>
    intro md l r n h
    cases md
    case val =>
      simp only [parseStep] at h
      split at h
      · exact absurd h (fun hc => Option.noConfusion hc)
      · rename_i c hc
        have hlen0 : 0 < l.length := by
          rcases l with _ | ⟨a, t⟩
          · exact absurd hc (by simp)
          · simp
        split_ifs at h with h1 h2 h3 h4 h5 h6 g1 g2 g3
        · split at h
          · rename_i s nS hscan
            rw [Option.some.injEq, Prod.mk.injEq] at h
            obtain ⟨hr, hn⟩ := h
            have hb := scanString_bounds (l.drop 1).length (l.drop 1) [] s nS le_rfl hscan
            rw [List.length_drop] at hb
            omega
          · exact absurd h (fun hcon => Option.noConfusion hcon)
        · split at h
          · rename_i r0 n0 hrec
            rw [Option.some.injEq, Prod.mk.injEq] at h
            obtain ⟨hr, hn⟩ := h
            have hb := ih PMode.objFirst (l.drop 1) r0 n0 hrec
            rw [List.length_drop] at hb
            omega
          · exact absurd h (fun hcon => Option.noConfusion hcon)
        · split at h
          · rename_i r0 n0 hrec
            rw [Option.some.injEq, Prod.mk.injEq] at h
            obtain ⟨hr, hn⟩ := h
            have hb := ih PMode.arrFirst (l.drop 1) r0 n0 hrec
            rw [List.length_drop] at hb
            omega
          · exact absurd h (fun hcon => Option.noConfusion hcon)
        · rw [Option.some.injEq, Prod.mk.injEq] at h
          obtain ⟨hr, hn⟩ := h
          have hb := litHere_length h4
          simp at hb
          omega
        · rw [Option.some.injEq, Prod.mk.injEq] at h
          obtain ⟨hr, hn⟩ := h
          have hb := litHere_length h5
          simp at hb
          omega
        · rw [Option.some.injEq, Prod.mk.injEq] at h
          obtain ⟨hr, hn⟩ := h
          have hb := litHere_length h6
          simp at hb
          omega
        · split at h
          · rename_i lex np hnum
            rw [Option.some.injEq, Prod.mk.injEq] at h
            obtain ⟨hr, hn⟩ := h
            have hb := parseNum_bounds l lex np hnum
            omega
          · rw [Option.some.injEq, Prod.mk.injEq] at h
            obtain ⟨hr, hn⟩ := h
            have hb := litHere_length g1
            simp at hb
            omega
        · split at h
          · rename_i lex np hnum
            rw [Option.some.injEq, Prod.mk.injEq] at h
            obtain ⟨hr, hn⟩ := h
            have hb := parseNum_bounds l lex np hnum
            omega
          · rw [Option.some.injEq, Prod.mk.injEq] at h
            obtain ⟨hr, hn⟩ := h
            have hb := litHere_length g2
            simp at hb
            omega
        · split at h
          · rename_i lex np hnum
            rw [Option.some.injEq, Prod.mk.injEq] at h
            obtain ⟨hr, hn⟩ := h
            have hb := parseNum_bounds l lex np hnum
            omega
          · rw [Option.some.injEq, Prod.mk.injEq] at h
            obtain ⟨hr, hn⟩ := h
            have hb := litHere_length g3
            simp at hb
            omega
        · split at h
          · rename_i lex np hnum
            rw [Option.some.injEq, Prod.mk.injEq] at h
            obtain ⟨hr, hn⟩ := h
            have hb := parseNum_bounds l lex np hnum
            omega
          · exact absurd h (fun hcon => Option.noConfusion hcon)
    case arrFirst =>
      simp only [parseStep] at h
      have hws := wsCount_le l
      split at h
      · rename_i hcl
        obtain ⟨hlt, -⟩ := head?_drop_some_lt hcl
        rw [Option.some.injEq, Prod.mk.injEq] at h
        obtain ⟨hr, hn⟩ := h
        omega
      · split at h
        · rename_i v n1 hval
          split at h
          · rename_i vs n2 harr
            rw [Option.some.injEq, Prod.mk.injEq] at h
            obtain ⟨hr, hn⟩ := h
            have hb1 := ih PMode.val (l.drop (wsCount l)) v n1 hval
            have hb2 := ih PMode.arrAfter (l.drop (wsCount l + n1)) (Jv.arr vs) n2 harr
            rw [List.length_drop] at hb1 hb2
            omega
          · exact absurd h (fun hcon => Option.noConfusion hcon)
        · exact absurd h (fun hcon => Option.noConfusion hcon)
    case arrAfter =>
      simp only [parseStep] at h
      have hws := wsCount_le l
      have hws2 := wsCount_le (l.drop (wsCount l + 1))
      rw [List.length_drop] at hws2
      split at h
      · rename_i hcl
        obtain ⟨hlt, -⟩ := head?_drop_some_lt hcl
        rw [Option.some.injEq, Prod.mk.injEq] at h
        obtain ⟨hr, hn⟩ := h
        omega
      · rename_i hcm
        obtain ⟨hlt, -⟩ := head?_drop_some_lt hcm
        split at h
        · rename_i v n1 hval
          split at h
          · rename_i vs n2 harr
            rw [Option.some.injEq, Prod.mk.injEq] at h
            obtain ⟨hr, hn⟩ := h
            have hb1 := ih PMode.val _ v n1 hval
            have hb2 := ih PMode.arrAfter _ (Jv.arr vs) n2 harr
            rw [List.length_drop] at hb1 hb2
            omega
          · exact absurd h (fun hcon => Option.noConfusion hcon)
        · exact absurd h (fun hcon => Option.noConfusion hcon)
      · exact absurd h (fun hcon => Option.noConfusion hcon)
    case objFirst =>
      simp only [parseStep] at h
      have hws := wsCount_le l
      split at h
      · rename_i hcl
        obtain ⟨hlt, -⟩ := head?_drop_some_lt hcl
        rw [Option.some.injEq, Prod.mk.injEq] at h
        obtain ⟨hr, hn⟩ := h
        omega
      · split at h
        · rename_i r0 n0 hrec
          rw [Option.some.injEq, Prod.mk.injEq] at h
          obtain ⟨hr, hn⟩ := h
          have hb := ih PMode.objPair _ r0 n0 hrec
          rw [List.length_drop] at hb
          omega
        · exact absurd h (fun hcon => Option.noConfusion hcon)
    case objAfter =>
      simp only [parseStep] at h
      have hws := wsCount_le l
      have hws2 := wsCount_le (l.drop (wsCount l + 1))
      rw [List.length_drop] at hws2
      split at h
      · rename_i hcl
        obtain ⟨hlt, -⟩ := head?_drop_some_lt hcl
        rw [Option.some.injEq, Prod.mk.injEq] at h
        obtain ⟨hr, hn⟩ := h
        omega
      · rename_i hcm
        obtain ⟨hlt, -⟩ := head?_drop_some_lt hcm
        split at h
        · rename_i r0 n0 hrec
          rw [Option.some.injEq, Prod.mk.injEq] at h
          obtain ⟨hr, hn⟩ := h
          have hb := ih PMode.objPair _ r0 n0 hrec
          rw [List.length_drop] at hb
          omega
        · exact absurd h (fun hcon => Option.noConfusion hcon)
      · exact absurd h (fun hcon => Option.noConfusion hcon)
    case objPair =>
      simp only [parseStep] at h
      split at h
      · rename_i hq
        have hlen0 : 0 < l.length := by
          rcases l with _ | ⟨a, t⟩
          · exact absurd hq (by simp)
          · simp
        split at h
        · rename_i key nK hkey
          have hbK := scanString_bounds (l.drop 1).length (l.drop 1) [] key nK le_rfl hkey
          rw [List.length_drop] at hbK
          have hwsA := wsCount_le (l.drop (1 + nK))
          rw [List.length_drop] at hwsA
          split at h
          · rename_i hcol
            obtain ⟨hlt, -⟩ := head?_drop_some_lt hcol
            have hwsB := wsCount_le (l.drop (1 + nK + wsCount (l.drop (1 + nK)) + 1))
            rw [List.length_drop] at hwsB
            split at h
            · rename_i v nV hval
              split at h
              · rename_i ps n2 hobj
                rw [Option.some.injEq, Prod.mk.injEq] at h
                obtain ⟨hr, hn⟩ := h
                have hb1 := ih PMode.val _ v nV hval
                have hb2 := ih PMode.objAfter _ (Jv.obj ps) n2 hobj
                rw [List.length_drop] at hb1 hb2
                omega
              · exact absurd h (fun hcon => Option.noConfusion hcon)
            · exact absurd h (fun hcon => Option.noConfusion hcon)
          · exact absurd h (fun hcon => Option.noConfusion hcon)
        · exact absurd h (fun hcon => Option.noConfusion hcon)
      · exact absurd h (fun hcon => Option.noConfusion hcon)

theorem arrFirst_close (f : Nat) (l : List Char)
    (h : (l.drop (wsCount l)).head? = some ']') :
    parseStep (f + 1) PMode.arrFirst l = some (Jv.arr [], wsCount l + 1) := by
  simp only [parseStep]
  rw [h]
  rfl

theorem arrFirst_go (f : Nat) (l : List Char)
    (h : (l.drop (wsCount l)).head? ≠ some ']') :
    parseStep (f + 1) PMode.arrFirst l =
      match parseStep f PMode.val (l.drop (wsCount l)) with
      | some (v, n1) =>
        match parseStep f PMode.arrAfter (l.drop (wsCount l + n1)) with
        | some (Jv.arr vs, n2) => some (Jv.arr (v :: vs), wsCount l + n1 + n2)
        | _ => none
      | none => none := by
  simp only [parseStep]

theorem arrAfter_close (f : Nat) (l : List Char)
    (h : (l.drop (wsCount l)).head? = some ']') :
    parseStep (f + 1) PMode.arrAfter l = some (Jv.arr [], wsCount l + 1) := by
  simp only [parseStep]
  rw [h]
  rfl

theorem arrAfter_comma (f : Nat) (l : List Char)
    (h : (l.drop (wsCount l)).head? = some ',') :
    parseStep (f + 1) PMode.arrAfter l =
      match parseStep f PMode.val
        (l.drop (wsCount l + 1 + wsCount (l.drop (wsCount l + 1)))) with
      | some (v, n1) =>
        match parseStep f PMode.arrAfter
          (l.drop (wsCount l + 1 + wsCount (l.drop (wsCount l + 1)) + n1)) with
        | some (Jv.arr vs, n2) =>
          some (Jv.arr (v :: vs),
            wsCount l + 1 + wsCount (l.drop (wsCount l + 1)) + n1 + n2)
        | _ => none
      | none => none := by
  simp only [parseStep]
  rw [h]
  rfl

theorem arrAfter_other (f : Nat) (l : List Char)
    (h1 : (l.drop (wsCount l)).head? ≠ some ']')
    (h2 : (l.drop (wsCount l)).head? ≠ some ',') :
    parseStep (f + 1) PMode.arrAfter l = none := by
  simp only [parseStep]

theorem objFirst_close (f : Nat) (l : List Char)
    (h : (l.drop (wsCount l)).head? = some '}') :
    parseStep (f + 1) PMode.objFirst l = some (Jv.obj [], wsCount l + 1) := by
  simp only [parseStep]
  rw [h]
  rfl

theorem objFirst_go (f : Nat) (l : List Char)
    (h : (l.drop (wsCount l)).head? ≠ some '}') :
    parseStep (f + 1) PMode.objFirst l =
      match parseStep f PMode.objPair (l.drop (wsCount l)) with
      | some (r0, n0) => some (r0, wsCount l + n0)
      | none => none := by
  simp only [parseStep]

theorem objAfter_close (f : Nat) (l : List Char)
    (h : (l.drop (wsCount l)).head? = some '}') :
    parseStep (f + 1) PMode.objAfter l = some (Jv.obj [], wsCount l + 1) := by
  simp only [parseStep]
  rw [h]
  rfl

theorem objAfter_comma (f : Nat) (l : List Char)
    (h : (l.drop (wsCount l)).head? = some ',') :
    parseStep (f + 1) PMode.objAfter l =
      match parseStep f PMode.objPair
        (l.drop (wsCount l + 1 + wsCount (l.drop (wsCount l + 1)))) with
      | some (r0, n0) =>
        some (r0, wsCount l + 1 + wsCount (l.drop (wsCount l + 1)) + n0)
      | none => none := by
  simp only [parseStep]
  rw [h]
  rfl

theorem objAfter_other (f : Nat) (l : List Char)
    (h1 : (l.drop (wsCount l)).head? ≠ some '}')
    (h2 : (l.drop (wsCount l)).head? ≠ some ',') :
    parseStep (f + 1) PMode.objAfter l = none := by
  simp only [parseStep]

theorem objPair_step (f : Nat) (l : List Char) (key : String) (nK : Nat)
    (h1 : l.head? = some '"')
    (hscan : scanString (l.drop 1) [] = some (key, nK))
    (hcolon : (l.drop (1 + nK + wsCount (l.drop (1 + nK)))).head? = some ':') :
    parseStep (f + 1) PMode.objPair l =
      match parseStep f PMode.val
        (l.drop (1 + nK + wsCount (l.drop (1 + nK)) + 1 +
          wsCount (l.drop (1 + nK + wsCount (l.drop (1 + nK)) + 1)))) with
      | some (v, nV) =>
        match parseStep f PMode.objAfter
          (l.drop (1 + nK + wsCount (l.drop (1 + nK)) + 1 +
            wsCount (l.drop (1 + nK + wsCount (l.drop (1 + nK)) + 1)) + nV)) with
        | some (Jv.obj ps, n2) =>
          some (Jv.obj ((key, v) :: ps),
            1 + nK + wsCount (l.drop (1 + nK)) + 1 +
              wsCount (l.drop (1 + nK + wsCount (l.drop (1 + nK)) + 1)) + nV + n2)
        | _ => none
      | none => none := by
  simp only [parseStep]
  rw [h1]
  simp only []
  rw [hscan]
  simp only []
  rw [hcolon]
  rfl

theorem objPair_noquote (f : Nat) (l : List Char)
    (h : l.head? ≠ some '"') :
    parseStep (f + 1) PMode.objPair l = none := by
  simp only [parseStep]

theorem objPair_noscan (f : Nat) (l : List Char)
    (h1 : l.head? = some '"')
    (hscan : scanString (l.drop 1) [] = none) :
    parseStep (f + 1) PMode.objPair l = none := by
  simp only [parseStep]
  rw [h1]
  simp only []
  rw [hscan]

theorem objPair_nocolon (f : Nat) (l : List Char) (key : String) (nK : Nat)
    (h1 : l.head? = some '"')
    (hscan : scanString (l.drop 1) [] = some (key, nK))
    (hcolon : (l.drop (1 + nK + wsCount (l.drop (1 + nK)))).head? ≠ some ':') :
    parseStep (f + 1) PMode.objPair l = none := by
  simp only [parseStep]
  rw [h1]
  simp only []
  rw [hscan]
  simp only []


theorem head?_none_ne {o : Option Char} (h : o = none) (c : Char) : o ≠ some c := by
  rw [h]
  exact fun hc => Option.noConfusion hc

theorem head?_some_ne {o : Option Char} {c : Char} (h : o = some c) {d : Char}
    (hne : c ≠ d) : o ≠ some d := by
  rw [h]
  intro hcon
  injection hcon with hx
  exact hne hx

theorem parseStep_mono (f : Nat) : ∀ (f' : Nat) (md : PMode) (l : List Char) (r : Jv) (n : Nat),
    f ≤ f' → parseStep f md l = some (r, n) → parseStep f' md l = some (r, n) := by
  induction f with
  | zero => intro f' md l r n hf h; exact absurd h (fun hc => Option.noConfusion hc)
  | succ f ih =>
    intro f' md l r n hf h
    obtain ⟨f2, rfl⟩ : ∃ f2, f' = f2 + 1 := ⟨f' - 1, by omega⟩
    have hf2 : f ≤ f2 := by omega
    cases md
    case val =>
      simp only [parseStep] at h ⊢
      split at h
      · exact absurd h (fun hc => Option.noConfusion hc)
      · rename_i c hc
        split_ifs at h with h1 h2 h3 h4 h5 h6 g1 g2 g3
        · rw [if_pos h1]
          exact h
        · rw [if_neg h1, if_pos h2]
          split at h
          · rename_i r0 n0 hrec
            rw [ih f2 PMode.objFirst (l.drop 1) r0 n0 hf2 hrec]
            simp only []
            exact h
          · exact absurd h (fun hc => Option.noConfusion hc)
        · rw [if_neg h1, if_neg h2, if_pos h3]
          split at h
          · rename_i r0 n0 hrec
            rw [ih f2 PMode.arrFirst (l.drop 1) r0 n0 hf2 hrec]
            simp only []
            exact h
          · exact absurd h (fun hc => Option.noConfusion hc)
        · rw [if_neg h1, if_neg h2, if_neg h3, if_pos h4]
          exact h
        · rw [if_neg h1, if_neg h2, if_neg h3, if_neg h4, if_pos h5]
          exact h
        · rw [if_neg h1, if_neg h2, if_neg h3, if_neg h4, if_neg h5, if_pos h6]
          exact h
        · rw [if_neg h1, if_neg h2, if_neg h3, if_neg h4, if_neg h5, if_neg h6,
            if_pos g1]
          exact h
        · rw [if_neg h1, if_neg h2, if_neg h3, if_neg h4, if_neg h5, if_neg h6,
            if_neg g1, if_pos g2]
          exact h
        · rw [if_neg h1, if_neg h2, if_neg h3, if_neg h4, if_neg h5, if_neg h6,
            if_neg g1, if_neg g2, if_pos g3]
          exact h
        · rw [if_neg h1, if_neg h2, if_neg h3, if_neg h4, if_neg h5, if_neg h6,
            if_neg g1, if_neg g2, if_neg g3]
          exact h
    case arrFirst =>
      rcases hhd : (l.drop (wsCount l)).head? with _ | c
      · rw [arrFirst_go f l (head?_none_ne hhd ']')] at h
        rw [arrFirst_go f2 l (head?_none_ne hhd ']')]
        split at h
        · rename_i v n1 hval
          split at h
          · rename_i vs n2 harr
            rw [ih f2 PMode.val _ v n1 hf2 hval]
            simp only []
            rw [ih f2 PMode.arrAfter _ (Jv.arr vs) n2 hf2 harr]
            simp only []
            exact h
          all_goals exact absurd h (fun hc => Option.noConfusion hc)
        · exact absurd h (fun hc => Option.noConfusion hc)
      · by_cases hc : c = ']'
        · subst hc
          rw [arrFirst_close f l hhd] at h
          rw [arrFirst_close f2 l hhd]
          exact h
        · rw [arrFirst_go f l (head?_some_ne hhd hc)] at h
          rw [arrFirst_go f2 l (head?_some_ne hhd hc)]
          split at h
          · rename_i v n1 hval
            split at h
            · rename_i vs n2 harr
              rw [ih f2 PMode.val _ v n1 hf2 hval]
              simp only []
              rw [ih f2 PMode.arrAfter _ (Jv.arr vs) n2 hf2 harr]
              simp only []
              exact h
            all_goals exact absurd h (fun hc => Option.noConfusion hc)
          · exact absurd h (fun hc => Option.noConfusion hc)
    case arrAfter =>
      rcases hhd : (l.drop (wsCount l)).head? with _ | c
      · rw [arrAfter_other f l (head?_none_ne hhd ']') (head?_none_ne hhd ',')] at h
        exact absurd h (fun hc => Option.noConfusion hc)
      · by_cases hc : c = ']'
        · subst hc
          rw [arrAfter_close f l hhd] at h
          rw [arrAfter_close f2 l hhd]
          exact h
        · by_cases hc2 : c = ','
          · subst hc2
            rw [arrAfter_comma f l hhd] at h
            rw [arrAfter_comma f2 l hhd]
            split at h
            · rename_i v n1 hval
              split at h
              · rename_i vs n2 harr
                rw [ih f2 PMode.val _ v n1 hf2 hval]
                simp only []
                rw [ih f2 PMode.arrAfter _ (Jv.arr vs) n2 hf2 harr]
                simp only []
                exact h
              all_goals exact absurd h (fun hc => Option.noConfusion hc)
            · exact absurd h (fun hc => Option.noConfusion hc)
          · rw [arrAfter_other f l (head?_some_ne hhd hc) (head?_some_ne hhd hc2)] at h
            exact absurd h (fun hc => Option.noConfusion hc)
    case objFirst =>
      rcases hhd : (l.drop (wsCount l)).head? with _ | c
      · rw [objFirst_go f l (head?_none_ne hhd '}')] at h
        rw [objFirst_go f2 l (head?_none_ne hhd '}')]
        split at h
        · rename_i r0 n0 hrec
          rw [ih f2 PMode.objPair _ r0 n0 hf2 hrec]
          simp only []
          exact h
        · exact absurd h (fun hc => Option.noConfusion hc)
      · by_cases hc : c = '}'
        · subst hc
          rw [objFirst_close f l hhd] at h
          rw [objFirst_close f2 l hhd]
          exact h
        · rw [objFirst_go f l (head?_some_ne hhd hc)] at h
          rw [objFirst_go f2 l (head?_some_ne hhd hc)]
          split at h
          · rename_i r0 n0 hrec
            rw [ih f2 PMode.objPair _ r0 n0 hf2 hrec]
            simp only []
            exact h
          · exact absurd h (fun hc => Option.noConfusion hc)
    case objAfter =>
      rcases hhd : (l.drop (wsCount l)).head? with _ | c
      · rw [objAfter_other f l (head?_none_ne hhd '}') (head?_none_ne hhd ',')] at h
        exact absurd h (fun hc => Option.noConfusion hc)
      · by_cases hc : c = '}'
        · subst hc
          rw [objAfter_close f l hhd] at h
          rw [objAfter_close f2 l hhd]
          exact h
        · by_cases hc2 : c = ','
          · subst hc2
            rw [objAfter_comma f l hhd] at h
            rw [objAfter_comma f2 l hhd]
            split at h
            · rename_i r0 n0 hrec
              rw [ih f2 PMode.objPair _ r0 n0 hf2 hrec]
              simp only []
              exact h
            · exact absurd h (fun hc => Option.noConfusion hc)
          · rw [objAfter_other f l (head?_some_ne hhd hc) (head?_some_ne hhd hc2)] at h
            exact absurd h (fun hc => Option.noConfusion hc)
    case objPair =>
      rcases hhd : l.head? with _ | c
      · rw [objPair_noquote f l (head?_none_ne hhd '"')] at h
        exact absurd h (fun hc => Option.noConfusion hc)
      · by_cases hc : c = '"'
        · subst hc
          rcases hscan : scanString (l.drop 1) [] with _ | ⟨key, nK⟩
          · rw [objPair_noscan f l hhd hscan] at h
            exact absurd h (fun hc => Option.noConfusion hc)
          · rcases hcol : (l.drop (1 + nK + wsCount (l.drop (1 + nK)))).head? with _ | d
            · rw [objPair_nocolon f l key nK hhd hscan (head?_none_ne hcol ':')] at h
              exact absurd h (fun hc => Option.noConfusion hc)
            · by_cases hd : d = ':'
              · subst hd
                rw [objPair_step f l key nK hhd hscan hcol] at h
                rw [objPair_step f2 l key nK hhd hscan hcol]
                split at h
                · rename_i v nV hval
                  split at h
                  · rename_i ps n2 hobj
                    rw [ih f2 PMode.val _ v nV hf2 hval]
                    simp only []
                    rw [ih f2 PMode.objAfter _ (Jv.obj ps) n2 hf2 hobj]
                    simp only []
                    exact h
                  all_goals exact absurd h (fun hc => Option.noConfusion hc)
                · exact absurd h (fun hc => Option.noConfusion hc)
              · rw [objPair_nocolon f l key nK hhd hscan (head?_some_ne hcol hd)] at h
                exact absurd h (fun hc => Option.noConfusion hc)
        · rw [objPair_noquote f l (head?_some_ne hhd hc)] at h
          exact absurd h (fun hc => Option.noConfusion hc)

theorem parseStep_tight (f : Nat) : ∀ (md : PMode) (l : List Char) (r : Jv) (n : Nat),
    parseStep f md l = some (r, n) →
    parseStep (2 * n) md l = some (r, n) ∧
      (md = PMode.objPair → parseStep (2 * n - 1) md l = some (r, n)) := by
  induction f with
  | zero => intro md l r n h; exact absurd h (fun hc => Option.noConfusion hc)
  | succ f ih =>
    intro md l r n h
    have hb := parseStep_bounds (f + 1) md l r n h
    have h2n : 2 * n = (2 * n - 1) + 1 := by omega
    cases md
    case val =>
      refine ⟨?_, fun hmd => absurd hmd (by decide)⟩
      rw [h2n]
      simp only [parseStep] at h ⊢
      split at h
      · exact absurd h (fun hc => Option.noConfusion hc)
      · rename_i c hc
        split_ifs at h with h1 h2 h3 h4 h5 h6 g1 g2 g3
        · rw [if_pos h1]
          exact h
        · rw [if_neg h1, if_pos h2]
          split at h
          · rename_i r0 n0 hrec
            have h' := h
            rw [Option.some.injEq, Prod.mk.injEq] at h'
            have hb0 := parseStep_bounds f PMode.objFirst (l.drop 1) r0 n0 hrec
            rw [parseStep_mono (2 * n0) (2 * n - 1) PMode.objFirst (l.drop 1) r0 n0
              (by omega) (ih PMode.objFirst (l.drop 1) r0 n0 hrec).1]
            simp only []
            exact h
          · exact absurd h (fun hc => Option.noConfusion hc)
        · rw [if_neg h1, if_neg h2, if_pos h3]
          split at h
          · rename_i r0 n0 hrec
            have h' := h
            rw [Option.some.injEq, Prod.mk.injEq] at h'
            have hb0 := parseStep_bounds f PMode.arrFirst (l.drop 1) r0 n0 hrec
            rw [parseStep_mono (2 * n0) (2 * n - 1) PMode.arrFirst (l.drop 1) r0 n0
              (by omega) (ih PMode.arrFirst (l.drop 1) r0 n0 hrec).1]
            simp only []
            exact h
          · exact absurd h (fun hc => Option.noConfusion hc)
        · rw [if_neg h1, if_neg h2, if_neg h3, if_pos h4]
          exact h
        · rw [if_neg h1, if_neg h2, if_neg h3, if_neg h4, if_pos h5]
          exact h
        · rw [if_neg h1, if_neg h2, if_neg h3, if_neg h4, if_neg h5, if_pos h6]
          exact h
        · rw [if_neg h1, if_neg h2, if_neg h3, if_neg h4, if_neg h5, if_neg h6,
            if_pos g1]
          exact h
        · rw [if_neg h1, if_neg h2, if_neg h3, if_neg h4, if_neg h5, if_neg h6,
            if_neg g1, if_pos g2]
          exact h
        · rw [if_neg h1, if_neg h2, if_neg h3, if_neg h4, if_neg h5, if_neg h6,
            if_neg g1, if_neg g2, if_pos g3]
          exact h
        · rw [if_neg h1, if_neg h2, if_neg h3, if_neg h4, if_neg h5, if_neg h6,
            if_neg g1, if_neg g2, if_neg g3]
          exact h
    case arrFirst =>
      refine ⟨?_, fun hmd => absurd hmd (by decide)⟩
      rw [h2n]
      rcases hhd : (l.drop (wsCount l)).head? with _ | c
      · rw [arrFirst_go f l (head?_none_ne hhd ']')] at h
        rw [arrFirst_go (2 * n - 1) l (head?_none_ne hhd ']')]
        split at h
        · rename_i v n1 hval
          split at h
          · rename_i vs n2 harr
            have h' := h
            rw [Option.some.injEq, Prod.mk.injEq] at h'
            have hb1 := parseStep_bounds f PMode.val _ v n1 hval
            have hb2 := parseStep_bounds f PMode.arrAfter _ (Jv.arr vs) n2 harr
            rw [parseStep_mono (2 * n1) (2 * n - 1) PMode.val _ v n1
              (by omega) (ih PMode.val _ v n1 hval).1]
            simp only []
            rw [parseStep_mono (2 * n2) (2 * n - 1) PMode.arrAfter _ (Jv.arr vs) n2
              (by omega) (ih PMode.arrAfter _ (Jv.arr vs) n2 harr).1]
            simp only []
            exact h
          all_goals exact absurd h (fun hc => Option.noConfusion hc)
        · exact absurd h (fun hc => Option.noConfusion hc)
      · by_cases hc : c = ']'
        · subst hc
          rw [arrFirst_close f l hhd] at h
          rw [arrFirst_close (2 * n - 1) l hhd]
          exact h
        · rw [arrFirst_go f l (head?_some_ne hhd hc)] at h
          rw [arrFirst_go (2 * n - 1) l (head?_some_ne hhd hc)]
          split at h
          · rename_i v n1 hval
            split at h
            · rename_i vs n2 harr
              have h' := h
              rw [Option.some.injEq, Prod.mk.injEq] at h'
              have hb1 := parseStep_bounds f PMode.val _ v n1 hval
              have hb2 := parseStep_bounds f PMode.arrAfter _ (Jv.arr vs) n2 harr
              rw [parseStep_mono (2 * n1) (2 * n - 1) PMode.val _ v n1
                (by omega) (ih PMode.val _ v n1 hval).1]
              simp only []
              rw [parseStep_mono (2 * n2) (2 * n - 1) PMode.arrAfter _ (Jv.arr vs) n2
                (by omega) (ih PMode.arrAfter _ (Jv.arr vs) n2 harr).1]
              simp only []
              exact h
            all_goals exact absurd h (fun hc => Option.noConfusion hc)
          · exact absurd h (fun hc => Option.noConfusion hc)
    case arrAfter =>
      refine ⟨?_, fun hmd => absurd hmd (by decide)⟩
      rw [h2n]
      rcases hhd : (l.drop (wsCount l)).head? with _ | c
      · rw [arrAfter_other f l (head?_none_ne hhd ']') (head?_none_ne hhd ',')] at h
        exact absurd h (fun hc => Option.noConfusion hc)
      · by_cases hc : c = ']'
        · subst hc
          rw [arrAfter_close f l hhd] at h
          rw [arrAfter_close (2 * n - 1) l hhd]
          exact h
        · by_cases hc2 : c = ','
          · subst hc2
            rw [arrAfter_comma f l hhd] at h
            rw [arrAfter_comma (2 * n - 1) l hhd]
            split at h
            · rename_i v n1 hval
              split at h
              · rename_i vs n2 harr
                have h' := h
                rw [Option.some.injEq, Prod.mk.injEq] at h'
                have hb1 := parseStep_bounds f PMode.val _ v n1 hval
                have hb2 := parseStep_bounds f PMode.arrAfter _ (Jv.arr vs) n2 harr
                rw [parseStep_mono (2 * n1) (2 * n - 1) PMode.val _ v n1
                  (by omega) (ih PMode.val _ v n1 hval).1]
                simp only []
                rw [parseStep_mono (2 * n2) (2 * n - 1) PMode.arrAfter _ (Jv.arr vs) n2
                  (by omega) (ih PMode.arrAfter _ (Jv.arr vs) n2 harr).1]
                simp only []
                exact h
              all_goals exact absurd h (fun hc => Option.noConfusion hc)
            · exact absurd h (fun hc => Option.noConfusion hc)
          · rw [arrAfter_other f l (head?_some_ne hhd hc) (head?_some_ne hhd hc2)] at h
            exact absurd h (fun hc => Option.noConfusion hc)
    case objFirst =>
      refine ⟨?_, fun hmd => absurd hmd (by decide)⟩
      rw [h2n]
      rcases hhd : (l.drop (wsCount l)).head? with _ | c
      · rw [objFirst_go f l (head?_none_ne hhd '}')] at h
        rw [objFirst_go (2 * n - 1) l (head?_none_ne hhd '}')]
        split at h
        · rename_i r0 n0 hrec
          have h' := h
          rw [Option.some.injEq, Prod.mk.injEq] at h'
          have hb0 := parseStep_bounds f PMode.objPair _ r0 n0 hrec
          rw [parseStep_mono (2 * n0 - 1) (2 * n - 1) PMode.objPair _ r0 n0
            (by omega) ((ih PMode.objPair _ r0 n0 hrec).2 rfl)]
          simp only []
          exact h
        · exact absurd h (fun hc => Option.noConfusion hc)
      · by_cases hc : c = '}'
        · subst hc
          rw [objFirst_close f l hhd] at h
          rw [objFirst_close (2 * n - 1) l hhd]
          exact h
        · rw [objFirst_go f l (head?_some_ne hhd hc)] at h
          rw [objFirst_go (2 * n - 1) l (head?_some_ne hhd hc)]
          split at h
          · rename_i r0 n0 hrec
            have h' := h
            rw [Option.some.injEq, Prod.mk.injEq] at h'
            have hb0 := parseStep_bounds f PMode.objPair _ r0 n0 hrec
            rw [parseStep_mono (2 * n0 - 1) (2 * n - 1) PMode.objPair _ r0 n0
              (by omega) ((ih PMode.objPair _ r0 n0 hrec).2 rfl)]
            simp only []
            exact h
          · exact absurd h (fun hc => Option.noConfusion hc)
    case objAfter =>
      refine ⟨?_, fun hmd => absurd hmd (by decide)⟩
      rw [h2n]
      rcases hhd : (l.drop (wsCount l)).head? with _ | c
      · rw [objAfter_other f l (head?_none_ne hhd '}') (head?_none_ne hhd ',')] at h
        exact absurd h (fun hc => Option.noConfusion hc)
      · by_cases hc : c = '}'
        · subst hc
          rw [objAfter_close f l hhd] at h
          rw [objAfter_close (2 * n - 1) l hhd]
          exact h
        · by_cases hc2 : c = ','
          · subst hc2
            rw [objAfter_comma f l hhd] at h
            rw [objAfter_comma (2 * n - 1) l hhd]
            split at h
            · rename_i r0 n0 hrec
              have h' := h
              rw [Option.some.injEq, Prod.mk.injEq] at h'
              have hb0 := parseStep_bounds f PMode.objPair _ r0 n0 hrec
              rw [parseStep_mono (2 * n0 - 1) (2 * n - 1) PMode.objPair _ r0 n0
                (by omega) ((ih PMode.objPair _ r0 n0 hrec).2 rfl)]
              simp only []
              exact h
            · exact absurd h (fun hc => Option.noConfusion hc)
          · rw [objAfter_other f l (head?_some_ne hhd hc) (head?_some_ne hhd hc2)] at h
            exact absurd h (fun hc => Option.noConfusion hc)
    case objPair =>
      have haux : parseStep (2 * n - 1) PMode.objPair l = some (r, n) → True := fun _ => trivial
      have hmain : parseStep (2 * n - 1) PMode.objPair l = some (r, n) := by
        have h2n' : 2 * n - 1 = (2 * n - 2) + 1 := by omega
        rw [h2n']
        rcases hhd : l.head? with _ | c
        · rw [objPair_noquote f l (head?_none_ne hhd '"')] at h
          exact absurd h (fun hc => Option.noConfusion hc)
        · by_cases hc : c = '"'
          · subst hc
            rcases hscan : scanString (l.drop 1) [] with _ | ⟨key, nK⟩
            · rw [objPair_noscan f l hhd hscan] at h
              exact absurd h (fun hc => Option.noConfusion hc)
            · rcases hcol : (l.drop (1 + nK + wsCount (l.drop (1 + nK)))).head? with _ | d
              · rw [objPair_nocolon f l key nK hhd hscan (head?_none_ne hcol ':')] at h
                exact absurd h (fun hc => Option.noConfusion hc)
              · by_cases hd : d = ':'
                · subst hd
                  rw [objPair_step f l key nK hhd hscan hcol] at h
                  rw [objPair_step (2 * n - 2) l key nK hhd hscan hcol]
                  split at h
                  · rename_i v nV hval
                    split at h
                    · rename_i ps n2 hobj
                      have h' := h
                      rw [Option.some.injEq, Prod.mk.injEq] at h'
                      have hb1 := parseStep_bounds f PMode.val _ v nV hval
                      have hb2 := parseStep_bounds f PMode.objAfter _ (Jv.obj ps) n2 hobj
                      have hbK := scanString_bounds (l.drop 1).length (l.drop 1) [] key nK
                        le_rfl hscan
                      rw [parseStep_mono (2 * nV) (2 * n - 2) PMode.val _ v nV
                        (by omega) (ih PMode.val _ v nV hval).1]
                      simp only []
                      rw [parseStep_mono (2 * n2) (2 * n - 2) PMode.objAfter _ (Jv.obj ps) n2
                        (by omega) (ih PMode.objAfter _ (Jv.obj ps) n2 hobj).1]
                      simp only []
                      exact h
                    all_goals exact absurd h (fun hc => Option.noConfusion hc)
                  · exact absurd h (fun hc => Option.noConfusion hc)
                · rw [objPair_nocolon f l key nK hhd hscan (head?_some_ne hcol hd)] at h
                  exact absurd h (fun hc => Option.noConfusion hc)
          · rw [objPair_noquote f l (head?_some_ne hhd hc)] at h
            exact absurd h (fun hc => Option.noConfusion hc)
      exact ⟨parseStep_mono (2 * n - 1) (2 * n) PMode.objPair l r n (by omega) hmain,
        fun _ => hmain⟩

theorem wsCount_agree {l l' : List Char} {n : Nat} (hlt : wsCount l < n)
    (hn : n ≤ l.length) (hag : ∀ i, i < n → l[i]? = l'[i]?) :
    wsCount l' = wsCount l := by
  refine (spanLen_iff jsonWsB l' (wsCount l)).mpr ⟨?_, ?_⟩
  · intro i hi
    obtain ⟨c, hc, hw⟩ := wsCount_ws l i hi
    exact ⟨c, by rw [← hag i (by omega)]; exact hc, hw⟩
  · intro c hc
    rw [← hag (wsCount l) hlt] at hc
    exact wsCount_stop l c hc

theorem jsonWs_numCont {c : Char} (h : jsonWsB c = true) : numCont c = false := by
  unfold jsonWsB at h
  rcases Bool.or_eq_true_iff.mp h with h1 | h1
  · rcases Bool.or_eq_true_iff.mp h1 with h2 | h2
    · rcases Bool.or_eq_true_iff.mp h2 with h3 | h3
      · rw [show c = ' ' by simpa using h3]
        decide
      · rw [show c = '\t' by simpa using h3]
        decide
    · rw [show c = '\n' by simpa using h2]
      decide
  · rw [show c = '\r' by simpa using h1]
    decide

theorem digit_ne {c : Char} (hd : c.isDigit = true) (d : Char) (hdd : d.isDigit = false) :
    c ≠ d := fun he => by
  rw [he] at hd
  rw [hd] at hdd
  exact Bool.noConfusion hdd

theorem litHere_agree_pt {l l' pat : List Char}
    (hag : ∀ i, i < pat.length → l[i]? = l'[i]?) :
    litHere l pat = litHere l' pat := by
  have ht := getElem?_agree_take hag
  by_cases hl : litHere l pat = true
  · rw [hl, litHere_of_take (by rw [← ht]; exact litHere_true_take hl)]
  · by_cases hl' : litHere l' pat = true
    · exact absurd (litHere_of_take (by rw [ht]; exact litHere_true_take hl')) hl
    · rw [Bool.not_eq_true] at hl hl'
      rw [hl, hl']

theorem parseNum_head {l : List Char} {lex : String} {n : Nat}
    (h : parseNum l = some (lex, n)) :
    ∃ c, l[0]? = some c ∧ (c = '-' ∨ c.isDigit = true) := by
  have hz : ¬ digitSpan (l.drop (numSignLen l)) = 0 := by
    intro h0
    unfold parseNum at h
    rw [if_pos h0] at h
    exact Option.noConfusion h
  unfold numSignLen at hz
  split_ifs at hz with hs
  · exact ⟨'-', hs, Or.inl rfl⟩
  · obtain ⟨c, hc, hd⟩ := digitSpan_digit (l.drop 0) 0 (Nat.pos_of_ne_zero hz)
    rw [List.drop_zero] at hc
    exact ⟨c, hc, Or.inr hd⟩

theorem parseNum_none_of_head {l : List Char} {c : Char} (hc : l[0]? = some c)
    (hne : c ≠ '-') (hnd : c.isDigit = false) : parseNum l = none := by
  rw [parseNum_none_iff]
  intro c2 hc2
  have hs : numSignLen l = 0 := by
    unfold numSignLen
    rw [hc, if_neg (by intro hcon; injection hcon with hx; exact hne hx)]
  rw [hs, hc] at hc2
  injection hc2 with hx
  rw [← hx]
  exact hnd

theorem parseNum_none_of_sign {l : List Char} {c2 : Char} (hc : l[0]? = some '-')
    (hc2 : l[1]? = some c2) (hnd : c2.isDigit = false) : parseNum l = none := by
  rw [parseNum_none_iff]
  intro c3 hc3
  have hs : numSignLen l = 1 := by
    unfold numSignLen
    rw [hc, if_pos rfl]
  rw [hs, hc2] at hc3
  injection hc3 with hx
  rw [← hx]
  exact hnd

theorem after_head_numCont (f : Nat) (md : PMode)
    (hmd : md = PMode.arrAfter ∨ md = PMode.objAfter) (t : List Char) (res : Jv)
    (n2 : Nat) (h : parseStep f md t = some (res, n2)) :
    ∀ c0, t[0]? = some c0 → numCont c0 = false := by
  intro c0 hc0
  rcases f with _ | f
  · exact absurd h (fun hc => Option.noConfusion hc)
  by_cases hw : wsCount t = 0
  · have hhd : (t.drop (wsCount t)).head? = some c0 := by
      rw [hw, List.drop_zero, List.head?_eq_getElem?]
      exact hc0
    rcases hmd with hmd | hmd <;> subst hmd
    · by_cases hcl : c0 = ']'
      · rw [hcl]
        decide
      · by_cases hcm : c0 = ','
        · rw [hcm]
          decide
        · rw [arrAfter_other f t (head?_some_ne hhd hcl) (head?_some_ne hhd hcm)] at h
          exact absurd h (fun hc => Option.noConfusion hc)
    · by_cases hcl : c0 = '}'
      · rw [hcl]
        decide
      · by_cases hcm : c0 = ','
        · rw [hcm]
          decide
        · rw [objAfter_other f t (head?_some_ne hhd hcl) (head?_some_ne hhd hcm)] at h
          exact absurd h (fun hc => Option.noConfusion hc)
  · obtain ⟨c1, hc1, hws1⟩ := wsCount_ws t 0 (by omega)
    rw [hc0] at hc1
    injection hc1 with hx
    rw [hx]
    exact jsonWs_numCont hws1

theorem litHere_not {l pat : List Char} {p c : Char} (hpat : pat.head? = some p)
    (hl : l[0]? = some c) (hne : c ≠ p) : ¬ (litHere l pat = true) := by
  rw [litHere_head_ne hpat hl hne]
  exact Bool.false_ne_true

theorem parseStep_agree (f : Nat) : ∀ (md : PMode) (l l' : List Char) (r : Jv) (n : Nat),
    parseStep f md l = some (r, n) →
    (∀ i, i < n → l[i]? = l'[i]?) →
    (md = PMode.val → ∀ lex, r = Jv.num lex → ∀ c, l'[n]? = some c → numCont c = false) →
    parseStep f md l' = some (r, n) := by
  induction f with
  | zero => intro md l l' r n h hag hstop; exact absurd h (fun hc => Option.noConfusion hc)
  | succ f ih =>
    intro md l l' r n h hag hstop
    have hb := parseStep_bounds (f + 1) md l r n h
    cases md
    case val =>
      simp only [parseStep] at h ⊢
      split at h
      · exact absurd h (fun hc => Option.noConfusion hc)
      · rename_i c hc
        have hc0 : l[0]? = some c := by
          rw [← List.head?_eq_getElem?]
          exact hc
        have hc0' : l'[0]? = some c := by
          rw [← hag 0 (by omega)]
          exact hc0
        have hc' : l'.head? = some c := by
          rw [List.head?_eq_getElem?]
          exact hc0'
        rw [hc']
        simp only []
        split_ifs at h with h1 h2 h3 h4 h5 h6 g1 g2 g3
        · split at h
          · rename_i s nS hscan
            have h' := h
            rw [Option.some.injEq, Prod.mk.injEq] at h'
            obtain ⟨hr', hn'⟩ := h'
            rw [if_pos h1]
            rw [scanString_agree (l.drop 1).length (l.drop 1) (l'.drop 1) [] s nS
              le_rfl hscan (fun i hi => by
                rw [getElem?_drop_add, getElem?_drop_add]
                exact hag (1 + i) (by omega))]
            simp only []
            exact h
          · exact absurd h (fun hcon => Option.noConfusion hcon)
        · split at h
          · rename_i r0 n0 hrec
            have h' := h
            rw [Option.some.injEq, Prod.mk.injEq] at h'
            obtain ⟨hr', hn'⟩ := h'
            rw [if_neg h1, if_pos h2]
            rw [ih PMode.objFirst (l.drop 1) (l'.drop 1) r0 n0 hrec (fun i hi => by
                rw [getElem?_drop_add, getElem?_drop_add]
                exact hag (1 + i) (by omega))
              (fun hmd => absurd hmd (by decide))]
            simp only []
            exact h
          · exact absurd h (fun hcon => Option.noConfusion hcon)
        · split at h
          · rename_i r0 n0 hrec
            have h' := h
            rw [Option.some.injEq, Prod.mk.injEq] at h'
            obtain ⟨hr', hn'⟩ := h'
            rw [if_neg h1, if_neg h2, if_pos h3]
            rw [ih PMode.arrFirst (l.drop 1) (l'.drop 1) r0 n0 hrec (fun i hi => by
                rw [getElem?_drop_add, getElem?_drop_add]
                exact hag (1 + i) (by omega))
              (fun hmd => absurd hmd (by decide))]
            simp only []
            exact h
          · exact absurd h (fun hcon => Option.noConfusion hcon)
        · have h' := h
          rw [Option.some.injEq, Prod.mk.injEq] at h'
          obtain ⟨hr', hn'⟩ := h'
          rw [if_neg h1, if_neg h2, if_neg h3,
            if_pos (by rw [← litHere_agree_pt (fun i hi => hag i (by simp at hi; omega))]; exact h4)]
          exact h
        · have h' := h
          rw [Option.some.injEq, Prod.mk.injEq] at h'
          obtain ⟨hr', hn'⟩ := h'
          rw [if_neg h1, if_neg h2, if_neg h3,
            if_neg (by rw [← litHere_agree_pt (fun i hi => hag i (by simp at hi; omega))]; exact h4),
            if_pos (by rw [← litHere_agree_pt (fun i hi => hag i (by simp at hi; omega))]; exact h5)]
          exact h
        · have h' := h
          rw [Option.some.injEq, Prod.mk.injEq] at h'
          obtain ⟨hr', hn'⟩ := h'
          rw [if_neg h1, if_neg h2, if_neg h3,
            if_neg (by rw [← litHere_agree_pt (fun i hi => hag i (by simp at hi; omega))]; exact h4),
            if_neg (by rw [← litHere_agree_pt (fun i hi => hag i (by simp at hi; omega))]; exact h5),
            if_pos (by rw [← litHere_agree_pt (fun i hi => hag i (by simp at hi; omega))]; exact h6)]
          exact h
        · split at h
          · rename_i lex np hnum
            have h' := h
            rw [Option.some.injEq, Prod.mk.injEq] at h'
            obtain ⟨hr', hn'⟩ := h'
            obtain ⟨cs, hcs, hcsd⟩ := parseNum_head hnum
            rw [hc0] at hcs
            injection hcs with hcseq
            rw [← hcseq] at hcsd
            have hnum' : parseNum l' = some (lex, np) := by
              refine parseNum_master hnum (fun i hi => hag i (by omega)) ?_
              intro c2 hc2
              exact hstop rfl lex hr'.symm c2 (by rw [← hn']; exact hc2)
            have hnn : ¬ (litHere l' ['n', 'u', 'l', 'l'] = true) := by
              refine litHere_not rfl hc0' ?_
              rcases hcsd with hcm | hcd
              · rw [hcm]; decide
              · exact digit_ne hcd 'n' (by decide)
            have hnt : ¬ (litHere l' ['t', 'r', 'u', 'e'] = true) := by
              refine litHere_not rfl hc0' ?_
              rcases hcsd with hcm | hcd
              · rw [hcm]; decide
              · exact digit_ne hcd 't' (by decide)
            have hnf : ¬ (litHere l' ['f', 'a', 'l', 's', 'e'] = true) := by
              refine litHere_not rfl hc0' ?_
              rcases hcsd with hcm | hcd
              · rw [hcm]; decide
              · exact digit_ne hcd 'f' (by decide)
            rw [if_neg h1, if_neg h2, if_neg h3, if_neg hnn, if_neg hnt, if_neg hnf, hnum']
            simp only []
            exact h
          · have h' := h
            rw [Option.some.injEq, Prod.mk.injEq] at h'
            obtain ⟨hr', hn'⟩ := h'
            rename_i hnone
            have hcN : c = 'N' := by
              have h9 := litHere_getElem g1 0 (by simp)
              rw [hc0] at h9
              simp at h9
              exact h9
            have hnone' : parseNum l' = none :=
              parseNum_none_of_head hc0' (by rw [hcN]; decide) (by rw [hcN]; decide)
            have hnn : ¬ (litHere l' ['n', 'u', 'l', 'l'] = true) :=
              litHere_not rfl hc0' (by rw [hcN]; decide)
            have hnt : ¬ (litHere l' ['t', 'r', 'u', 'e'] = true) :=
              litHere_not rfl hc0' (by rw [hcN]; decide)
            have hnf : ¬ (litHere l' ['f', 'a', 'l', 's', 'e'] = true) :=
              litHere_not rfl hc0' (by rw [hcN]; decide)
            rw [if_neg h1, if_neg h2, if_neg h3, if_neg hnn, if_neg hnt, if_neg hnf, hnone']
            simp only []
            rw [if_pos (by
              rw [← litHere_agree_pt (fun i hi => hag i (by simp at hi; omega))]; exact g1)]
            exact h
        · split at h
          · rename_i lex np hnum
            have h' := h
            rw [Option.some.injEq, Prod.mk.injEq] at h'
            obtain ⟨hr', hn'⟩ := h'
            obtain ⟨cs, hcs, hcsd⟩ := parseNum_head hnum
            rw [hc0] at hcs
            injection hcs with hcseq
            rw [← hcseq] at hcsd
            have hnum' : parseNum l' = some (lex, np) := by
              refine parseNum_master hnum (fun i hi => hag i (by omega)) ?_
              intro c2 hc2
              exact hstop rfl lex hr'.symm c2 (by rw [← hn']; exact hc2)
            have hnn : ¬ (litHere l' ['n', 'u', 'l', 'l'] = true) := by
              refine litHere_not rfl hc0' ?_
              rcases hcsd with hcm | hcd
              · rw [hcm]; decide
              · exact digit_ne hcd 'n' (by decide)
            have hnt : ¬ (litHere l' ['t', 'r', 'u', 'e'] = true) := by
              refine litHere_not rfl hc0' ?_
              rcases hcsd with hcm | hcd
              · rw [hcm]; decide
              · exact digit_ne hcd 't' (by decide)
            have hnf : ¬ (litHere l' ['f', 'a', 'l', 's', 'e'] = true) := by
              refine litHere_not rfl hc0' ?_
              rcases hcsd with hcm | hcd
              · rw [hcm]; decide
              · exact digit_ne hcd 'f' (by decide)
            rw [if_neg h1, if_neg h2, if_neg h3, if_neg hnn, if_neg hnt, if_neg hnf, hnum']
            simp only []
            exact h
          · have h' := h
            rw [Option.some.injEq, Prod.mk.injEq] at h'
            obtain ⟨hr', hn'⟩ := h'
            rename_i hnone
            have hcI : c = 'I' := by
              have h9 := litHere_getElem g2 0 (by simp)
              rw [hc0] at h9
              simp at h9
              exact h9
            have hnone' : parseNum l' = none :=
              parseNum_none_of_head hc0' (by rw [hcI]; decide) (by rw [hcI]; decide)
            have hnn : ¬ (litHere l' ['n', 'u', 'l', 'l'] = true) :=
              litHere_not rfl hc0' (by rw [hcI]; decide)
            have hnt : ¬ (litHere l' ['t', 'r', 'u', 'e'] = true) :=
              litHere_not rfl hc0' (by rw [hcI]; decide)
            have hnf : ¬ (litHere l' ['f', 'a', 'l', 's', 'e'] = true) :=
              litHere_not rfl hc0' (by rw [hcI]; decide)
            rw [if_neg h1, if_neg h2, if_neg h3, if_neg hnn, if_neg hnt, if_neg hnf, hnone']
            simp only []
            rw [if_neg (by
                rw [← litHere_agree_pt (fun i hi => hag i (by simp at hi; omega))]; exact g1),
              if_pos (by
                rw [← litHere_agree_pt (fun i hi => hag i (by simp at hi; omega))]; exact g2)]
            exact h
        · split at h
          · rename_i lex np hnum
            have h' := h
            rw [Option.some.injEq, Prod.mk.injEq] at h'
            obtain ⟨hr', hn'⟩ := h'
            obtain ⟨cs, hcs, hcsd⟩ := parseNum_head hnum
            rw [hc0] at hcs
            injection hcs with hcseq
            rw [← hcseq] at hcsd
            have hnum' : parseNum l' = some (lex, np) := by
              refine parseNum_master hnum (fun i hi => hag i (by omega)) ?_
              intro c2 hc2
              exact hstop rfl lex hr'.symm c2 (by rw [← hn']; exact hc2)
            have hnn : ¬ (litHere l' ['n', 'u', 'l', 'l'] = true) := by
              refine litHere_not rfl hc0' ?_
              rcases hcsd with hcm | hcd
              · rw [hcm]; decide
              · exact digit_ne hcd 'n' (by decide)
            have hnt : ¬ (litHere l' ['t', 'r', 'u', 'e'] = true) := by
              refine litHere_not rfl hc0' ?_
              rcases hcsd with hcm | hcd
              · rw [hcm]; decide
              · exact digit_ne hcd 't' (by decide)
            have hnf : ¬ (litHere l' ['f', 'a', 'l', 's', 'e'] = true) := by
              refine litHere_not rfl hc0' ?_
              rcases hcsd with hcm | hcd
              · rw [hcm]; decide
              · exact digit_ne hcd 'f' (by decide)
            rw [if_neg h1, if_neg h2, if_neg h3, if_neg hnn, if_neg hnt, if_neg hnf, hnum']
            simp only []
            exact h
          · have h' := h
            rw [Option.some.injEq, Prod.mk.injEq] at h'
            obtain ⟨hr', hn'⟩ := h'
            rename_i hnone
            have hcM : c = '-' := by
              have h9 := litHere_getElem g3 0 (by simp)
              rw [hc0] at h9
              simp at h9
              exact h9
            have hI : l'[1]? = some 'I' := by
              rw [← hag 1 (by omega)]
              have := litHere_getElem g3 1 (by simp)
              simpa using this
            have hnone' : parseNum l' = none :=
              parseNum_none_of_sign (by rw [← hcM]; exact hc0') hI (by decide)
            have hnn : ¬ (litHere l' ['n', 'u', 'l', 'l'] = true) :=
              litHere_not rfl hc0' (by rw [hcM]; decide)
            have hnt : ¬ (litHere l' ['t', 'r', 'u', 'e'] = true) :=
              litHere_not rfl hc0' (by rw [hcM]; decide)
            have hnf : ¬ (litHere l' ['f', 'a', 'l', 's', 'e'] = true) :=
              litHere_not rfl hc0' (by rw [hcM]; decide)
            rw [if_neg h1, if_neg h2, if_neg h3, if_neg hnn, if_neg hnt, if_neg hnf, hnone']
            simp only []
            rw [if_neg (by
                rw [← litHere_agree_pt (fun i hi => hag i (by simp at hi; omega))]; exact g1),
              if_neg (by
                rw [← litHere_agree_pt (fun i hi => hag i (by simp at hi; omega))]; exact g2),
              if_pos (by
                rw [← litHere_agree_pt (fun i hi => hag i (by simp at hi; omega))]; exact g3)]
            exact h
        · split at h
          · rename_i lex np hnum
            have h' := h
            rw [Option.some.injEq, Prod.mk.injEq] at h'
            obtain ⟨hr', hn'⟩ := h'
            obtain ⟨cs, hcs, hcsd⟩ := parseNum_head hnum
            rw [hc0] at hcs
            injection hcs with hcseq
            rw [← hcseq] at hcsd
            have hnum' : parseNum l' = some (lex, np) := by
              refine parseNum_master hnum (fun i hi => hag i (by omega)) ?_
              intro c2 hc2
              exact hstop rfl lex hr'.symm c2 (by rw [← hn']; exact hc2)
            have hnn : ¬ (litHere l' ['n', 'u', 'l', 'l'] = true) := by
              refine litHere_not rfl hc0' ?_
              rcases hcsd with hcm | hcd
              · rw [hcm]; decide
              · exact digit_ne hcd 'n' (by decide)
            have hnt : ¬ (litHere l' ['t', 'r', 'u', 'e'] = true) := by
              refine litHere_not rfl hc0' ?_
              rcases hcsd with hcm | hcd
              · rw [hcm]; decide
              · exact digit_ne hcd 't' (by decide)
            have hnf : ¬ (litHere l' ['f', 'a', 'l', 's', 'e'] = true) := by
              refine litHere_not rfl hc0' ?_
              rcases hcsd with hcm | hcd
              · rw [hcm]; decide
              · exact digit_ne hcd 'f' (by decide)
            rw [if_neg h1, if_neg h2, if_neg h3, if_neg hnn, if_neg hnt, if_neg hnf, hnum']
            simp only []
            exact h
          · exact absurd h (fun hcon => Option.noConfusion hcon)
    case arrFirst =>
      rcases hhd : (l.drop (wsCount l)).head? with _ | c
      · rw [arrFirst_go f l (head?_none_ne hhd ']')] at h
        split at h
        · rename_i v n1 hval
          exfalso
          have hb1 := parseStep_bounds f PMode.val _ v n1 hval
          have hdl : l.drop (wsCount l) = [] := List.head?_eq_none_iff.mp hhd
          rw [hdl] at hb1
          obtain ⟨x1, x2⟩ := hb1
          simp at x2
          omega
        · exact absurd h (fun hcon => Option.noConfusion hcon)
      · have hlj := (head?_drop_some_lt hhd).2
        by_cases hcr : c = ']'
        · subst hcr
          rw [arrFirst_close f l hhd] at h
          have h' := h
          rw [Option.some.injEq, Prod.mk.injEq] at h'
          obtain ⟨hr', hn'⟩ := h'
          have hws' : wsCount l' = wsCount l := wsCount_agree (by omega) (by omega) hag
          have hhd' : (l'.drop (wsCount l')).head? = some ']' := by
            rw [hws', List.head?_eq_getElem?, getElem?_drop_add, Nat.add_zero,
              ← hag (wsCount l) (by omega)]
            exact hlj
          rw [arrFirst_close f l' hhd', hws']
          exact h
        · rw [arrFirst_go f l (head?_some_ne hhd hcr)] at h
          split at h
          · rename_i v n1 hval
            split at h
            · rename_i vs n2 harr
              have h' := h
              rw [Option.some.injEq, Prod.mk.injEq] at h'
              obtain ⟨hr', hn'⟩ := h'
              have hb1 := parseStep_bounds f PMode.val _ v n1 hval
              have hb2 := parseStep_bounds f PMode.arrAfter _ (Jv.arr vs) n2 harr
              rw [List.length_drop] at hb1 hb2
              have hws' : wsCount l' = wsCount l := wsCount_agree (by omega) (by omega) hag
              have hhd' : (l'.drop (wsCount l')).head? = some c := by
                rw [hws', List.head?_eq_getElem?, getElem?_drop_add, Nat.add_zero,
                  ← hag (wsCount l) (by omega)]
                exact hlj
              rw [arrFirst_go f l' (head?_some_ne hhd' hcr), hws']
              rw [ih PMode.val (l.drop (wsCount l)) (l'.drop (wsCount l)) v n1 hval
                (fun i hi => by
                  rw [getElem?_drop_add, getElem?_drop_add]
                  exact hag (wsCount l + i) (by omega))
                (fun _ lex hlex c0 hc0 => by
                  rw [getElem?_drop_add, ← hag (wsCount l + n1) (by omega)] at hc0
                  refine after_head_numCont f PMode.arrAfter (Or.inl rfl) _ _ _ harr c0 ?_
                  rw [getElem?_drop_add, Nat.add_zero]
                  exact hc0)]
              simp only []
              rw [ih PMode.arrAfter (l.drop (wsCount l + n1)) (l'.drop (wsCount l + n1))
                (Jv.arr vs) n2 harr
                (fun i hi => by
                  rw [getElem?_drop_add, getElem?_drop_add]
                  exact hag (wsCount l + n1 + i) (by omega))
                (fun hmd => absurd hmd (by decide))]
              simp only []
              exact h
            all_goals exact absurd h (fun hcon => Option.noConfusion hcon)
          · exact absurd h (fun hcon => Option.noConfusion hcon)
    case arrAfter =>
      rcases hhd : (l.drop (wsCount l)).head? with _ | c
      · rw [arrAfter_other f l (head?_none_ne hhd ']') (head?_none_ne hhd ',')] at h
        exact absurd h (fun hcon => Option.noConfusion hcon)
      · have hlj := (head?_drop_some_lt hhd).2
        by_cases hcr : c = ']'
        · subst hcr
          rw [arrAfter_close f l hhd] at h
          have h' := h
          rw [Option.some.injEq, Prod.mk.injEq] at h'
          obtain ⟨hr', hn'⟩ := h'
          have hws' : wsCount l' = wsCount l := wsCount_agree (by omega) (by omega) hag
          have hhd' : (l'.drop (wsCount l')).head? = some ']' := by
            rw [hws', List.head?_eq_getElem?, getElem?_drop_add, Nat.add_zero,
              ← hag (wsCount l) (by omega)]
            exact hlj
          rw [arrAfter_close f l' hhd', hws']
          exact h
        · by_cases hcm : c = ','
          · subst hcm
            rw [arrAfter_comma f l hhd] at h
            split at h
            · rename_i v n1 hval
              split at h
              · rename_i vs n2 harr
                have h' := h
                rw [Option.some.injEq, Prod.mk.injEq] at h'
                obtain ⟨hr', hn'⟩ := h'
                have hb1 := parseStep_bounds f PMode.val _ v n1 hval
                have hb2 := parseStep_bounds f PMode.arrAfter _ (Jv.arr vs) n2 harr
                rw [List.length_drop] at hb1 hb2
                have hwsle := wsCount_le (l.drop (wsCount l + 1))
                rw [List.length_drop] at hwsle
                have hws' : wsCount l' = wsCount l := wsCount_agree (by omega) (by omega) hag
                have hhd' : (l'.drop (wsCount l')).head? = some ',' := by
                  rw [hws', List.head?_eq_getElem?, getElem?_drop_add, Nat.add_zero,
                    ← hag (wsCount l) (by omega)]
                  exact hlj
                have hagdhw2' : ∀ i, i < n - (wsCount l + 1) →
                    (l.drop (wsCount l + 1))[i]? = (l'.drop (wsCount l + 1))[i]? := by
                  intro i hi
                  rw [getElem?_drop_add, getElem?_drop_add]
                  exact hag (wsCount l + 1 + i) (by omega)
                have hw2' : wsCount (l'.drop (wsCount l + 1)) =
                    wsCount (l.drop (wsCount l + 1)) := by
                  refine wsCount_agree ?_ ?_ hagdhw2'
                  · omega
                  · rw [List.length_drop]
                    omega
                rw [arrAfter_comma f l' hhd', hws', hw2']
                rw [ih PMode.val
                  (l.drop (wsCount l + 1 + wsCount (l.drop (wsCount l + 1))))
                  (l'.drop (wsCount l + 1 + wsCount (l.drop (wsCount l + 1)))) v n1 hval
                  (fun i hi => by
                    rw [getElem?_drop_add, getElem?_drop_add]
                    exact hag (wsCount l + 1 + wsCount (l.drop (wsCount l + 1)) + i) (by omega))
                  (fun _ lex hlex c0 hc0 => by
                    rw [getElem?_drop_add,
                      ← hag (wsCount l + 1 + wsCount (l.drop (wsCount l + 1)) + n1)
                        (by omega)] at hc0
                    refine after_head_numCont f PMode.arrAfter (Or.inl rfl) _ _ _ harr c0 ?_
                    rw [getElem?_drop_add, Nat.add_zero]
                    exact hc0)]
                simp only []
                rw [ih PMode.arrAfter
                  (l.drop (wsCount l + 1 + wsCount (l.drop (wsCount l + 1)) + n1))
                  (l'.drop (wsCount l + 1 + wsCount (l.drop (wsCount l + 1)) + n1))
                  (Jv.arr vs) n2 harr
                  (fun i hi => by
                    rw [getElem?_drop_add, getElem?_drop_add]
                    exact hag (wsCount l + 1 + wsCount (l.drop (wsCount l + 1)) + n1 + i)
                      (by omega))
                  (fun hmd => absurd hmd (by decide))]
                simp only []
                exact h
              all_goals exact absurd h (fun hcon => Option.noConfusion hcon)
            · exact absurd h (fun hcon => Option.noConfusion hcon)
          · rw [arrAfter_other f l (head?_some_ne hhd hcr) (head?_some_ne hhd hcm)] at h
            exact absurd h (fun hcon => Option.noConfusion hcon)
    case objFirst =>
      rcases hhd : (l.drop (wsCount l)).head? with _ | c
      · rw [objFirst_go f l (head?_none_ne hhd '}')] at h
        split at h
        · rename_i r0 n0 hrec
          exfalso
          have hb1 := parseStep_bounds f PMode.objPair _ r0 n0 hrec
          have hdl : l.drop (wsCount l) = [] := List.head?_eq_none_iff.mp hhd
          rw [hdl] at hb1
          obtain ⟨x1, x2⟩ := hb1
          simp at x2
          omega
        · exact absurd h (fun hcon => Option.noConfusion hcon)
      · have hlj := (head?_drop_some_lt hhd).2
        by_cases hcr : c = '}'
        · subst hcr
          rw [objFirst_close f l hhd] at h
          have h' := h
          rw [Option.some.injEq, Prod.mk.injEq] at h'
          obtain ⟨hr', hn'⟩ := h'
          have hws' : wsCount l' = wsCount l := wsCount_agree (by omega) (by omega) hag
          have hhd' : (l'.drop (wsCount l')).head? = some '}' := by
            rw [hws', List.head?_eq_getElem?, getElem?_drop_add, Nat.add_zero,
              ← hag (wsCount l) (by omega)]
            exact hlj
          rw [objFirst_close f l' hhd', hws']
          exact h
        · rw [objFirst_go f l (head?_some_ne hhd hcr)] at h
          split at h
          · rename_i r0 n0 hrec
            have h' := h
            rw [Option.some.injEq, Prod.mk.injEq] at h'
            obtain ⟨hr', hn'⟩ := h'
            have hb1 := parseStep_bounds f PMode.objPair _ r0 n0 hrec
            rw [List.length_drop] at hb1
            have hws' : wsCount l' = wsCount l := wsCount_agree (by omega) (by omega) hag
            have hhd' : (l'.drop (wsCount l')).head? = some c := by
              rw [hws', List.head?_eq_getElem?, getElem?_drop_add, Nat.add_zero,
                ← hag (wsCount l) (by omega)]
              exact hlj
            rw [objFirst_go f l' (head?_some_ne hhd' hcr), hws']
            rw [ih PMode.objPair (l.drop (wsCount l)) (l'.drop (wsCount l)) r0 n0 hrec
              (fun i hi => by
                rw [getElem?_drop_add, getElem?_drop_add]
                exact hag (wsCount l + i) (by omega))
              (fun hmd => absurd hmd (by decide))]
            simp only []
            exact h
          · exact absurd h (fun hcon => Option.noConfusion hcon)
    case objAfter =>
      rcases hhd : (l.drop (wsCount l)).head? with _ | c
      · rw [objAfter_other f l (head?_none_ne hhd '}') (head?_none_ne hhd ',')] at h
        exact absurd h (fun hcon => Option.noConfusion hcon)
      · have hlj := (head?_drop_some_lt hhd).2
        by_cases hcr : c = '}'
        · subst hcr
          rw [objAfter_close f l hhd] at h
          have h' := h
          rw [Option.some.injEq, Prod.mk.injEq] at h'
          obtain ⟨hr', hn'⟩ := h'
          have hws' : wsCount l' = wsCount l := wsCount_agree (by omega) (by omega) hag
          have hhd' : (l'.drop (wsCount l')).head? = some '}' := by
            rw [hws', List.head?_eq_getElem?, getElem?_drop_add, Nat.add_zero,
              ← hag (wsCount l) (by omega)]
            exact hlj
          rw [objAfter_close f l' hhd', hws']
          exact h
        · by_cases hcm : c = ','
          · subst hcm
            rw [objAfter_comma f l hhd] at h
            split at h
            · rename_i r0 n0 hrec
              have h' := h
              rw [Option.some.injEq, Prod.mk.injEq] at h'
              obtain ⟨hr', hn'⟩ := h'
              have hb1 := parseStep_bounds f PMode.objPair _ r0 n0 hrec
              rw [List.length_drop] at hb1
              have hwsle := wsCount_le (l.drop (wsCount l + 1))
              rw [List.length_drop] at hwsle
              have hws' : wsCount l' = wsCount l := wsCount_agree (by omega) (by omega) hag
              have hhd' : (l'.drop (wsCount l')).head? = some ',' := by
                rw [hws', List.head?_eq_getElem?, getElem?_drop_add, Nat.add_zero,
                  ← hag (wsCount l) (by omega)]
                exact hlj
              have hagdhw2' : ∀ i, i < n - (wsCount l + 1) →
                  (l.drop (wsCount l + 1))[i]? = (l'.drop (wsCount l + 1))[i]? := by
                intro i hi
                rw [getElem?_drop_add, getElem?_drop_add]
                exact hag (wsCount l + 1 + i) (by omega)
              have hw2' : wsCount (l'.drop (wsCount l + 1)) =
                  wsCount (l.drop (wsCount l + 1)) := by
                refine wsCount_agree ?_ ?_ hagdhw2'
                · omega
                · rw [List.length_drop]
                  omega
              rw [objAfter_comma f l' hhd', hws', hw2']
              rw [ih PMode.objPair
                (l.drop (wsCount l + 1 + wsCount (l.drop (wsCount l + 1))))
                (l'.drop (wsCount l + 1 + wsCount (l.drop (wsCount l + 1)))) r0 n0 hrec
                (fun i hi => by
                  rw [getElem?_drop_add, getElem?_drop_add]
                  exact hag (wsCount l + 1 + wsCount (l.drop (wsCount l + 1)) + i) (by omega))
                (fun hmd => absurd hmd (by decide))]
              simp only []
              exact h
            · exact absurd h (fun hcon => Option.noConfusion hcon)
          · rw [objAfter_other f l (head?_some_ne hhd hcr) (head?_some_ne hhd hcm)] at h
            exact absurd h (fun hcon => Option.noConfusion hcon)
    case objPair =>
      rcases hhd : l.head? with _ | c
      · rw [objPair_noquote f l (head?_none_ne hhd '"')] at h
        exact absurd h (fun hcon => Option.noConfusion hcon)
      · by_cases hcq : c = '"'
        · subst hcq
          rcases hscan : scanString (l.drop 1) [] with _ | ⟨key, nK⟩
          · rw [objPair_noscan f l hhd hscan] at h
            exact absurd h (fun hcon => Option.noConfusion hcon)
          · rcases hcol : (l.drop (1 + nK + wsCount (l.drop (1 + nK)))).head? with _ | d
            · rw [objPair_nocolon f l key nK hhd hscan (head?_none_ne hcol ':')] at h
              exact absurd h (fun hcon => Option.noConfusion hcon)
            · by_cases hd : d = ':'
              · subst hd
                rw [objPair_step f l key nK hhd hscan hcol] at h
                split at h
                · rename_i v nV hval
                  split at h
                  · rename_i ps n2 hobj
                    have h' := h
                    rw [Option.some.injEq, Prod.mk.injEq] at h'
                    obtain ⟨hr', hn'⟩ := h'
                    have hb1 := parseStep_bounds f PMode.val _ v nV hval
                    have hb2 := parseStep_bounds f PMode.objAfter _ (Jv.obj ps) n2 hobj
                    rw [List.length_drop] at hb1 hb2
                    have hbK := scanString_bounds (l.drop 1).length (l.drop 1) [] key nK
                      le_rfl hscan
                    rw [List.length_drop] at hbK
                    have hw1le := wsCount_le (l.drop (1 + nK))
                    rw [List.length_drop] at hw1le
                    have hljc := (head?_drop_some_lt hcol).2
                    have hq' : l'.head? = some '"' := by
                      rw [List.head?_eq_getElem?, ← hag 0 (by omega),
                        ← List.head?_eq_getElem?]
                      exact hhd
                    have hscan' : scanString (l'.drop 1) [] = some (key, nK) :=
                      scanString_agree (l.drop 1).length (l.drop 1) (l'.drop 1) [] key nK
                        le_rfl hscan (fun i hi => by
                          rw [getElem?_drop_add, getElem?_drop_add]
                          exact hag (1 + i) (by omega))
                    have hagdw1 : ∀ i, i < n - (1 + nK) →
                        (l.drop (1 + nK))[i]? = (l'.drop (1 + nK))[i]? := by
                      intro i hi
                      rw [getElem?_drop_add, getElem?_drop_add]
                      exact hag (1 + nK + i) (by omega)
                    have hw1' : wsCount (l'.drop (1 + nK)) = wsCount (l.drop (1 + nK)) := by
                      refine wsCount_agree ?_ ?_ hagdw1
                      · omega
                      · rw [List.length_drop]
                        omega
                    have hcol' : (l'.drop (1 + nK + wsCount (l'.drop (1 + nK)))).head? =
                        some ':' := by
                      rw [hw1', List.head?_eq_getElem?, getElem?_drop_add, Nat.add_zero,
                        ← hag (1 + nK + wsCount (l.drop (1 + nK))) (by omega)]
                      exact hljc
                    have hw2le := wsCount_le (l.drop (1 + nK + wsCount (l.drop (1 + nK)) + 1))
                    rw [List.length_drop] at hw2le
                    have hagdhw2' : ∀ i, i < n - (1 + nK + wsCount (l.drop (1 + nK)) + 1) →
                        (l.drop (1 + nK + wsCount (l.drop (1 + nK)) + 1))[i]? = (l'.drop (1 + nK + wsCount (l.drop (1 + nK)) + 1))[i]? := by
                      intro i hi
                      rw [getElem?_drop_add, getElem?_drop_add]
                      exact hag (1 + nK + wsCount (l.drop (1 + nK)) + 1 + i) (by omega)
                    have hw2' : wsCount (l'.drop (1 + nK + wsCount (l.drop (1 + nK)) + 1)) =
                        wsCount (l.drop (1 + nK + wsCount (l.drop (1 + nK)) + 1)) := by
                      refine wsCount_agree ?_ ?_ hagdhw2'
                      · omega
                      · rw [List.length_drop]
                        omega
                    rw [objPair_step f l' key nK hq' hscan' hcol', hw1', hw2']
                    rw [ih PMode.val
                      (l.drop (1 + nK + wsCount (l.drop (1 + nK)) + 1 +
                        wsCount (l.drop (1 + nK + wsCount (l.drop (1 + nK)) + 1))))
                      (l'.drop (1 + nK + wsCount (l.drop (1 + nK)) + 1 +
                        wsCount (l.drop (1 + nK + wsCount (l.drop (1 + nK)) + 1))))
                      v nV hval
                      (fun i hi => by
                        rw [getElem?_drop_add, getElem?_drop_add]
                        exact hag (1 + nK + wsCount (l.drop (1 + nK)) + 1 +
                          wsCount (l.drop (1 + nK + wsCount (l.drop (1 + nK)) + 1)) + i)
                          (by omega))
                      (fun _ lex hlex c0 hc0 => by
                        rw [getElem?_drop_add,
                          ← hag (1 + nK + wsCount (l.drop (1 + nK)) + 1 +
                            wsCount (l.drop (1 + nK + wsCount (l.drop (1 + nK)) + 1)) + nV)
                            (by omega)] at hc0
                        refine after_head_numCont f PMode.objAfter (Or.inr rfl) _ _ _ hobj c0 ?_
                        rw [getElem?_drop_add, Nat.add_zero]
                        exact hc0)]
                    simp only []
                    rw [ih PMode.objAfter
                      (l.drop (1 + nK + wsCount (l.drop (1 + nK)) + 1 +
                        wsCount (l.drop (1 + nK + wsCount (l.drop (1 + nK)) + 1)) + nV))
                      (l'.drop (1 + nK + wsCount (l.drop (1 + nK)) + 1 +
                        wsCount (l.drop (1 + nK + wsCount (l.drop (1 + nK)) + 1)) + nV))
                      (Jv.obj ps) n2 hobj
                      (fun i hi => by
                        rw [getElem?_drop_add, getElem?_drop_add]
                        exact hag (1 + nK + wsCount (l.drop (1 + nK)) + 1 +
                          wsCount (l.drop (1 + nK + wsCount (l.drop (1 + nK)) + 1)) + nV + i)
                          (by omega))
                      (fun hmd => absurd hmd (by decide))]
                    simp only []
                    exact h
                  all_goals exact absurd h (fun hcon => Option.noConfusion hcon)
                · exact absurd h (fun hcon => Option.noConfusion hcon)
              · rw [objPair_nocolon f l key nK hhd hscan (head?_some_ne hcol hd)] at h
                exact absurd h (fun hcon => Option.noConfusion hcon)
        · rw [objPair_noquote f l (head?_some_ne hhd hcq)] at h
          exact absurd h (fun hcon => Option.noConfusion hcon)

theorem getElem?_append_self {a t : List Char} {i : Nat} (h : i < a.length) :
    a[i]? = (a ++ t)[i]? := by
  rw [List.getElem?_append, if_pos h]

theorem parseStep_val_head (f : Nat) (l : List Char) (r : Jv) (n : Nat)
    (h : parseStep f PMode.val l = some (r, n)) :
    ∃ c, l.head? = some c ∧ canStartValue c = true := by
  rcases f with _ | f
  · exact absurd h (fun hc => Option.noConfusion hc)
  simp only [parseStep] at h
  split at h
  · exact absurd h (fun hc => Option.noConfusion hc)
  · rename_i c hc
    refine ⟨c, hc, ?_⟩
    have hc0 : l[0]? = some c := by
      rw [← List.head?_eq_getElem?]
      exact hc
    split_ifs at h with h1 h2 h3 h4 h5 h6 g1 g2 g3
    · rw [h1]
      decide
    · rw [h2]
      decide
    · rw [h3]
      decide
    · have h9 := litHere_getElem h4 0 (by simp)
      rw [hc0] at h9
      simp at h9
      rw [h9]
      decide
    · have h9 := litHere_getElem h5 0 (by simp)
      rw [hc0] at h9
      simp at h9
      rw [h9]
      decide
    · have h9 := litHere_getElem h6 0 (by simp)
      rw [hc0] at h9
      simp at h9
      rw [h9]
      decide
    · split at h
      · rename_i lex np hnum
        obtain ⟨cs, hcs, hcsd⟩ := parseNum_head hnum
        rw [hc0] at hcs
        injection hcs with hcseq
        rw [← hcseq] at hcsd
        rcases hcsd with hcm | hcd
        · rw [hcm]
          decide
        · simp [canStartValue, hcd]
      · have h9 := litHere_getElem g1 0 (by simp)
        rw [hc0] at h9
        simp at h9
        rw [h9]
        decide
    · split at h
      · rename_i lex np hnum
        obtain ⟨cs, hcs, hcsd⟩ := parseNum_head hnum
        rw [hc0] at hcs
        injection hcs with hcseq
        rw [← hcseq] at hcsd
        rcases hcsd with hcm | hcd
        · rw [hcm]
          decide
        · simp [canStartValue, hcd]
      · have h9 := litHere_getElem g2 0 (by simp)
        rw [hc0] at h9
        simp at h9
        rw [h9]
        decide
    · split at h
      · rename_i lex np hnum
        obtain ⟨cs, hcs, hcsd⟩ := parseNum_head hnum
        rw [hc0] at hcs
        injection hcs with hcseq
        rw [← hcseq] at hcsd
        rcases hcsd with hcm | hcd
        · rw [hcm]
          decide
        · simp [canStartValue, hcd]
      · have h9 := litHere_getElem g3 0 (by simp)
        rw [hc0] at h9
        simp at h9
        rw [h9]
        decide
    · split at h
      · rename_i lex np hnum
        obtain ⟨cs, hcs, hcsd⟩ := parseNum_head hnum
        rw [hc0] at hcs
        injection hcs with hcseq
        rw [← hcseq] at hcsd
        rcases hcsd with hcm | hcd
        · rw [hcm]
          decide
        · simp [canStartValue, hcd]
      · exact absurd h (fun hcon => Option.noConfusion hcon)

theorem parseStep_val_badhead (f : Nat) (l : List Char) (c : Char)
    (hc : l.head? = some c) (hbad : canStartValue c = false) :
    parseStep f PMode.val l = none := by
  have hc0 : l[0]? = some c := by
    rw [← List.head?_eq_getElem?]
    exact hc
  simp [canStartValue] at hbad
  obtain ⟨⟨⟨⟨⟨⟨⟨⟨⟨p1, p2⟩, p3⟩, p4⟩, p5⟩, p6⟩, p7⟩, p8⟩, p9⟩, p10⟩ := hbad
  have q4 : ¬ (litHere l ['n', 'u', 'l', 'l'] = true) := litHere_not rfl hc0 p4
  have q5 : ¬ (litHere l ['t', 'r', 'u', 'e'] = true) := litHere_not rfl hc0 p5
  have q6 : ¬ (litHere l ['f', 'a', 'l', 's', 'e'] = true) := litHere_not rfl hc0 p6
  have q7 : ¬ (litHere l ['N', 'a', 'N'] = true) := litHere_not rfl hc0 p7
  have q8 : ¬ (litHere l ['I', 'n', 'f', 'i', 'n', 'i', 't', 'y'] = true) :=
    litHere_not rfl hc0 p8
  have q9 : ¬ (litHere l ['-', 'I', 'n', 'f', 'i', 'n', 'i', 't', 'y'] = true) :=
    litHere_not rfl hc0 p9
  rcases f with _ | f
  · rfl
  simp only [parseStep]
  rw [hc]
  simp only []
  rw [if_neg p1, if_neg p2, if_neg p3, if_neg q4, if_neg q5, if_neg q6,
    parseNum_none_of_head hc0 p9 p10]
  simp only []
  rw [if_neg q7, if_neg q8, if_neg q9]

theorem rawDecodeL_of_parseStep {F : Nat} {l : List Char} {v : Jv} {n : Nat}
    (h : parseStep F PMode.val l = some (v, n)) : rawDecodeL l = some (v, n) := by
  have hb := parseStep_bounds F PMode.val l v n h
  exact parseStep_mono (2 * n) (2 * l.length + 2) PMode.val l v n (by omega)
    (parseStep_tight F PMode.val l v n h).1

theorem rawDecodeL_take {l : List Char} {v : Jv} {n : Nat}
    (h : rawDecodeL l = some (v, n)) : rawDecodeL (l.take n) = some (v, n) := by
  refine rawDecodeL_of_parseStep (parseStep_agree (2 * l.length + 2) PMode.val l
    (l.take n) v n h ?_ ?_)
  · intro i hi
    rw [List.getElem?_take, if_pos hi]
  · intro _ lex hlex c hcon
    have hb := parseStep_bounds (2 * l.length + 2) PMode.val l v n h
    rw [List.getElem?_take, if_neg (by omega)] at hcon
    exact absurd hcon (fun hcc => Option.noConfusion hcc)

theorem rawDecodeL_append {a t : List Char} {v : Jv} {n : Nat}
    (h : rawDecodeL a = some (v, n)) (hnum : ∀ lex, v = Jv.num lex → False) :
    rawDecodeL (a ++ t) = some (v, n) := by
  have hb := parseStep_bounds (2 * a.length + 2) PMode.val a v n h
  refine rawDecodeL_of_parseStep (parseStep_agree (2 * a.length + 2) PMode.val a
    (a ++ t) v n h ?_ ?_)
  · intro i hi
    exact getElem?_append_self (by omega)
  · intro _ lex hlex c hcon
    exact absurd hlex (fun hh => hnum lex hh)

theorem parseStep_val_nil (f : Nat) : parseStep f PMode.val [] = none := by
  rcases f with _ | f <;> rfl

theorem parseStep_objPair_nil (f : Nat) : parseStep f PMode.objPair [] = none := by
  rcases f with _ | f
  · rfl
  · exact objPair_noquote f [] (head?_none_ne rfl '"')

theorem parseStep_arrAfter_nil (f : Nat) : parseStep f PMode.arrAfter [] = none := by
  rcases f with _ | f
  · rfl
  · exact arrAfter_other f [] (head?_none_ne rfl ']') (head?_none_ne rfl ',')

theorem parseStep_objAfter_nil (f : Nat) : parseStep f PMode.objAfter [] = none := by
  rcases f with _ | f
  · rfl
  · exact objAfter_other f [] (head?_none_ne rfl '}') (head?_none_ne rfl ',')

theorem wsCount_zero_of_head {t : List Char} {c : Char} (hc : t.head? = some c)
    (hws : jsonWsB c = false) : wsCount t = 0 := by
  refine (spanLen_iff jsonWsB t 0).mpr ⟨fun i hi => absurd hi (by omega), ?_⟩
  intro c2 hc2
  rw [← List.head?_eq_getElem?, hc] at hc2
  injection hc2 with hx
  rw [← hx]
  exact hws

theorem parseStep_arrAfter_bad (f : Nat) (t : List Char) (c : Char)
    (hc : t.head? = some c) (hws : jsonWsB c = false) (h1 : c ≠ ']') (h2 : c ≠ ',') :
    parseStep f PMode.arrAfter t = none := by
  rcases f with _ | f
  · rfl
  have hhd : (t.drop (wsCount t)).head? = some c := by
    rw [wsCount_zero_of_head hc hws, List.drop_zero]
    exact hc
  exact arrAfter_other f t (head?_some_ne hhd h1) (head?_some_ne hhd h2)

theorem parseStep_objAfter_bad (f : Nat) (t : List Char) (c : Char)
    (hc : t.head? = some c) (hws : jsonWsB c = false) (h1 : c ≠ '}') (h2 : c ≠ ',') :
    parseStep f PMode.objAfter t = none := by
  rcases f with _ | f
  · rfl
  have hhd : (t.drop (wsCount t)).head? = some c := by
    rw [wsCount_zero_of_head hc hws, List.drop_zero]
    exact hc
  exact objAfter_other f t (head?_some_ne hhd h1) (head?_some_ne hhd h2)

theorem parseStep_det {f1 f2 : Nat} {md : PMode} {l : List Char} {r1 r2 : Jv}
    {n1 n2 : Nat} (h1 : parseStep f1 md l = some (r1, n1))
    (h2 : parseStep f2 md l = some (r2, n2)) : r1 = r2 ∧ n1 = n2 := by
  have m1 := parseStep_mono f1 (f1 + f2) md l r1 n1 (by omega) h1
  have m2 := parseStep_mono f2 (f1 + f2) md l r2 n2 (by omega) h2
  rw [m1] at m2
  rw [Option.some.injEq, Prod.mk.injEq] at m2
  exact m2

theorem take_head? {l : List Char} {c : Char} {m : Nat} (hc : l.head? = some c)
    (hm : 0 < m) : (l.take m).head? = some c := by
  rw [List.head?_eq_getElem?, List.getElem?_take, if_pos hm, ← List.head?_eq_getElem?]
  exact hc

theorem litHere_not_at {l pat : List Char} {i : Nat} {d p : Char}
    (hl : l[i]? = some d) (hp : pat[i]? = some p) (hne : d ≠ p) :
    ¬ (litHere l pat = true) := fun hlit => by
  have h9 := litHere_getElem hlit i (getElem?_some_lt hp)
  rw [hl, hp] at h9
  injection h9 with hx
  exact hne hx

theorem objPair_shape (f : Nat) (l : List Char) (r : Jv) (n : Nat)
    (h : parseStep f PMode.objPair l = some (r, n)) : ∃ ps, r = Jv.obj ps := by
  rcases f with _ | f
  · exact absurd h (fun hc => Option.noConfusion hc)
  rcases hhd : l.head? with _ | c
  · rw [objPair_noquote f l (head?_none_ne hhd '"')] at h
    exact absurd h (fun hc => Option.noConfusion hc)
  by_cases hcq : c = '"'
  · subst hcq
    rcases hscan : scanString (l.drop 1) [] with _ | ⟨key, nK⟩
    · rw [objPair_noscan f l hhd hscan] at h
      exact absurd h (fun hc => Option.noConfusion hc)
    rcases hcol : (l.drop (1 + nK + wsCount (l.drop (1 + nK)))).head? with _ | d
    · rw [objPair_nocolon f l key nK hhd hscan (head?_none_ne hcol ':')] at h
      exact absurd h (fun hc => Option.noConfusion hc)
    by_cases hd : d = ':'
    · subst hd
      rw [objPair_step f l key nK hhd hscan hcol] at h
      split at h
      · rename_i v nV hval
        split at h
        · rename_i ps n2 hobj
          rw [Option.some.injEq, Prod.mk.injEq] at h
          exact ⟨(key, v) :: ps, h.1.symm⟩
        all_goals exact absurd h (fun hc => Option.noConfusion hc)
      · exact absurd h (fun hc => Option.noConfusion hc)
    · rw [objPair_nocolon f l key nK hhd hscan (head?_some_ne hcol hd)] at h
      exact absurd h (fun hc => Option.noConfusion hc)
  · rw [objPair_noquote f l (head?_some_ne hhd hcq)] at h
    exact absurd h (fun hc => Option.noConfusion hc)

theorem arrFirst_shape (f : Nat) (l : List Char) (r : Jv) (n : Nat)
    (h : parseStep f PMode.arrFirst l = some (r, n)) : ∃ vs, r = Jv.arr vs := by
  rcases f with _ | f
  · exact absurd h (fun hc => Option.noConfusion hc)
  rcases hhd : (l.drop (wsCount l)).head? with _ | c
  · rw [arrFirst_go f l (head?_none_ne hhd ']')] at h
    split at h
    · rename_i v n1 hval
      split at h
      · rename_i vs n2 harr
        rw [Option.some.injEq, Prod.mk.injEq] at h
        exact ⟨v :: vs, h.1.symm⟩
      all_goals exact absurd h (fun hc => Option.noConfusion hc)
    · exact absurd h (fun hc => Option.noConfusion hc)
  by_cases hcr : c = ']'
  · subst hcr
    rw [arrFirst_close f l hhd] at h
    rw [Option.some.injEq, Prod.mk.injEq] at h
    exact ⟨[], h.1.symm⟩
  · rw [arrFirst_go f l (head?_some_ne hhd hcr)] at h
    split at h
    · rename_i v n1 hval
      split at h
      · rename_i vs n2 harr
        rw [Option.some.injEq, Prod.mk.injEq] at h
        exact ⟨v :: vs, h.1.symm⟩
      all_goals exact absurd h (fun hc => Option.noConfusion hc)
    · exact absurd h (fun hc => Option.noConfusion hc)

theorem arrAfter_shape (f : Nat) (l : List Char) (r : Jv) (n : Nat)
    (h : parseStep f PMode.arrAfter l = some (r, n)) : ∃ vs, r = Jv.arr vs := by
  rcases f with _ | f
  · exact absurd h (fun hc => Option.noConfusion hc)
  rcases hhd : (l.drop (wsCount l)).head? with _ | c
  · rw [arrAfter_other f l (head?_none_ne hhd ']') (head?_none_ne hhd ',')] at h
    exact absurd h (fun hc => Option.noConfusion hc)
  by_cases hcr : c = ']'
  · subst hcr
    rw [arrAfter_close f l hhd] at h
    rw [Option.some.injEq, Prod.mk.injEq] at h
    exact ⟨[], h.1.symm⟩
  by_cases hcm : c = ','
  · subst hcm
    rw [arrAfter_comma f l hhd] at h
    split at h
    · rename_i v n1 hval
      split at h
      · rename_i vs n2 harr
        rw [Option.some.injEq, Prod.mk.injEq] at h
        exact ⟨v :: vs, h.1.symm⟩
      all_goals exact absurd h (fun hc => Option.noConfusion hc)
    · exact absurd h (fun hc => Option.noConfusion hc)
  · rw [arrAfter_other f l (head?_some_ne hhd hcr) (head?_some_ne hhd hcm)] at h
    exact absurd h (fun hc => Option.noConfusion hc)

theorem objFirst_shape (f : Nat) (l : List Char) (r : Jv) (n : Nat)
    (h : parseStep f PMode.objFirst l = some (r, n)) : ∃ ps, r = Jv.obj ps := by
  rcases f with _ | f
  · exact absurd h (fun hc => Option.noConfusion hc)
  rcases hhd : (l.drop (wsCount l)).head? with _ | c
  · rw [objFirst_go f l (head?_none_ne hhd '}')] at h
    split at h
    · rename_i r0 n0 hrec
      rw [Option.some.injEq, Prod.mk.injEq] at h
      obtain ⟨ps, hps⟩ := objPair_shape f _ r0 n0 hrec
      exact ⟨ps, by rw [← h.1, hps]⟩
    · exact absurd h (fun hc => Option.noConfusion hc)
  by_cases hcr : c = '}'
  · subst hcr
    rw [objFirst_close f l hhd] at h
    rw [Option.some.injEq, Prod.mk.injEq] at h
    exact ⟨[], h.1.symm⟩
  · rw [objFirst_go f l (head?_some_ne hhd hcr)] at h
    split at h
    · rename_i r0 n0 hrec
      rw [Option.some.injEq, Prod.mk.injEq] at h
      obtain ⟨ps, hps⟩ := objPair_shape f _ r0 n0 hrec
      exact ⟨ps, by rw [← h.1, hps]⟩
    · exact absurd h (fun hc => Option.noConfusion hc)

theorem objAfter_shape (f : Nat) (l : List Char) (r : Jv) (n : Nat)
    (h : parseStep f PMode.objAfter l = some (r, n)) : ∃ ps, r = Jv.obj ps := by
  rcases f with _ | f
  · exact absurd h (fun hc => Option.noConfusion hc)
  rcases hhd : (l.drop (wsCount l)).head? with _ | c
  · rw [objAfter_other f l (head?_none_ne hhd '}') (head?_none_ne hhd ',')] at h
    exact absurd h (fun hc => Option.noConfusion hc)
  by_cases hcr : c = '}'
  · subst hcr
    rw [objAfter_close f l hhd] at h
    rw [Option.some.injEq, Prod.mk.injEq] at h
    exact ⟨[], h.1.symm⟩
  by_cases hcm : c = ','
  · subst hcm
    rw [objAfter_comma f l hhd] at h
    split at h
    · rename_i r0 n0 hrec
      rw [Option.some.injEq, Prod.mk.injEq] at h
      obtain ⟨ps, hps⟩ := objPair_shape f _ r0 n0 hrec
      exact ⟨ps, by rw [← h.1, hps]⟩
    · exact absurd h (fun hc => Option.noConfusion hc)
  · rw [objAfter_other f l (head?_some_ne hhd hcr) (head?_some_ne hhd hcm)] at h
    exact absurd h (fun hc => Option.noConfusion hc)

theorem val_num_prefix_numcase (g : Nat) (l : List Char) (lex0 : String) (np m : Nat)
    (c : Char) (hnum : parseNum l = some (lex0, np)) (hm : m < np) (hm0 : 0 < m)
    (hc0 : l[0]? = some c) (hctk : (l.take m).head? = some c)
    (hc0tk : (l.take m)[0]? = some c) :
    parseStep (g + 1) PMode.val (l.take m) = none ∨
    (∃ lex2 n2, parseStep (g + 1) PMode.val (l.take m) = some (Jv.num lex2, n2) ∧
      (n2 = m ∨ (n2 < m ∧ ∃ c, l[n2]? = some c ∧ (c = '.' ∨ c = 'e' ∨ c = 'E')))) := by
  obtain ⟨cs, hcs, hcsd⟩ := parseNum_head hnum
  rw [hc0] at hcs
  injection hcs with hcseq
  rw [← hcseq] at hcsd
  have q1 : ¬ c = '"' := by
    rcases hcsd with hcm' | hcd
    · rw [hcm']; decide
    · exact digit_ne hcd '"' (by decide)
  have q2 : ¬ c = '{' := by
    rcases hcsd with hcm' | hcd
    · rw [hcm']; decide
    · exact digit_ne hcd '{' (by decide)
  have q3 : ¬ c = '[' := by
    rcases hcsd with hcm' | hcd
    · rw [hcm']; decide
    · exact digit_ne hcd '[' (by decide)
  have qn : ¬ (litHere (l.take m) ['n', 'u', 'l', 'l'] = true) := by
    refine litHere_not rfl hc0tk ?_
    rcases hcsd with hcm' | hcd
    · rw [hcm']; decide
    · exact digit_ne hcd 'n' (by decide)
  have qt : ¬ (litHere (l.take m) ['t', 'r', 'u', 'e'] = true) := by
    refine litHere_not rfl hc0tk ?_
    rcases hcsd with hcm' | hcd
    · rw [hcm']; decide
    · exact digit_ne hcd 't' (by decide)
  have qf : ¬ (litHere (l.take m) ['f', 'a', 'l', 's', 'e'] = true) := by
    refine litHere_not rfl hc0tk ?_
    rcases hcsd with hcm' | hcd
    · rw [hcm']; decide
    · exact digit_ne hcd 'f' (by decide)
  rcases parseNum_pref l lex0 np m hnum hm with
    hcnone | ⟨lex2, hcm2⟩ | ⟨lex2, n2, hcn2, hlt2, c2, hc2, hdots⟩
  · refine Or.inl ?_
    have qNaN : ¬ (litHere (l.take m) ['N', 'a', 'N'] = true) := by
      refine litHere_not rfl hc0tk ?_
      rcases hcsd with hcm' | hcd
      · rw [hcm']; decide
      · exact digit_ne hcd 'N' (by decide)
    have qInf : ¬ (litHere (l.take m) ['I', 'n', 'f', 'i', 'n', 'i', 't', 'y'] = true) := by
      refine litHere_not rfl hc0tk ?_
      rcases hcsd with hcm' | hcd
      · rw [hcm']; decide
      · exact digit_ne hcd 'I' (by decide)
    have qMinf : ¬ (litHere (l.take m)
        ['-', 'I', 'n', 'f', 'i', 'n', 'i', 't', 'y'] = true) := by
      rcases hcsd with hcm' | hcd
      · by_cases hm1 : m = 1
        · subst hm1
          intro hlit
          have h8 := litHere_length hlit
          simp at h8
        · have hsl : numSignLen l = 1 := by
            unfold numSignLen
            rw [hc0, if_pos (by rw [hcm'])]
          have hzz : ¬ digitSpan (l.drop (numSignLen l)) = 0 := by
            intro h0
            unfold parseNum at hnum
            rw [if_pos h0] at hnum
            exact Option.noConfusion hnum
          rw [hsl] at hzz
          obtain ⟨d1, hd1, hd1d⟩ := digitSpan_digit (l.drop 1) 0
            (Nat.pos_of_ne_zero hzz)
          rw [getElem?_drop_add] at hd1
          refine litHere_not_at (show (l.take m)[1]? = some d1 from ?_)
            (show (['-', 'I', 'n', 'f', 'i', 'n', 'i', 't', 'y'] :
              List Char)[1]? = some 'I' from rfl) (digit_ne hd1d 'I' (by decide))
          rw [List.getElem?_take, if_pos (by omega)]
          exact hd1
      · exact litHere_not rfl hc0tk (digit_ne hcd '-' (by decide))
    simp only [parseStep]
    rw [hctk]
    simp only []
    rw [if_neg q1, if_neg q2, if_neg q3, if_neg qn, if_neg qt, if_neg qf, hcnone]
    simp only []
    rw [if_neg qNaN, if_neg qInf, if_neg qMinf]
  · refine Or.inr ⟨lex2, m, ?_, Or.inl rfl⟩
    simp only [parseStep]
    rw [hctk]
    simp only []
    rw [if_neg q1, if_neg q2, if_neg q3, if_neg qn, if_neg qt, if_neg qf, hcm2]
  · refine Or.inr ⟨lex2, n2, ?_, Or.inr ⟨hlt2, c2, hc2, hdots⟩⟩
    simp only [parseStep]
    rw [hctk]
    simp only []
    rw [if_neg q1, if_neg q2, if_neg q3, if_neg qn, if_neg qt, if_neg qf, hcn2]

theorem val_litfail (g : Nat) (T : List Char) (c : Char) (hctk : T.head? = some c)
    (q1 : ¬ c = '"') (q2 : ¬ c = '{') (q3 : ¬ c = '[')
    (qn : ¬ (litHere T ['n', 'u', 'l', 'l'] = true))
    (qt : ¬ (litHere T ['t', 'r', 'u', 'e'] = true))
    (qf : ¬ (litHere T ['f', 'a', 'l', 's', 'e'] = true))
    (hnone : parseNum T = none)
    (qNaN : ¬ (litHere T ['N', 'a', 'N'] = true))
    (qInf : ¬ (litHere T ['I', 'n', 'f', 'i', 'n', 'i', 't', 'y'] = true))
    (qMinf : ¬ (litHere T ['-', 'I', 'n', 'f', 'i', 'n', 'i', 't', 'y'] = true)) :
    parseStep (g + 1) PMode.val T = none := by
  simp only [parseStep]
  rw [hctk]
  simp only []
  rw [if_neg q1, if_neg q2, if_neg q3, if_neg qn, if_neg qt, if_neg qf, hnone]
  simp only []
  rw [if_neg qNaN, if_neg qInf, if_neg qMinf]

theorem val_num_pref (f f' : Nat) (l : List Char) (lex : String) (n m : Nat)
    (h : parseStep f PMode.val l = some (Jv.num lex, n)) (hm : m < n) :
    parseStep f' PMode.val (l.take m) = none ∨
    (∃ lex2 n2, parseStep f' PMode.val (l.take m) = some (Jv.num lex2, n2) ∧
      (n2 = m ∨ (n2 < m ∧ ∃ c, l[n2]? = some c ∧ (c = '.' ∨ c = 'e' ∨ c = 'E')))) := by
  rcases f with _ | f
  · exact absurd h (fun hc => Option.noConfusion hc)
  rcases Nat.eq_zero_or_pos m with hm0 | hm0
  · subst hm0
    rw [List.take_zero]
    exact Or.inl (parseStep_val_nil f')
  rcases f' with _ | g
  · exact Or.inl rfl
  simp only [parseStep] at h
  split at h
  · exact absurd h (fun hc => Option.noConfusion hc)
  rename_i c hc
  have hc0 : l[0]? = some c := by
    rw [← List.head?_eq_getElem?]
    exact hc
  have hctk : (l.take m).head? = some c := take_head? hc hm0
  have hc0tk : (l.take m)[0]? = some c := by
    rw [← List.head?_eq_getElem?]
    exact hctk
  split_ifs at h with h1 h2 h3 h4 h5 h6 g1 g2 g3
  · split at h
    · rename_i s nS hscan
      rw [Option.some.injEq, Prod.mk.injEq] at h
      exact absurd h.1 (fun hcc => Jv.noConfusion hcc)
    · exact absurd h (fun hcc => Option.noConfusion hcc)
  · split at h
    · rename_i r0 n0 hrec
      rw [Option.some.injEq, Prod.mk.injEq] at h
      obtain ⟨ps, hps⟩ := objFirst_shape f _ r0 n0 hrec
      rw [hps] at h
      exact absurd h.1 (fun hcc => Jv.noConfusion hcc)
    · exact absurd h (fun hcc => Option.noConfusion hcc)
  · split at h
    · rename_i r0 n0 hrec
      rw [Option.some.injEq, Prod.mk.injEq] at h
      obtain ⟨vs, hvs⟩ := arrFirst_shape f _ r0 n0 hrec
      rw [hvs] at h
      exact absurd h.1 (fun hcc => Jv.noConfusion hcc)
    · exact absurd h (fun hcc => Option.noConfusion hcc)
  · rw [Option.some.injEq, Prod.mk.injEq] at h
    exact absurd h.1 (fun hcc => Jv.noConfusion hcc)
  · rw [Option.some.injEq, Prod.mk.injEq] at h
    exact absurd h.1 (fun hcc => Jv.noConfusion hcc)
  · rw [Option.some.injEq, Prod.mk.injEq] at h
    exact absurd h.1 (fun hcc => Jv.noConfusion hcc)
  · split at h
    · rename_i lex0 np hnum
      rw [Option.some.injEq, Prod.mk.injEq] at h
      exact val_num_prefix_numcase g l lex0 np m c hnum (by omega) hm0 hc0 hctk hc0tk
    · rename_i hnone
      rw [Option.some.injEq, Prod.mk.injEq] at h
      have hcN : c = 'N' := by
        have h9 := litHere_getElem g1 0 (by simp)
        rw [hc0] at h9
        simp at h9
        exact h9
      refine Or.inl (val_litfail g (l.take m) c hctk
        (by rw [hcN]; decide) (by rw [hcN]; decide) (by rw [hcN]; decide)
        (litHere_not rfl hc0tk (by rw [hcN]; decide))
        (litHere_not rfl hc0tk (by rw [hcN]; decide))
        (litHere_not rfl hc0tk (by rw [hcN]; decide))
        (parseNum_none_of_head hc0tk (by rw [hcN]; decide) (by rw [hcN]; decide))
        (by
          rw [litHere_take_short (show m < (['N', 'a', 'N'] : List Char).length by
            simp; omega)]
          exact Bool.false_ne_true)
        (litHere_not rfl hc0tk (by rw [hcN]; decide))
        (litHere_not rfl hc0tk (by rw [hcN]; decide)))
  · split at h
    · rename_i lex0 np hnum
      rw [Option.some.injEq, Prod.mk.injEq] at h
      exact val_num_prefix_numcase g l lex0 np m c hnum (by omega) hm0 hc0 hctk hc0tk
    · rename_i hnone
      rw [Option.some.injEq, Prod.mk.injEq] at h
      have hcI : c = 'I' := by
        have h9 := litHere_getElem g2 0 (by simp)
        rw [hc0] at h9
        simp at h9
        exact h9
      refine Or.inl (val_litfail g (l.take m) c hctk
        (by rw [hcI]; decide) (by rw [hcI]; decide) (by rw [hcI]; decide)
        (litHere_not rfl hc0tk (by rw [hcI]; decide))
        (litHere_not rfl hc0tk (by rw [hcI]; decide))
        (litHere_not rfl hc0tk (by rw [hcI]; decide))
        (parseNum_none_of_head hc0tk (by rw [hcI]; decide) (by rw [hcI]; decide))
        (litHere_not rfl hc0tk (by rw [hcI]; decide))
        (by
          rw [litHere_take_short (show m <
            (['I', 'n', 'f', 'i', 'n', 'i', 't', 'y'] : List Char).length by
            simp; omega)]
          exact Bool.false_ne_true)
        (litHere_not rfl hc0tk (by rw [hcI]; decide)))
  · split at h
    · rename_i lex0 np hnum
      rw [Option.some.injEq, Prod.mk.injEq] at h
      exact val_num_prefix_numcase g l lex0 np m c hnum (by omega) hm0 hc0 hctk hc0tk
    · rename_i hnone
      rw [Option.some.injEq, Prod.mk.injEq] at h
      have hcM : c = '-' := by
        have h9 := litHere_getElem g3 0 (by simp)
        rw [hc0] at h9
        simp at h9
        exact h9
      have hnone' : parseNum (l.take m) = none := by
        by_cases hm1 : m = 1
        · subst hm1
          rw [parseNum_none_iff]
          intro c3 hc3
          have hsT : numSignLen (l.take 1) = 1 := by
            unfold numSignLen
            rw [hc0tk, if_pos (by rw [hcM])]
          rw [hsT, List.getElem?_take, if_neg (by omega)] at hc3
          exact absurd hc3 (fun hcc => Option.noConfusion hcc)
        · have hI : (l.take m)[1]? = some 'I' := by
            rw [List.getElem?_take, if_pos (by omega)]
            have h9 := litHere_getElem g3 1 (by simp)
            simpa using h9
          exact parseNum_none_of_sign (by rw [← hcM]; exact hc0tk) hI (by decide)
      refine Or.inl (val_litfail g (l.take m) c hctk
        (by rw [hcM]; decide) (by rw [hcM]; decide) (by rw [hcM]; decide)
        (litHere_not rfl hc0tk (by rw [hcM]; decide))
        (litHere_not rfl hc0tk (by rw [hcM]; decide))
        (litHere_not rfl hc0tk (by rw [hcM]; decide))
        hnone'
        (litHere_not rfl hc0tk (by rw [hcM]; decide))
        (litHere_not rfl hc0tk (by rw [hcM]; decide))
        (by
          rw [litHere_take_short (show m <
            (['-', 'I', 'n', 'f', 'i', 'n', 'i', 't', 'y'] : List Char).length by
            simp; omega)]
          exact Bool.false_ne_true))
  · split at h
    · rename_i lex0 np hnum
      rw [Option.some.injEq, Prod.mk.injEq] at h
      exact val_num_prefix_numcase g l lex0 np m c hnum (by omega) hm0 hc0 hctk hc0tk
    · exact absurd h (fun hcc => Option.noConfusion hcc)

theorem parseStep_arrFirst_nil (f : Nat) : parseStep f PMode.arrFirst [] = none := by
  rcases f with _ | f
  · rfl
  rw [arrFirst_go f [] (head?_none_ne rfl ']'),
    show (([] : List Char).drop (wsCount ([] : List Char))) = [] from rfl,
    parseStep_val_nil f]

theorem parseStep_objFirst_nil (f : Nat) : parseStep f PMode.objFirst [] = none := by
  rcases f with _ | f
  · rfl
  rw [objFirst_go f [] (head?_none_ne rfl '}'),
    show (([] : List Char).drop (wsCount ([] : List Char))) = [] from rfl,
    parseStep_objPair_nil f]

theorem parseStep_nil (f : Nat) (md : PMode) : parseStep f md [] = none := by
  cases md
  case val => exact parseStep_val_nil f
  case arrFirst => exact parseStep_arrFirst_nil f
  case arrAfter => exact parseStep_arrAfter_nil f
  case objFirst => exact parseStep_objFirst_nil f
  case objAfter => exact parseStep_objAfter_nil f
  case objPair => exact parseStep_objPair_nil f

theorem val_trunc_classify (F g : Nat)
    (ih : ∀ (f' : Nat) (md : PMode) (l : List Char) (r : Jv) (n m : Nat),
      parseStep F md l = some (r, n) → m < n →
      parseStep f' md (l.take m) = none ∨
      (md = PMode.val ∧ (∃ lex, r = Jv.num lex) ∧
        ∃ lex2 n2, parseStep f' md (l.take m) = some (Jv.num lex2, n2) ∧
          (n2 = m ∨ (n2 < m ∧ ∃ c, l[n2]? = some c ∧ (c = '.' ∨ c = 'e' ∨ c = 'E')))))
    (D : List Char) (v : Jv) (n1 mm : Nat)
    (hval : parseStep F PMode.val D = some (v, n1))
    (hstopc : n1 < mm → ∀ c0, D[n1]? = some c0 → numCont c0 = false) :
    parseStep g PMode.val (D.take mm) = none ∨
    (n1 ≤ mm ∧ parseStep g PMode.val (D.take mm) = some (v, n1)) ∨
    (mm < n1 ∧ ∃ lex2 n2', parseStep g PMode.val (D.take mm) = some (Jv.num lex2, n2') ∧
      (n2' = mm ∨ (n2' < mm ∧ ∃ c2, D[n2']? = some c2 ∧
        (c2 = '.' ∨ c2 = 'e' ∨ c2 = 'E')))) := by
  by_cases hc : mm < n1
  · rcases hq : parseStep g PMode.val (D.take mm) with _ | ⟨w, k⟩
    · exact Or.inl rfl
    · rcases ih g PMode.val D v n1 mm hval hc with hno | ⟨-, -, lex2, n2', heq2, hside⟩
      · rw [hq] at hno
        exact absurd hno (fun hcc => Option.noConfusion hcc)
      · rw [hq] at heq2
        exact Or.inr (Or.inr ⟨hc, lex2, n2', heq2, hside⟩)
  · push_neg at hc
    rcases hq : parseStep g PMode.val (D.take mm) with _ | ⟨w, k⟩
    · exact Or.inl rfl
    · have hvalT : parseStep F PMode.val (D.take mm) = some (v, n1) := by
        refine parseStep_agree F PMode.val D (D.take mm) v n1 hval ?_ ?_
        · intro i hi
          rw [List.getElem?_take, if_pos (by omega)]
        · intro _ lex hlex c0 hc0
          rcases Nat.lt_or_ge n1 mm with hlt | hge
          · rw [List.getElem?_take, if_pos hlt] at hc0
            exact hstopc hlt c0 hc0
          · rw [List.getElem?_take, if_neg (by omega)] at hc0
            exact absurd hc0 (fun hcc => Option.noConfusion hcc)
      obtain ⟨hw, hk⟩ := parseStep_det hq hvalT
      exact Or.inr (Or.inl ⟨hc, by rw [hw, hk]⟩)

theorem arrFirst_wspre (f : Nat) (l : List Char) (m : Nat) (hm : m ≤ wsCount l) :
    parseStep f PMode.arrFirst (l.take m) = none := by
  rcases f with _ | g
  · rfl
  have hwsT : wsCount (l.take m) = m := by
    rw [wsCount_take]
    omega
  have hTdm : (l.take m).drop m = [] := by
    rw [List.drop_take]
    simp
  have hne : ((l.take m).drop (wsCount (l.take m))).head? ≠ some ']' := by
    rw [hwsT, hTdm]
    exact fun hcc => Option.noConfusion hcc
  rw [arrFirst_go g (l.take m) hne, hwsT, hTdm, parseStep_val_nil g]

theorem arrAfter_wspre (f : Nat) (l : List Char) (m : Nat) (hm : m ≤ wsCount l) :
    parseStep f PMode.arrAfter (l.take m) = none := by
  rcases f with _ | g
  · rfl
  have hwsT : wsCount (l.take m) = m := by
    rw [wsCount_take]
    omega
  have hTdm : (l.take m).drop m = [] := by
    rw [List.drop_take]
    simp
  have hhe : ((l.take m).drop (wsCount (l.take m))).head? = none := by
    rw [hwsT, hTdm]
    rfl
  exact arrAfter_other g (l.take m) (head?_none_ne hhe ']') (head?_none_ne hhe ',')

theorem objFirst_wspre (f : Nat) (l : List Char) (m : Nat) (hm : m ≤ wsCount l) :
    parseStep f PMode.objFirst (l.take m) = none := by
  rcases f with _ | g
  · rfl
  have hwsT : wsCount (l.take m) = m := by
    rw [wsCount_take]
    omega
  have hTdm : (l.take m).drop m = [] := by
    rw [List.drop_take]
    simp
  have hne : ((l.take m).drop (wsCount (l.take m))).head? ≠ some '}' := by
    rw [hwsT, hTdm]
    exact fun hcc => Option.noConfusion hcc
  rw [objFirst_go g (l.take m) hne, hwsT, hTdm, parseStep_objPair_nil g]

theorem objAfter_wspre (f : Nat) (l : List Char) (m : Nat) (hm : m ≤ wsCount l) :
    parseStep f PMode.objAfter (l.take m) = none := by
  rcases f with _ | g
  · rfl
  have hwsT : wsCount (l.take m) = m := by
    rw [wsCount_take]
    omega
  have hTdm : (l.take m).drop m = [] := by
    rw [List.drop_take]
    simp
  have hhe : ((l.take m).drop (wsCount (l.take m))).head? = none := by
    rw [hwsT, hTdm]
    rfl
  exact objAfter_other g (l.take m) (head?_none_ne hhe '}') (head?_none_ne hhe ',')

set_option maxHeartbeats 1600000 in
theorem parseStep_pref (f : Nat) : ∀ (f' : Nat) (md : PMode) (l : List Char) (r : Jv)
    (n m : Nat),
    parseStep f md l = some (r, n) → m < n →
    parseStep f' md (l.take m) = none ∨
    (md = PMode.val ∧ (∃ lex, r = Jv.num lex) ∧
      ∃ lex2 n2, parseStep f' md (l.take m) = some (Jv.num lex2, n2) ∧
        (n2 = m ∨ (n2 < m ∧ ∃ c, l[n2]? = some c ∧ (c = '.' ∨ c = 'e' ∨ c = 'E')))) := by
  induction f with
  | zero => intro f' md l r n m h hm; exact absurd h (fun hc => Option.noConfusion hc)
  | succ F ih =>
    intro f' md l r n m h hm
    have hb := parseStep_bounds (F + 1) md l r n h
    rcases Nat.eq_zero_or_pos m with hm0 | hm0
    · subst hm0
      rw [List.take_zero]
      exact Or.inl (parseStep_nil f' md)
    rcases f' with _ | g
    · exact Or.inl rfl
    have htdm : (l.take m).drop m = [] := by
      rw [List.drop_take]
      simp
    cases md
    case val =>
      have h0 := h
      simp only [parseStep] at h
      split at h
      · exact absurd h (fun hc => Option.noConfusion hc)
      rename_i c hc
      have hc0 : l[0]? = some c := by
        rw [← List.head?_eq_getElem?]
        exact hc
      have hctk : (l.take m).head? = some c := take_head? hc hm0
      have hc0tk : (l.take m)[0]? = some c := by
        rw [← List.head?_eq_getElem?]
        exact hctk
      split_ifs at h with h1 h2 h3 h4 h5 h6 g1 g2 g3
      · split at h
        · rename_i s nS hscan
          have h' := h
          rw [Option.some.injEq, Prod.mk.injEq] at h'
          refine Or.inl ?_
          simp only [parseStep]
          rw [hctk]
          simp only []
          rw [if_pos h1, List.drop_take,
            scanString_pref (l.drop 1).length (l.drop 1) [] s nS (m - 1)
              le_rfl hscan (by omega)]
        · exact absurd h (fun hcc => Option.noConfusion hcc)
      · split at h
        · rename_i r0 n0 hrec
          have h' := h
          rw [Option.some.injEq, Prod.mk.injEq] at h'
          refine Or.inl ?_
          simp only [parseStep]
          rw [hctk]
          simp only []
          rcases ih g PMode.objFirst (l.drop 1) r0 n0 (m - 1) hrec (by omega) with
            hno | ⟨hmd, -⟩
          · rw [if_neg h1, if_pos h2, List.drop_take, hno]
          · exact absurd hmd (by decide)
        · exact absurd h (fun hcc => Option.noConfusion hcc)
      · split at h
        · rename_i r0 n0 hrec
          have h' := h
          rw [Option.some.injEq, Prod.mk.injEq] at h'
          refine Or.inl ?_
          simp only [parseStep]
          rw [hctk]
          simp only []
          rcases ih g PMode.arrFirst (l.drop 1) r0 n0 (m - 1) hrec (by omega) with
            hno | ⟨hmd, -⟩
          · rw [if_neg h1, if_neg h2, if_pos h3, List.drop_take, hno]
          · exact absurd hmd (by decide)
        · exact absurd h (fun hcc => Option.noConfusion hcc)
      · have h' := h
        rw [Option.some.injEq, Prod.mk.injEq] at h'
        have hcn : c = 'n' := by
          have h9 := litHere_getElem h4 0 (by simp)
          rw [hc0] at h9
          simp at h9
          exact h9
        refine Or.inl (val_litfail g (l.take m) c hctk
          (by rw [hcn]; decide) (by rw [hcn]; decide) (by rw [hcn]; decide)
          (by
            rw [litHere_take_short (show m < (['n', 'u', 'l', 'l'] :
              List Char).length by simp; omega)]
            exact Bool.false_ne_true)
          (litHere_not rfl hc0tk (by rw [hcn]; decide))
          (litHere_not rfl hc0tk (by rw [hcn]; decide))
          (parseNum_none_of_head hc0tk (by rw [hcn]; decide) (by rw [hcn]; decide))
          (litHere_not rfl hc0tk (by rw [hcn]; decide))
          (litHere_not rfl hc0tk (by rw [hcn]; decide))
          (litHere_not rfl hc0tk (by rw [hcn]; decide)))
      · have h' := h
        rw [Option.some.injEq, Prod.mk.injEq] at h'
        have hcn : c = 't' := by
          have h9 := litHere_getElem h5 0 (by simp)
          rw [hc0] at h9
          simp at h9
          exact h9
        refine Or.inl (val_litfail g (l.take m) c hctk
          (by rw [hcn]; decide) (by rw [hcn]; decide) (by rw [hcn]; decide)
          (litHere_not rfl hc0tk (by rw [hcn]; decide))
          (by
            rw [litHere_take_short (show m < (['t', 'r', 'u', 'e'] :
              List Char).length by simp; omega)]
            exact Bool.false_ne_true)
          (litHere_not rfl hc0tk (by rw [hcn]; decide))
          (parseNum_none_of_head hc0tk (by rw [hcn]; decide) (by rw [hcn]; decide))
          (litHere_not rfl hc0tk (by rw [hcn]; decide))
          (litHere_not rfl hc0tk (by rw [hcn]; decide))
          (litHere_not rfl hc0tk (by rw [hcn]; decide)))
      · have h' := h
        rw [Option.some.injEq, Prod.mk.injEq] at h'
        have hcn : c = 'f' := by
          have h9 := litHere_getElem h6 0 (by simp)
          rw [hc0] at h9
          simp at h9
          exact h9
        refine Or.inl (val_litfail g (l.take m) c hctk
          (by rw [hcn]; decide) (by rw [hcn]; decide) (by rw [hcn]; decide)
          (litHere_not rfl hc0tk (by rw [hcn]; decide))
          (litHere_not rfl hc0tk (by rw [hcn]; decide))
          (by
            rw [litHere_take_short (show m < (['f', 'a', 'l', 's', 'e'] :
              List Char).length by simp; omega)]
            exact Bool.false_ne_true)
          (parseNum_none_of_head hc0tk (by rw [hcn]; decide) (by rw [hcn]; decide))
          (litHere_not rfl hc0tk (by rw [hcn]; decide))
          (litHere_not rfl hc0tk (by rw [hcn]; decide))
          (litHere_not rfl hc0tk (by rw [hcn]; decide)))
      · split at h
        · rename_i lex0 np hnum
          have h' := h
          rw [Option.some.injEq, Prod.mk.injEq] at h'
          rw [← h'.1] at h0
          rcases val_num_pref (F + 1) (g + 1) l lex0 n m h0 hm with
            hno | ⟨lex2, n2, heq2, hside⟩
          · exact Or.inl hno
          · exact Or.inr ⟨rfl, ⟨lex0, h'.1.symm⟩, lex2, n2, heq2, hside⟩
        · have h' := h
          rw [Option.some.injEq, Prod.mk.injEq] at h'
          rw [← h'.1] at h0
          rcases val_num_pref (F + 1) (g + 1) l "NaN" n m h0 hm with
            hno | ⟨lex2, n2, heq2, hside⟩
          · exact Or.inl hno
          · exact Or.inr ⟨rfl, ⟨"NaN", h'.1.symm⟩, lex2, n2, heq2, hside⟩
      · split at h
        · rename_i lex0 np hnum
          have h' := h
          rw [Option.some.injEq, Prod.mk.injEq] at h'
          rw [← h'.1] at h0
          rcases val_num_pref (F + 1) (g + 1) l lex0 n m h0 hm with
            hno | ⟨lex2, n2, heq2, hside⟩
          · exact Or.inl hno
          · exact Or.inr ⟨rfl, ⟨lex0, h'.1.symm⟩, lex2, n2, heq2, hside⟩
        · have h' := h
          rw [Option.some.injEq, Prod.mk.injEq] at h'
          rw [← h'.1] at h0
          rcases val_num_pref (F + 1) (g + 1) l "Infinity" n m h0 hm with
            hno | ⟨lex2, n2, heq2, hside⟩
          · exact Or.inl hno
          · exact Or.inr ⟨rfl, ⟨"Infinity", h'.1.symm⟩, lex2, n2, heq2, hside⟩
      · split at h
        · rename_i lex0 np hnum
          have h' := h
          rw [Option.some.injEq, Prod.mk.injEq] at h'
          rw [← h'.1] at h0
          rcases val_num_pref (F + 1) (g + 1) l lex0 n m h0 hm with
            hno | ⟨lex2, n2, heq2, hside⟩
          · exact Or.inl hno
          · exact Or.inr ⟨rfl, ⟨lex0, h'.1.symm⟩, lex2, n2, heq2, hside⟩
        · have h' := h
          rw [Option.some.injEq, Prod.mk.injEq] at h'
          rw [← h'.1] at h0
          rcases val_num_pref (F + 1) (g + 1) l "-Infinity" n m h0 hm with
            hno | ⟨lex2, n2, heq2, hside⟩
          · exact Or.inl hno
          · exact Or.inr ⟨rfl, ⟨"-Infinity", h'.1.symm⟩, lex2, n2, heq2, hside⟩
      · split at h
        · rename_i lex0 np hnum
          have h' := h
          rw [Option.some.injEq, Prod.mk.injEq] at h'
          rw [← h'.1] at h0
          rcases val_num_pref (F + 1) (g + 1) l lex0 n m h0 hm with
            hno | ⟨lex2, n2, heq2, hside⟩
          · exact Or.inl hno
          · exact Or.inr ⟨rfl, ⟨lex0, h'.1.symm⟩, lex2, n2, heq2, hside⟩
        · exact absurd h (fun hcc => Option.noConfusion hcc)
    case arrFirst =>
      rcases hhd : (l.drop (wsCount l)).head? with _ | c
      · rw [arrFirst_go F l (head?_none_ne hhd ']')] at h
        split at h
        · rename_i v n1 hval
          exfalso
          have hb1 := parseStep_bounds F PMode.val _ v n1 hval
          have hdl : l.drop (wsCount l) = [] := List.head?_eq_none_iff.mp hhd
          rw [hdl] at hb1
          obtain ⟨x1, x2⟩ := hb1
          simp at x2
          omega
        · exact absurd h (fun hcc => Option.noConfusion hcc)
      have hlj := (head?_drop_some_lt hhd).2
      by_cases hcr : c = ']'
      · subst hcr
        rw [arrFirst_close F l hhd] at h
        have h' := h
        rw [Option.some.injEq, Prod.mk.injEq] at h'
        exact Or.inl (arrFirst_wspre (g + 1) l m (by omega))
      · rw [arrFirst_go F l (head?_some_ne hhd hcr)] at h
        split at h
        · rename_i v n1 hval
          split at h
          · rename_i vs n2 harr
            have h' := h
            rw [Option.some.injEq, Prod.mk.injEq] at h'
            have hb1 := parseStep_bounds F PMode.val _ v n1 hval
            have hb2 := parseStep_bounds F PMode.arrAfter _ (Jv.arr vs) n2 harr
            rw [List.length_drop] at hb1 hb2
            refine Or.inl ?_
            rcases le_or_lt m (wsCount l) with hmj | hmj
            · exact arrFirst_wspre (g + 1) l m hmj
            have hwsT : wsCount (l.take m) = wsCount l := by
              rw [wsCount_take]
              omega
            have hhT : ((l.take m).drop (wsCount (l.take m))).head? = some c := by
              rw [hwsT, List.head?_eq_getElem?, getElem?_drop_add, Nat.add_zero,
                List.getElem?_take, if_pos (by omega)]
              exact hlj
            rw [arrFirst_go g (l.take m) (head?_some_ne hhT hcr), hwsT, List.drop_take]
            have hstopc' : n1 < m - wsCount l → ∀ c0,
                (l.drop (wsCount l))[n1]? = some c0 → numCont c0 = false := by
              intro _ c0 hc0
              refine after_head_numCont F PMode.arrAfter (Or.inl rfl) _ _ _ harr c0 ?_
              rw [getElem?_drop_add, Nat.add_zero]
              rw [getElem?_drop_add] at hc0
              exact hc0
            rcases val_trunc_classify F g ih (l.drop (wsCount l)) v n1 (m - wsCount l)
              hval hstopc' with hno | ⟨hle, hsome⟩ | ⟨hlt, lex2, n2', hnum2, hside⟩
            · rw [hno]
            · rw [hsome]
              simp only []
              rw [List.drop_take]
              rcases ih g PMode.arrAfter (l.drop (wsCount l + n1)) (Jv.arr vs) n2
                (m - (wsCount l + n1)) harr (by omega) with hno2 | ⟨hmd, -⟩
              · rw [hno2]
              · exact absurd hmd (by decide)
            · rw [hnum2]
              simp only []
              rw [List.drop_take]
              rcases hside with hfull | ⟨hlt2, c2, hc2, hdots⟩
              · rw [show m - (wsCount l + n2') = 0 from by omega, List.take_zero,
                  parseStep_arrAfter_nil g]
              · have hc2' : l[wsCount l + n2']? = some c2 := by
                  rw [← getElem?_drop_add]
                  exact hc2
                have hbadhd : ((l.drop (wsCount l + n2')).take
                    (m - (wsCount l + n2'))).head? = some c2 := by
                  rw [List.head?_eq_getElem?, List.getElem?_take, if_pos (by omega),
                    getElem?_drop_add, Nat.add_zero]
                  exact hc2'
                rw [parseStep_arrAfter_bad g _ c2 hbadhd
                  (by rcases hdots with hh | hh | hh <;> rw [hh] <;> decide)
                  (by rcases hdots with hh | hh | hh <;> rw [hh] <;> decide)
                  (by rcases hdots with hh | hh | hh <;> rw [hh] <;> decide)]
          all_goals exact absurd h (fun hcc => Option.noConfusion hcc)
        · exact absurd h (fun hcc => Option.noConfusion hcc)
    case arrAfter =>
      rcases hhd : (l.drop (wsCount l)).head? with _ | c
      · rw [arrAfter_other F l (head?_none_ne hhd ']') (head?_none_ne hhd ',')] at h
        exact absurd h (fun hcc => Option.noConfusion hcc)
      have hlj := (head?_drop_some_lt hhd).2
      by_cases hcr : c = ']'
      · subst hcr
        rw [arrAfter_close F l hhd] at h
        have h' := h
        rw [Option.some.injEq, Prod.mk.injEq] at h'
        exact Or.inl (arrAfter_wspre (g + 1) l m (by omega))
      by_cases hcm : c = ','
      · subst hcm
        rw [arrAfter_comma F l hhd] at h
        split at h
        · rename_i v n1 hval
          split at h
          · rename_i vs n2 harr
            have h' := h
            rw [Option.some.injEq, Prod.mk.injEq] at h'
            have hb1 := parseStep_bounds F PMode.val _ v n1 hval
            have hb2 := parseStep_bounds F PMode.arrAfter _ (Jv.arr vs) n2 harr
            rw [List.length_drop] at hb1 hb2
            have hw2le := wsCount_le (l.drop (wsCount l + 1))
            rw [List.length_drop] at hw2le
            refine Or.inl ?_
            rcases le_or_lt m (wsCount l) with hmj | hmj
            · exact arrAfter_wspre (g + 1) l m hmj
            have hwsT : wsCount (l.take m) = wsCount l := by
              rw [wsCount_take]
              omega
            have hhT : ((l.take m).drop (wsCount (l.take m))).head? = some ',' := by
              rw [hwsT, List.head?_eq_getElem?, getElem?_drop_add, Nat.add_zero,
                List.getElem?_take, if_pos (by omega)]
              exact hlj
            rw [arrAfter_comma g (l.take m) hhT, hwsT]
            have hdws : (l.take m).drop (wsCount l + 1) =
                (l.drop (wsCount l + 1)).take (m - (wsCount l + 1)) := by
              rw [List.drop_take]
            rw [hdws, wsCount_take]
            rcases le_or_lt m
              (wsCount l + 1 + wsCount (l.drop (wsCount l + 1))) with hmj2 | hmj2
            · rw [show min (wsCount (l.drop (wsCount l + 1))) (m - (wsCount l + 1)) =
                  m - (wsCount l + 1) from by omega,
                show wsCount l + 1 + (m - (wsCount l + 1)) = m from by omega,
                htdm, parseStep_val_nil g]
            · rw [show min (wsCount (l.drop (wsCount l + 1))) (m - (wsCount l + 1)) =
                  wsCount (l.drop (wsCount l + 1)) from by omega,
                List.drop_take]
              have hstopc' : n1 <
                  m - (wsCount l + 1 + wsCount (l.drop (wsCount l + 1))) → ∀ c0,
                  (l.drop (wsCount l + 1 + wsCount (l.drop (wsCount l + 1))))[n1]? =
                    some c0 → numCont c0 = false := by
                intro _ c0 hc0
                refine after_head_numCont F PMode.arrAfter (Or.inl rfl) _ _ _ harr c0 ?_
                rw [getElem?_drop_add, Nat.add_zero]
                rw [getElem?_drop_add] at hc0
                exact hc0
              rcases val_trunc_classify F g ih
                (l.drop (wsCount l + 1 + wsCount (l.drop (wsCount l + 1)))) v n1
                (m - (wsCount l + 1 + wsCount (l.drop (wsCount l + 1)))) hval hstopc' with
                hno | ⟨hle, hsome⟩ | ⟨hlt, lex2, n2', hnum2, hside⟩
              · rw [hno]
              · rw [hsome]
                simp only []
                rw [List.drop_take]
                rcases ih g PMode.arrAfter
                  (l.drop (wsCount l + 1 + wsCount (l.drop (wsCount l + 1)) + n1))
                  (Jv.arr vs) n2
                  (m - (wsCount l + 1 + wsCount (l.drop (wsCount l + 1)) + n1)) harr
                  (by omega) with hno2 | ⟨hmd, -⟩
                · rw [hno2]
                · exact absurd hmd (by decide)
              · rw [hnum2]
                simp only []
                rw [List.drop_take]
                rcases hside with hfull | ⟨hlt2, c2, hc2, hdots⟩
                · rw [show m - (wsCount l + 1 + wsCount (l.drop (wsCount l + 1)) + n2') =
                      0 from by omega, List.take_zero, parseStep_arrAfter_nil g]
                · have hc2' : l[wsCount l + 1 + wsCount (l.drop (wsCount l + 1)) + n2']? =
                      some c2 := by
                    rw [← getElem?_drop_add]
                    exact hc2
                  have hbadhd : ((l.drop
                      (wsCount l + 1 + wsCount (l.drop (wsCount l + 1)) + n2')).take
                      (m - (wsCount l + 1 + wsCount (l.drop (wsCount l + 1)) + n2'))).head? =
                      some c2 := by
                    rw [List.head?_eq_getElem?, List.getElem?_take, if_pos (by omega),
                      getElem?_drop_add, Nat.add_zero]
                    exact hc2'
                  rw [parseStep_arrAfter_bad g _ c2 hbadhd
                    (by rcases hdots with hh | hh | hh <;> rw [hh] <;> decide)
                    (by rcases hdots with hh | hh | hh <;> rw [hh] <;> decide)
                    (by rcases hdots with hh | hh | hh <;> rw [hh] <;> decide)]
          all_goals exact absurd h (fun hcc => Option.noConfusion hcc)
        · exact absurd h (fun hcc => Option.noConfusion hcc)
      · rw [arrAfter_other F l (head?_some_ne hhd hcr) (head?_some_ne hhd hcm)] at h
        exact absurd h (fun hcc => Option.noConfusion hcc)
    case objFirst =>
      rcases hhd : (l.drop (wsCount l)).head? with _ | c
      · rw [objFirst_go F l (head?_none_ne hhd '}')] at h
        split at h
        · rename_i r0 n0 hrec
          exfalso
          have hb1 := parseStep_bounds F PMode.objPair _ r0 n0 hrec
          have hdl : l.drop (wsCount l) = [] := List.head?_eq_none_iff.mp hhd
          rw [hdl] at hb1
          obtain ⟨x1, x2⟩ := hb1
          simp at x2
          omega
        · exact absurd h (fun hcc => Option.noConfusion hcc)
      have hlj := (head?_drop_some_lt hhd).2
      by_cases hcr : c = '}'
      · subst hcr
        rw [objFirst_close F l hhd] at h
        have h' := h
        rw [Option.some.injEq, Prod.mk.injEq] at h'
        exact Or.inl (objFirst_wspre (g + 1) l m (by omega))
      · rw [objFirst_go F l (head?_some_ne hhd hcr)] at h
        split at h
        · rename_i r0 n0 hrec
          have h' := h
          rw [Option.some.injEq, Prod.mk.injEq] at h'
          have hb1 := parseStep_bounds F PMode.objPair _ r0 n0 hrec
          rw [List.length_drop] at hb1
          refine Or.inl ?_
          rcases le_or_lt m (wsCount l) with hmj | hmj
          · exact objFirst_wspre (g + 1) l m hmj
          have hwsT : wsCount (l.take m) = wsCount l := by
            rw [wsCount_take]
            omega
          have hhT : ((l.take m).drop (wsCount (l.take m))).head? = some c := by
            rw [hwsT, List.head?_eq_getElem?, getElem?_drop_add, Nat.add_zero,
              List.getElem?_take, if_pos (by omega)]
            exact hlj
          rw [objFirst_go g (l.take m) (head?_some_ne hhT hcr), hwsT, List.drop_take]
          rcases ih g PMode.objPair (l.drop (wsCount l)) r0 n0 (m - wsCount l) hrec
            (by omega) with hno | ⟨hmd, -⟩
          · rw [hno]
          · exact absurd hmd (by decide)
        · exact absurd h (fun hcc => Option.noConfusion hcc)
    case objAfter =>
      rcases hhd : (l.drop (wsCount l)).head? with _ | c
      · rw [objAfter_other F l (head?_none_ne hhd '}') (head?_none_ne hhd ',')] at h
        exact absurd h (fun hcc => Option.noConfusion hcc)
      have hlj := (head?_drop_some_lt hhd).2
      by_cases hcr : c = '}'
      · subst hcr
        rw [objAfter_close F l hhd] at h
        have h' := h
        rw [Option.some.injEq, Prod.mk.injEq] at h'
        exact Or.inl (objAfter_wspre (g + 1) l m (by omega))
      by_cases hcm : c = ','
      · subst hcm
        rw [objAfter_comma F l hhd] at h
        split at h
        · rename_i r0 n0 hrec
          have h' := h
          rw [Option.some.injEq, Prod.mk.injEq] at h'
          have hb1 := parseStep_bounds F PMode.objPair _ r0 n0 hrec
          rw [List.length_drop] at hb1
          have hw2le := wsCount_le (l.drop (wsCount l + 1))
          rw [List.length_drop] at hw2le
          refine Or.inl ?_
          rcases le_or_lt m (wsCount l) with hmj | hmj
          · exact objAfter_wspre (g + 1) l m hmj
          have hwsT : wsCount (l.take m) = wsCount l := by
            rw [wsCount_take]
            omega
          have hhT : ((l.take m).drop (wsCount (l.take m))).head? = some ',' := by
            rw [hwsT, List.head?_eq_getElem?, getElem?_drop_add, Nat.add_zero,
              List.getElem?_take, if_pos (by omega)]
            exact hlj
          rw [objAfter_comma g (l.take m) hhT, hwsT]
          have hdws : (l.take m).drop (wsCount l + 1) =
              (l.drop (wsCount l + 1)).take (m - (wsCount l + 1)) := by
            rw [List.drop_take]
          rw [hdws, wsCount_take]
          rcases le_or_lt m
            (wsCount l + 1 + wsCount (l.drop (wsCount l + 1))) with hmj2 | hmj2
          · rw [show min (wsCount (l.drop (wsCount l + 1))) (m - (wsCount l + 1)) =
                m - (wsCount l + 1) from by omega,
              show wsCount l + 1 + (m - (wsCount l + 1)) = m from by omega,
              htdm, parseStep_objPair_nil g]
          · rw [show min (wsCount (l.drop (wsCount l + 1))) (m - (wsCount l + 1)) =
                wsCount (l.drop (wsCount l + 1)) from by omega,
              List.drop_take]
            rcases ih g PMode.objPair
              (l.drop (wsCount l + 1 + wsCount (l.drop (wsCount l + 1)))) r0 n0
              (m - (wsCount l + 1 + wsCount (l.drop (wsCount l + 1)))) hrec
              (by omega) with hno | ⟨hmd, -⟩
            · rw [hno]
            · exact absurd hmd (by decide)
        · exact absurd h (fun hcc => Option.noConfusion hcc)
      · rw [objAfter_other F l (head?_some_ne hhd hcr) (head?_some_ne hhd hcm)] at h
        exact absurd h (fun hcc => Option.noConfusion hcc)
    case objPair =>
      rcases hhd : l.head? with _ | c
      · rw [objPair_noquote F l (head?_none_ne hhd '"')] at h
        exact absurd h (fun hcc => Option.noConfusion hcc)
      by_cases hcq : c = '"'
      swap
      · rw [objPair_noquote F l (head?_some_ne hhd hcq)] at h
        exact absurd h (fun hcc => Option.noConfusion hcc)
      subst hcq
      rcases hscan : scanString (l.drop 1) [] with _ | ⟨key, nK⟩
      · rw [objPair_noscan F l hhd hscan] at h
        exact absurd h (fun hcc => Option.noConfusion hcc)
      rcases hcol : (l.drop (1 + nK + wsCount (l.drop (1 + nK)))).head? with _ | d
      · rw [objPair_nocolon F l key nK hhd hscan (head?_none_ne hcol ':')] at h
        exact absurd h (fun hcc => Option.noConfusion hcc)
      by_cases hd : d = ':'
      swap
      · rw [objPair_nocolon F l key nK hhd hscan (head?_some_ne hcol hd)] at h
        exact absurd h (fun hcc => Option.noConfusion hcc)
      subst hd
      rw [objPair_step F l key nK hhd hscan hcol] at h
      split at h
      · rename_i v nV hval
        split at h
        · rename_i ps n2 hobj
          have h' := h
          rw [Option.some.injEq, Prod.mk.injEq] at h'
          have hb1 := parseStep_bounds F PMode.val _ v nV hval
          have hb2 := parseStep_bounds F PMode.objAfter _ (Jv.obj ps) n2 hobj
          rw [List.length_drop] at hb1 hb2
          have hbK := scanString_bounds (l.drop 1).length (l.drop 1) [] key nK
            le_rfl hscan
          rw [List.length_drop] at hbK
          have hw1le := wsCount_le (l.drop (1 + nK))
          rw [List.length_drop] at hw1le
          have hw2le := wsCount_le (l.drop (1 + nK + wsCount (l.drop (1 + nK)) + 1))
          rw [List.length_drop] at hw2le
          have hljc := (head?_drop_some_lt hcol).2
          refine Or.inl ?_
          have hqT : (l.take m).head? = some '"' := take_head? hhd hm0
          have hdT1 : (l.take m).drop 1 = (l.drop 1).take (m - 1) := by
            rw [List.drop_take]
          rcases le_or_lt m nK with hmk | hmk
          · have hsT : scanString ((l.take m).drop 1) [] = none := by
              rw [hdT1]
              exact scanString_pref (l.drop 1).length (l.drop 1) [] key nK (m - 1)
                le_rfl hscan (by omega)
            exact objPair_noscan g (l.take m) hqT hsT
          have hsT : scanString ((l.take m).drop 1) [] = some (key, nK) := by
            rw [hdT1]
            exact scanString_agree (l.drop 1).length (l.drop 1)
              ((l.drop 1).take (m - 1)) [] key nK le_rfl hscan (fun i hi => by
                rw [List.getElem?_take, if_pos (by omega)])
          have hdT2 : (l.take m).drop (1 + nK) =
              (l.drop (1 + nK)).take (m - (1 + nK)) := by
            rw [List.drop_take]
          rcases le_or_lt m (1 + nK + wsCount (l.drop (1 + nK))) with hmj1 | hmj1
          · refine objPair_nocolon g (l.take m) key nK hqT hsT (head?_none_ne ?_ ':')
            rw [hdT2, wsCount_take,
              show min (wsCount (l.drop (1 + nK))) (m - (1 + nK)) = m - (1 + nK)
                from by omega,
              show 1 + nK + (m - (1 + nK)) = m from by omega, htdm]
            rfl
          have hwT1 : wsCount ((l.take m).drop (1 + nK)) = wsCount (l.drop (1 + nK)) := by
            rw [hdT2, wsCount_take]
            omega
          have hcolT : ((l.take m).drop
              (1 + nK + wsCount ((l.take m).drop (1 + nK)))).head? = some ':' := by
            rw [hwT1, List.head?_eq_getElem?, getElem?_drop_add, Nat.add_zero,
              List.getElem?_take, if_pos (by omega)]
            exact hljc
          rw [objPair_step g (l.take m) key nK hqT hsT hcolT, hwT1]
          have hdT3 : (l.take m).drop (1 + nK + wsCount (l.drop (1 + nK)) + 1) =
              (l.drop (1 + nK + wsCount (l.drop (1 + nK)) + 1)).take
                (m - (1 + nK + wsCount (l.drop (1 + nK)) + 1)) := by
            rw [List.drop_take]
          rw [hdT3, wsCount_take]
          rcases le_or_lt m (1 + nK + wsCount (l.drop (1 + nK)) + 1 +
            wsCount (l.drop (1 + nK + wsCount (l.drop (1 + nK)) + 1))) with hmj2 | hmj2
          · rw [show min (wsCount (l.drop (1 + nK + wsCount (l.drop (1 + nK)) + 1)))
                  (m - (1 + nK + wsCount (l.drop (1 + nK)) + 1)) =
                m - (1 + nK + wsCount (l.drop (1 + nK)) + 1) from by omega,
              show 1 + nK + wsCount (l.drop (1 + nK)) + 1 +
                  (m - (1 + nK + wsCount (l.drop (1 + nK)) + 1)) = m from by omega,
              htdm, parseStep_val_nil g]
          · rw [show min (wsCount (l.drop (1 + nK + wsCount (l.drop (1 + nK)) + 1)))
                  (m - (1 + nK + wsCount (l.drop (1 + nK)) + 1)) =
                wsCount (l.drop (1 + nK + wsCount (l.drop (1 + nK)) + 1)) from by omega,
              List.drop_take]
            have hstopc' : nV < m - (1 + nK + wsCount (l.drop (1 + nK)) + 1 +
                wsCount (l.drop (1 + nK + wsCount (l.drop (1 + nK)) + 1))) → ∀ c0,
                (l.drop (1 + nK + wsCount (l.drop (1 + nK)) + 1 +
                  wsCount (l.drop (1 + nK + wsCount (l.drop (1 + nK)) + 1))))[nV]? =
                  some c0 → numCont c0 = false := by
              intro _ c0 hc0
              refine after_head_numCont F PMode.objAfter (Or.inr rfl) _ _ _ hobj c0 ?_
              rw [getElem?_drop_add, Nat.add_zero]
              rw [getElem?_drop_add] at hc0
              exact hc0
            rcases val_trunc_classify F g ih
              (l.drop (1 + nK + wsCount (l.drop (1 + nK)) + 1 +
                wsCount (l.drop (1 + nK + wsCount (l.drop (1 + nK)) + 1)))) v nV
              (m - (1 + nK + wsCount (l.drop (1 + nK)) + 1 +
                wsCount (l.drop (1 + nK + wsCount (l.drop (1 + nK)) + 1)))) hval
              hstopc' with hno | ⟨hle, hsome⟩ | ⟨hlt, lex2, n2', hnum2, hside⟩
            · rw [hno]
            · rw [hsome]
              simp only []
              rw [List.drop_take]
              rcases ih g PMode.objAfter
                (l.drop (1 + nK + wsCount (l.drop (1 + nK)) + 1 +
                  wsCount (l.drop (1 + nK + wsCount (l.drop (1 + nK)) + 1)) + nV))
                (Jv.obj ps) n2
                (m - (1 + nK + wsCount (l.drop (1 + nK)) + 1 +
                  wsCount (l.drop (1 + nK + wsCount (l.drop (1 + nK)) + 1)) + nV)) hobj
                (by omega) with hno2 | ⟨hmd, -⟩
              · rw [hno2]
              · exact absurd hmd (by decide)
            · rw [hnum2]
              simp only []
              rw [List.drop_take]
              rcases hside with hfull | ⟨hlt2, c2, hc2, hdots⟩
              · rw [show m - (1 + nK + wsCount (l.drop (1 + nK)) + 1 +
                    wsCount (l.drop (1 + nK + wsCount (l.drop (1 + nK)) + 1)) + n2') = 0
                    from by omega, List.take_zero, parseStep_objAfter_nil g]
              · have hc2' : l[1 + nK + wsCount (l.drop (1 + nK)) + 1 +
                    wsCount (l.drop (1 + nK + wsCount (l.drop (1 + nK)) + 1)) + n2']? =
                    some c2 := by
                  rw [← getElem?_drop_add]
                  exact hc2
                have hbadhd : ((l.drop (1 + nK + wsCount (l.drop (1 + nK)) + 1 +
                    wsCount (l.drop (1 + nK + wsCount (l.drop (1 + nK)) + 1)) + n2')).take
                    (m - (1 + nK + wsCount (l.drop (1 + nK)) + 1 +
                      wsCount (l.drop (1 + nK + wsCount (l.drop (1 + nK)) + 1)) +
                      n2'))).head? = some c2 := by
                  rw [List.head?_eq_getElem?, List.getElem?_take, if_pos (by omega),
                    getElem?_drop_add, Nat.add_zero]
                  exact hc2'
                rw [parseStep_objAfter_bad g _ c2 hbadhd
                  (by rcases hdots with hh | hh | hh <;> rw [hh] <;> decide)
                  (by rcases hdots with hh | hh | hh <;> rw [hh] <;> decide)
                  (by rcases hdots with hh | hh | hh <;> rw [hh] <;> decide)]
        all_goals exact absurd h (fun hcc => Option.noConfusion hcc)
      · exact absurd h (fun hcc => Option.noConfusion hcc)

/-! ## Character-class lemmas for the streaming loop -/

theorem digit_not_pyWs {c : Char} (hd : c.isDigit = true) : pyWsB c = false := by
  simp only [Char.isDigit, Bool.and_eq_true, decide_eq_true_eq] at hd
  obtain ⟨h1, h2⟩ := hd
  rw [ge_iff_le, UInt32.le_def, BitVec.le_def] at h1
  rw [UInt32.le_def, BitVec.le_def] at h2
  have h1' : (48 : UInt32).toNat ≤ c.val.toNat := h1
  have h2' : c.val.toNat ≤ (57 : UInt32).toNat := h2
  rw [show (48 : UInt32).toNat = 48 from rfl] at h1'
  rw [show (57 : UInt32).toNat = 57 from rfl] at h2'
  simp [pyWsB, Char.toNat]
  omega

theorem digit_toNat {c : Char} (hd : c.isDigit = true) :
    48 ≤ c.toNat ∧ c.toNat ≤ 57 := by
  simp only [Char.isDigit, Bool.and_eq_true, decide_eq_true_eq] at hd
  obtain ⟨h1, h2⟩ := hd
  rw [ge_iff_le, UInt32.le_def, BitVec.le_def] at h1
  rw [UInt32.le_def, BitVec.le_def] at h2
  have h1' : (48 : UInt32).toNat ≤ c.val.toNat := h1
  have h2' : c.val.toNat ≤ (57 : UInt32).toNat := h2
  exact ⟨h1', h2'⟩

theorem pyWs_not_numCont {c : Char} (hw : pyWsB c = true) : numCont c = false := by
  simp only [pyWsB, Bool.or_eq_true, Bool.and_eq_true, decide_eq_true_eq] at hw
  by_contra hcon
  rw [Bool.not_eq_false] at hcon
  simp only [numCont, Bool.or_eq_true, decide_eq_true_eq] at hcon
  have hn : 48 ≤ c.toNat ∧ c.toNat ≤ 57 ∨ c.toNat = 46 ∨ c.toNat = 101 ∨
      c.toNat = 69 := by
    rcases hcon with ((hd | he) | he) | he
    · exact Or.inl (digit_toNat hd)
    · rw [he]; right; left; rfl
    · rw [he]; right; right; left; rfl
    · rw [he]; right; right; right; rfl
  revert hw
  omega

theorem canStartValue_not_ws {c : Char} (h : canStartValue c = true) :
    pyWsB c = false ∧ c ≠ ']' ∧ c ≠ ',' := by
  simp only [canStartValue, Bool.or_eq_true, decide_eq_true_eq] at h
  rcases h with ((((((((h | h) | h) | h) | h) | h) | h) | h) | h) | h
  all_goals first
  | (subst h; exact ⟨by decide, by decide, by decide⟩)
  | exact ⟨digit_not_pyWs h, digit_ne h ']' (by decide), digit_ne h ',' (by decide)⟩

theorem jsonWs_pyWs {c : Char} (h : jsonWsB c = true) : pyWsB c = true := by
  simp only [jsonWsB, Bool.or_eq_true, decide_eq_true_eq] at h
  rcases h with ((h | h) | h) | h <;> subst h <;> decide

/-! ## `lstrip` lemmas -/

theorem pyLstrip_cons_ws {c : Char} (t : List Char) (h : pyWsB c = true) :
    pyLstrip (c :: t) = pyLstrip t := by
  simp [pyLstrip, List.dropWhile, h]

theorem pyLstrip_cons_nws {c : Char} (t : List Char) (h : pyWsB c = false) :
    pyLstrip (c :: t) = c :: t := by
  simp [pyLstrip, List.dropWhile, h]

theorem pyLstrip_eq_self_of_head {l : List Char} {c : Char} (hc : l.head? = some c)
    (h : pyWsB c = false) : pyLstrip l = l := by
  cases l with
  | nil => exact absurd hc (by simp)
  | cons x t =>
    rw [List.head?_cons, Option.some.injEq] at hc
    subst hc
    exact pyLstrip_cons_nws t h

theorem pyLstrip_head_not_ws {l : List Char} {c : Char}
    (hc : (pyLstrip l).head? = some c) : pyWsB c = false := by
  induction l with
  | nil => exact absurd hc (by simp [pyLstrip])
  | cons x t ih =>
    by_cases hx : pyWsB x = true
    · rw [pyLstrip_cons_ws t hx] at hc
      exact ih hc
    · rw [Bool.not_eq_true] at hx
      rw [pyLstrip_cons_nws t hx, List.head?_cons, Option.some.injEq] at hc
      subst hc
      exact hx

theorem pyLstrip_append_nil {a : List Char} (b : List Char)
    (h : pyLstrip a = []) : pyLstrip (a ++ b) = pyLstrip b := by
  induction a with
  | nil => simp
  | cons x t ih =>
    by_cases hx : pyWsB x = true
    · rw [pyLstrip_cons_ws t hx] at h
      rw [List.cons_append, pyLstrip_cons_ws _ hx]
      exact ih h
    · rw [Bool.not_eq_true] at hx
      rw [pyLstrip_cons_nws t hx] at h
      exact absurd h (by simp)

theorem pyLstrip_append_cons {a : List Char} (b : List Char) {c : Char} {t : List Char}
    (h : pyLstrip a = c :: t) : pyLstrip (a ++ b) = c :: (t ++ b) := by
  induction a with
  | nil => exact absurd h (by simp [pyLstrip])
  | cons x u ih =>
    by_cases hx : pyWsB x = true
    · rw [pyLstrip_cons_ws u hx] at h
      rw [List.cons_append, pyLstrip_cons_ws _ hx]
      exact ih h
    · rw [Bool.not_eq_true] at hx
      rw [pyLstrip_cons_nws u hx, List.cons_eq_cons] at h
      obtain ⟨h1, h2⟩ := h
      subst h1
      subst h2
      rw [List.cons_append, pyLstrip_cons_nws _ hx]

theorem pyLstrip_all_ws {l : List Char} (h : pyLstrip l = []) :
    ∀ x ∈ l, pyWsB x = true := by
  intro x hx
  exact List.dropWhile_eq_nil_iff.mp h x hx

/-! ## One-step reduction lemmas for the streaming loop -/

theorem streamRun_close (f : Nat) (buf : List Char) (chunks : List (List Char))
    (h : (pyLstrip buf).head? = some ']') :
    streamRun (f + 1) buf chunks = ([], Outcome.closed) := by
  simp only [streamRun]
  rw [h]
  simp only []
  exact if_pos trivial

theorem streamRun_comma (f : Nat) (buf : List Char) (chunks : List (List Char))
    (h : (pyLstrip buf).head? = some ',') :
    streamRun (f + 1) buf chunks = streamRun f ((pyLstrip buf).drop 1) chunks := by
  simp only [streamRun]
  rw [h]
  simp only []
  rw [if_neg (show ¬(',' = ']') by decide)]
  exact if_pos trivial

theorem streamRun_yield (f : Nat) (buf : List Char) (chunks : List (List Char))
    (c : Char) (v : Jv) (n : Nat) (h : (pyLstrip buf).head? = some c)
    (h1 : c ≠ ']') (h2 : c ≠ ',')
    (hdec : rawDecodeL (pyLstrip buf) = some (v, n)) :
    streamRun (f + 1) buf chunks =
      (v :: (streamRun f ((pyLstrip buf).drop n) chunks).1,
       (streamRun f ((pyLstrip buf).drop n) chunks).2) := by
  simp only [streamRun]
  rw [h]
  simp only []
  rw [if_neg h1, if_neg h2, hdec]

theorem streamRun_nil_nil (f : Nat) (buf : List Char)
    (h : (pyLstrip buf).head? = none) :
    streamRun (f + 1) buf [] = ([], Outcome.exhausted) := by
  simp only [streamRun]
  rw [h]

theorem streamRun_nil_cons_empty (f : Nat) (buf : List Char) (c : List Char)
    (cs : List (List Char)) (h : (pyLstrip buf).head? = none)
    (hc : c.isEmpty = true) :
    streamRun (f + 1) buf (c :: cs) = ([], Outcome.exhausted) := by
  simp only [streamRun]
  rw [h]
  simp only []
  rw [if_pos hc]

theorem streamRun_nil_cons_go (f : Nat) (buf : List Char) (c : List Char)
    (cs : List (List Char)) (h : (pyLstrip buf).head? = none)
    (hc : c.isEmpty = false) :
    streamRun (f + 1) buf (c :: cs) = streamRun f c cs := by
  simp only [streamRun]
  rw [h]
  simp only []
  rw [if_neg (show ¬(c.isEmpty = true) by rw [hc]; exact Bool.false_ne_true)]

theorem streamRun_fail_nil (f : Nat) (buf : List Char) (c : Char)
    (h : (pyLstrip buf).head? = some c) (h1 : c ≠ ']') (h2 : c ≠ ',')
    (hdec : rawDecodeL (pyLstrip buf) = none) :
    streamRun (f + 1) buf [] = ([], Outcome.exhausted) := by
  simp only [streamRun]
  rw [h]
  simp only []
  rw [if_neg h1, if_neg h2, hdec]

theorem streamRun_fail_cons_empty (f : Nat) (buf : List Char) (c : Char)
    (ck : List Char) (cs : List (List Char))
    (h : (pyLstrip buf).head? = some c) (h1 : c ≠ ']') (h2 : c ≠ ',')
    (hdec : rawDecodeL (pyLstrip buf) = none) (hck : ck.isEmpty = true) :
    streamRun (f + 1) buf (ck :: cs) = ([], Outcome.exhausted) := by
  simp only [streamRun]
  rw [h]
  simp only []
  rw [if_neg h1, if_neg h2, hdec]
  simp only []
  rw [if_pos hck]

theorem streamRun_fail_cons_go (f : Nat) (buf : List Char) (c : Char)
    (ck : List Char) (cs : List (List Char))
    (h : (pyLstrip buf).head? = some c) (h1 : c ≠ ']') (h2 : c ≠ ',')
    (hdec : rawDecodeL (pyLstrip buf) = none) (hck : ck.isEmpty = false) :
    streamRun (f + 1) buf (ck :: cs) = streamRun f (pyLstrip buf ++ ck) cs := by
  simp only [streamRun]
  rw [h]
  simp only []
  rw [if_neg h1, if_neg h2, hdec]
  simp only []
  rw [if_neg (show ¬(ck.isEmpty = true) by rw [hck]; exact Bool.false_ne_true)]

/-! ## Lemmas about the liberal tail grammar -/

theorem LTail_ws_peel : ∀ (w t : List Char) (vs : List Jv),
    (∀ x ∈ w, pyWsB x = true) → LTail (w ++ t) vs → LTail t vs := by
  intro w
  induction w with
  | nil =>
    intro t vs _ h
    simpa using h
  | cons x w' ihw =>
    intro t vs hws h
    have hx : pyWsB x = true := hws x (by simp)
    rw [List.cons_append] at h
    cases h with
    | close t2 => exact absurd hx (by decide)
    | ws c t2 vs2 hc hlt =>
      exact ihw t vs (fun y hy => hws y (by simp [hy])) hlt
    | comma t2 vs2 hlt => exact absurd hx (by decide)
    | elem T v n vs2 hdec hlt =>
      obtain ⟨c, hc, hcs⟩ := parseStep_val_head _ _ _ _ hdec
      rw [List.head?_cons, Option.some.injEq] at hc
      subst hc
      rw [(canStartValue_not_ws hcs).1] at hx
      exact Bool.noConfusion hx

theorem LTail_ws_pre : ∀ (w t : List Char) (vs : List Jv),
    (∀ x ∈ w, pyWsB x = true) → LTail t vs → LTail (w ++ t) vs := by
  intro w
  induction w with
  | nil =>
    intro t vs _ h
    simpa using h
  | cons x w' ihw =>
    intro t vs hws h
    rw [List.cons_append]
    exact LTail.ws x (w' ++ t) vs (hws x (by simp))
      (ihw t vs (fun y hy => hws y (by simp [hy])) h)

theorem LTail_nonempty {t : List Char} {vs : List Jv} (h : LTail t vs) : t ≠ [] := by
  cases h with
  | close t2 => exact List.cons_ne_nil _ _
  | ws c t2 vs2 hc hlt => exact List.cons_ne_nil _ _
  | comma t2 vs2 hlt => exact List.cons_ne_nil _ _
  | elem T v n vs2 hdec hlt =>
    obtain ⟨c, hc, hcs⟩ := parseStep_val_head _ _ _ _ hdec
    intro he
    rw [he] at hc
    simp at hc

/-! ## The streaming loop on a single in-buffer read -/

theorem chunksOfAux_flatten (k : Nat) (hk : 0 < k) : ∀ (f : Nat) (l : List Char),
    l.length ≤ f → (chunksOfAux k f l).flatten = l := by
  intro f
  induction f with
  | zero =>
    intro l hl
    cases l with
    | nil => rfl
    | cons c rest => simp at hl
  | succ f ihf =>
    intro l hl
    cases l with
    | nil => rfl
    | cons c rest =>
      simp only [chunksOfAux, List.flatten_cons]
      rw [ihf ((c :: rest).drop k) (by rw [List.length_drop]; simp at hl ⊢; omega)]
      exact List.take_append_drop k (c :: rest)

theorem chunksOf_flatten (k : Nat) (l : List Char) (hk : 0 < k) :
    (chunksOf k l).flatten = l :=
  chunksOfAux_flatten k hk l.length l le_rfl

theorem streamRun_badchar (fuel : Nat) : ∀ (buf : List Char)
    (chunks : List (List Char)) (c : Char),
    (pyLstrip (buf ++ chunks.flatten)).head? = some c →
    canStartValue c = false → c ≠ ']' → c ≠ ',' →
    streamRun fuel buf chunks = ([], Outcome.exhausted) := by
  induction fuel with
  | zero => intro buf chunks c _ _ _ _; rfl
  | succ f ih =>
    intro buf chunks c hc hbad h1 h2
    rcases hb : (pyLstrip buf).head? with _ | ch
    · have hbnil : pyLstrip buf = [] := List.head?_eq_none_iff.mp hb
      cases chunks with
      | nil =>
        rw [List.flatten_nil, List.append_nil, hb] at hc
        exact Option.noConfusion hc
      | cons c0 cs =>
        rcases hce : c0.isEmpty with _ | _
        · rw [streamRun_nil_cons_go f buf c0 cs hb hce]
          refine ih c0 cs c ?_ hbad h1 h2
          rw [List.flatten_cons, pyLstrip_append_nil _ hbnil] at hc
          exact hc
        · exact streamRun_nil_cons_empty f buf c0 cs hb hce
    · obtain ⟨bt, hbdec⟩ : ∃ bt, pyLstrip buf = ch :: bt := by
        cases hx : pyLstrip buf with
        | nil => rw [hx] at hb; exact absurd hb (by simp)
        | cons a b =>
          rw [hx, List.head?_cons, Option.some.injEq] at hb
          exact ⟨b, by rw [hb]⟩
      have hch : ch = c := by
        rw [pyLstrip_append_cons _ hbdec, List.head?_cons, Option.some.injEq] at hc
        exact hc
      subst hch
      have hdec : rawDecodeL (pyLstrip buf) = none := by
        rw [hbdec]
        exact parseStep_val_badhead _ _ ch (by rw [List.head?_cons]) hbad
      cases chunks with
      | nil => exact streamRun_fail_nil f buf ch (by rw [hbdec, List.head?_cons]) h1 h2 hdec
      | cons c0 cs =>
        rcases hce : c0.isEmpty with _ | _
        · rw [streamRun_fail_cons_go f buf ch c0 cs (by rw [hbdec, List.head?_cons])
            h1 h2 hdec hce]
          refine ih (pyLstrip buf ++ c0) cs ch ?_ hbad h1 h2
          have hself : pyLstrip (pyLstrip buf ++ c0 ++ cs.flatten) =
              pyLstrip buf ++ c0 ++ cs.flatten := by
            refine pyLstrip_eq_self_of_head ?_ (pyLstrip_head_not_ws
              (l := buf) (by rw [hbdec, List.head?_cons]))
            rw [hbdec, List.cons_append, List.cons_append, List.head?_cons]
          rw [hself, hbdec, List.cons_append, List.cons_append, List.head?_cons]
        · exact streamRun_fail_cons_empty f buf ch c0 cs
            (by rw [hbdec, List.head?_cons]) h1 h2 hdec hce

/-- C1 counterexample: on the structurally invalid array text `[@]` — whose
buffered tail `@]` is not a prefix of any JSON value — `iter_json_array`
terminates silently with the same outcome as ordinary end of input, yields no
value, and propagates nothing to the caller: the `except json.JSONDecodeError`
handler swallows every decode failure and the subsequent empty read just ends
the generator. -/
theorem invalid_input_counterexample :
    iter_json_array ("[@]".toList) = ([], Outcome.exhausted) := by
  rfl

/-- C1 (amended): a decode failure is never distinguished from buffer
exhaustion: whenever the text after the opening bracket begins (after
whitespace) with a character that cannot start a JSON value and is neither `]`
nor `,` — so no amount of further input could make the buffer decodable — 
`iter_json_array` yields nothing and terminates silently with the
end-of-input outcome instead of raising a fatal parse error. -/
theorem invalid_input_silent (l rest : List Char) (c : Char)
    (hf : findStart l = some rest)
    (hc : (pyLstrip rest).head? = some c)
    (hbad : canStartValue c = false) (h1 : c ≠ ']') (h2 : c ≠ ',') :
    iter_json_array l = ([], Outcome.exhausted) := by
  show (match findStart l with
    | none => ([], Outcome.exhausted)
    | some rest => streamChunks (chunksOf READ_SIZE rest)) = _
  rw [hf]
  simp only []
  refine streamRun_badchar _ [] (chunksOf READ_SIZE rest) c ?_ hbad h1 h2
  rw [List.nil_append, chunksOf_flatten READ_SIZE rest (by decide)]
  exact hc

theorem invalid_input_silent_witness :
    iter_json_array ("zz[ @]".toList) = ([], Outcome.exhausted) :=
  invalid_input_silent ("zz[ @]".toList) (" @]".toList) '@' rfl rfl (by decide)
    (by decide) (by decide)

/-! ## Streaming a chunked array: auxiliary head classification -/

theorem parseStep_val_nonnum_head (f : Nat) (l : List Char) (r : Jv) (n : Nat)
    (h : parseStep f PMode.val l = some (r, n)) (hnn : r.isNum = false) :
    ∃ c, l.head? = some c ∧
      (c = '"' ∨ c = '{' ∨ c = '[' ∨ c = 'n' ∨ c = 't' ∨ c = 'f') := by
  rcases f with _ | f
  · exact absurd h (fun hc => Option.noConfusion hc)
  simp only [parseStep] at h
  split at h
  · exact absurd h (fun hc => Option.noConfusion hc)
  · rename_i c hc
    refine ⟨c, hc, ?_⟩
    have hc0 : l[0]? = some c := by
      rw [← List.head?_eq_getElem?]
      exact hc
    split_ifs at h with h1 h2 h3 h4 h5 h6 g1 g2 g3
    · exact Or.inl h1
    · exact Or.inr (Or.inl h2)
    · exact Or.inr (Or.inr (Or.inl h3))
    · have h9 := litHere_getElem h4 0 (by simp)
      rw [hc0] at h9
      simp at h9
      exact Or.inr (Or.inr (Or.inr (Or.inl h9)))
    · have h9 := litHere_getElem h5 0 (by simp)
      rw [hc0] at h9
      simp at h9
      exact Or.inr (Or.inr (Or.inr (Or.inr (Or.inl h9))))
    · have h9 := litHere_getElem h6 0 (by simp)
      rw [hc0] at h9
      simp at h9
      exact Or.inr (Or.inr (Or.inr (Or.inr (Or.inr h9))))
    · exfalso
      split at h
      · rw [Option.some.injEq, Prod.mk.injEq] at h
        rw [← h.1] at hnn
        simp [Jv.isNum] at hnn
      · rw [Option.some.injEq, Prod.mk.injEq] at h
        rw [← h.1] at hnn
        simp [Jv.isNum] at hnn
    · exfalso
      split at h
      · rw [Option.some.injEq, Prod.mk.injEq] at h
        rw [← h.1] at hnn
        simp [Jv.isNum] at hnn
      · rw [Option.some.injEq, Prod.mk.injEq] at h
        rw [← h.1] at hnn
        simp [Jv.isNum] at hnn
    · exfalso
      split at h
      · rw [Option.some.injEq, Prod.mk.injEq] at h
        rw [← h.1] at hnn
        simp [Jv.isNum] at hnn
      · rw [Option.some.injEq, Prod.mk.injEq] at h
        rw [← h.1] at hnn
        simp [Jv.isNum] at hnn
    · exfalso
      split at h
      · rw [Option.some.injEq, Prod.mk.injEq] at h
        rw [← h.1] at hnn
        simp [Jv.isNum] at hnn
      · exact Option.noConfusion h

/-- The streaming loop on an arbitrary chunked delivery of an array tail whose
values are all non-numeric: it yields exactly the tail's values and closes. -/
theorem streamRun_multi (fuel : Nat) : ∀ (buf : List Char) (chunks : List (List Char))
    (vs : List Jv),
    LTail (buf ++ chunks.flatten) vs →
    (∀ ck ∈ chunks, ck ≠ []) →
    (∀ v ∈ vs, v.isNum = false) →
    2 * (buf ++ chunks.flatten).length + 2 * chunks.length + 1 ≤ fuel →
    streamRun fuel buf chunks = (vs, Outcome.closed) := by
  induction fuel with
  | zero =>
    intro buf chunks vs _ _ _ hf
    omega
  | succ f ih =>
    intro buf chunks vs hder hne hnn hf
    have hwsall : ∀ x ∈ buf.takeWhile pyWsB, pyWsB x = true :=
      fun x hx => List.mem_takeWhile_imp hx
    have hder2 : LTail (pyLstrip buf ++ chunks.flatten) vs := by
      refine LTail_ws_peel (buf.takeWhile pyWsB) _ vs hwsall ?_
      rw [← List.append_assoc]
      rw [show buf.takeWhile pyWsB ++ pyLstrip buf = buf from
        List.takeWhile_append_dropWhile pyWsB buf]
      exact hder
    have hblen : (pyLstrip buf).length ≤ buf.length :=
      (buf.dropWhile_sublist pyWsB).length_le
    rcases hb : (pyLstrip buf).head? with _ | ch
    · have hbnil : pyLstrip buf = [] := List.head?_eq_none_iff.mp hb
      rw [hbnil, List.nil_append] at hder2
      cases chunks with
      | nil =>
        exfalso
        rw [List.flatten_nil] at hder2
        exact LTail_nonempty hder2 rfl
      | cons c0 cs =>
        have hc0ne : c0 ≠ [] := hne c0 (by simp)
        have hc0e : c0.isEmpty = false := by
          cases c0 with
          | nil => exact absurd rfl hc0ne
          | cons a b => rfl
        rw [streamRun_nil_cons_go f buf c0 cs hb hc0e]
        refine ih c0 cs vs ?_ (fun ck hck => hne ck (by simp [hck])) hnn ?_
        · rw [List.flatten_cons] at hder2
          exact hder2
        · simp only [List.length_append, List.flatten_cons, List.length_cons] at hf ⊢
          omega
    · obtain ⟨bt, hbdec⟩ : ∃ bt, pyLstrip buf = ch :: bt := by
        cases hx : pyLstrip buf with
        | nil => rw [hx] at hb; exact absurd hb (by simp)
        | cons a b =>
          rw [hx, List.head?_cons, Option.some.injEq] at hb
          exact ⟨b, by rw [hb]⟩
      have hbtlen : bt.length + 1 ≤ buf.length := by
        rw [hbdec] at hblen
        simpa using hblen
      rw [hbdec, List.cons_append] at hder2
      cases hder2 with
      | close t2 => exact streamRun_close f buf chunks (by rw [hbdec]; rfl)
      | ws c2 t2 vs2 hw hlt =>
        exact absurd hw (by
          rw [pyLstrip_head_not_ws (l := buf) (by rw [hbdec]; rfl)]
          exact Bool.false_ne_true)
      | comma t2 vs2 hlt =>
        rw [streamRun_comma f buf chunks (by rw [hbdec]; rfl), hbdec]
        simp only [List.drop_succ_cons, List.drop_zero]
        refine ih bt chunks vs hlt hne hnn ?_
        simp only [List.length_append] at hf ⊢
        omega
      | elem T v n vs2 hdec hlt =>
        have hvnn : v.isNum = false := hnn v (by simp)
        obtain ⟨c2, hc2, hor⟩ := parseStep_val_nonnum_head _ _ _ _ hdec hvnn
        rw [List.head?_cons, Option.some.injEq] at hc2
        subst hc2
        have hne1 : ch ≠ ']' := by
          rcases hor with h9 | h9 | h9 | h9 | h9 | h9 <;> rw [h9] <;> decide
        have hne2 : ch ≠ ',' := by
          rcases hor with h9 | h9 | h9 | h9 | h9 | h9 <;> rw [h9] <;> decide
        have hb2 := parseStep_bounds _ PMode.val _ v n hdec
        by_cases hcase : n ≤ (ch :: bt).length
        · have hag : ∀ i, i < n →
              (ch :: (bt ++ chunks.flatten))[i]? = (ch :: bt)[i]? := by
            intro i hi
            rw [show ch :: (bt ++ chunks.flatten) =
              (ch :: bt) ++ chunks.flatten from rfl]
            exact (getElem?_append_self (by
              simp only [List.length_cons] at hcase ⊢
              omega)).symm
          have hdec2 : parseStep (2 * (ch :: (bt ++ chunks.flatten)).length + 2)
              PMode.val (ch :: bt) = some (v, n) :=
            parseStep_agree _ PMode.val _ _ v n hdec hag
              (fun _ lex hlex _ _ => by
                rw [hlex] at hvnn
                simp [Jv.isNum] at hvnn)
          have hdecb : rawDecodeL (pyLstrip buf) = some (v, n) := by
            rw [hbdec]
            exact rawDecodeL_of_parseStep hdec2
          rw [streamRun_yield f buf chunks ch v n (by rw [hbdec]; rfl) hne1 hne2 hdecb]
          have hdrop : (ch :: (bt ++ chunks.flatten)).drop n =
              (ch :: bt).drop n ++ chunks.flatten := by
            rw [show ch :: (bt ++ chunks.flatten) =
              (ch :: bt) ++ chunks.flatten from rfl]
            exact List.drop_append_of_le_length hcase
          rw [hdrop] at hlt
          rw [ih ((pyLstrip buf).drop n) chunks vs2 (by rw [hbdec]; exact hlt) hne
            (fun w hw => hnn w (by simp [hw])) (by
              rw [hbdec]
              simp only [List.length_append, List.length_drop, List.length_cons] at hf ⊢
              omega)]
        · push_neg at hcase
          have hbfail : rawDecodeL (pyLstrip buf) = none := by
            rw [hbdec]
            have htake : (ch :: (bt ++ chunks.flatten)).take (ch :: bt).length =
                ch :: bt := by
              rw [show ch :: (bt ++ chunks.flatten) =
                (ch :: bt) ++ chunks.flatten from rfl]
              exact List.take_left (ch :: bt) chunks.flatten
            rcases parseStep_pref _ (2 * (ch :: bt).length + 2) PMode.val _ v n
              (ch :: bt).length hdec hcase with hno | ⟨-, ⟨lex, hlex⟩, -⟩
            · rw [htake] at hno
              exact hno
            · rw [hlex] at hvnn
              simp [Jv.isNum] at hvnn
          cases chunks with
          | nil =>
            exfalso
            obtain ⟨x1, x2⟩ := hb2
            simp only [List.flatten_nil, List.append_nil, List.length_cons] at x2 hcase
            omega
          | cons c0 cs =>
            have hc0ne : c0 ≠ [] := hne c0 (by simp)
            have hc0e : c0.isEmpty = false := by
              cases c0 with
              | nil => exact absurd rfl hc0ne
              | cons a b => rfl
            rw [streamRun_fail_cons_go f buf ch c0 cs (by rw [hbdec]; rfl) hne1 hne2
              hbfail hc0e]
            have hT : LTail (ch :: (bt ++ (c0 :: cs).flatten)) (v :: vs2) :=
              LTail.elem _ v n vs2 hdec hlt
            refine ih (pyLstrip buf ++ c0) cs (v :: vs2) ?_
              (fun ck hck => hne ck (by simp [hck])) hnn ?_
            · rw [hbdec]
              rw [show (ch :: bt ++ c0) ++ cs.flatten =
                ch :: (bt ++ (c0 :: cs).flatten) from by
                  simp [List.flatten_cons, List.append_assoc]]
              exact hT
            · rw [hbdec]
              simp only [List.length_append, List.flatten_cons, List.length_cons] at hf ⊢
              omega

/-! ## From a whole-text array decode to the tail grammar -/

theorem LTail_wsdrop (l : List Char) (vs : List Jv)
    (h : LTail (l.drop (wsCount l)) vs) : LTail l vs := by
  have hsplit : l.take (wsCount l) ++ l.drop (wsCount l) = l := List.take_append_drop _ l
  rw [← hsplit]
  refine LTail_ws_pre _ _ vs ?_ h
  intro x hx
  obtain ⟨i, hi, hxi⟩ := List.mem_iff_getElem.mp hx
  have hi2 : i < wsCount l := by
    rw [List.length_take] at hi
    omega
  obtain ⟨c, hc, hcws⟩ := wsCount_ws l i hi2
  have hx2 : l[i]? = some x := by
    have hq : (l.take (wsCount l))[i]? = some x := by
      rw [List.getElem?_eq_getElem hi, hxi]
    rw [List.getElem?_take, if_pos hi2] at hq
    exact hq
  rw [hc, Option.some.injEq] at hx2
  rw [← hx2]
  exact jsonWs_pyWs hcws

theorem parseStep_val_bracket (f : Nat) (l : List Char) :
    parseStep (f + 1) PMode.val ('[' :: l) =
      match parseStep f PMode.arrFirst l with
      | some (r0, n0) => some (r0, 1 + n0)
      | none => none := by
  simp only [parseStep]
  rw [show ('[' :: l).head? = some '[' from rfl]
  simp only []
  rw [show List.drop 1 ('[' :: l) = l from rfl]
  rw [if_neg (show ¬('[' = '"') by decide), if_neg (show ¬('[' = '{') by decide)]
  exact if_pos trivial

theorem parse_arr_ltail (f : Nat) : ∀ (l : List Char) (vs : List Jv) (n : Nat),
    (parseStep f PMode.arrFirst l = some (Jv.arr vs, n) → LTail l vs) ∧
    (parseStep f PMode.arrAfter l = some (Jv.arr vs, n) → LTail l vs) := by
  induction f with
  | zero =>
    intro l vs n
    exact ⟨fun h => absurd h (fun hc => Option.noConfusion hc),
           fun h => absurd h (fun hc => Option.noConfusion hc)⟩
  | succ F ih =>
    intro l vs n
    constructor
    · intro h
      rcases hhd : (l.drop (wsCount l)).head? with _ | c
      · have hdl : l.drop (wsCount l) = [] := List.head?_eq_none_iff.mp hhd
        rw [arrFirst_go F l (head?_none_ne hhd ']'), hdl, parseStep_val_nil F] at h
        exact absurd h (fun hcc => Option.noConfusion hcc)
      · by_cases hcr : c = ']'
        · subst hcr
          rw [arrFirst_close F l hhd] at h
          rw [Option.some.injEq, Prod.mk.injEq] at h
          have hvs : vs = [] := by
            have h2 := h.1
            injection h2 with h3
            exact h3.symm
          subst hvs
          refine LTail_wsdrop l [] ?_
          obtain ⟨t2, ht2⟩ : ∃ t2, l.drop (wsCount l) = ']' :: t2 := by
            cases hx : l.drop (wsCount l) with
            | nil => rw [hx] at hhd; exact absurd hhd (by simp)
            | cons a b =>
              rw [hx, List.head?_cons, Option.some.injEq] at hhd
              exact ⟨b, by rw [hhd]⟩
          rw [ht2]
          exact LTail.close t2
        · rw [arrFirst_go F l (head?_some_ne hhd hcr)] at h
          split at h
          · rename_i v n1 hval
            split at h
            · rename_i vs2 n2 harr
              rw [Option.some.injEq, Prod.mk.injEq] at h
              have hvs : vs = v :: vs2 := by
                have h2 := h.1
                injection h2 with h3
                exact h3.symm
              subst hvs
              refine LTail_wsdrop l (v :: vs2) ?_
              refine LTail.elem _ v n1 vs2 (rawDecodeL_of_parseStep hval) ?_
              rw [List.drop_drop]
              exact (ih (l.drop (wsCount l + n1)) vs2 n2).2 harr
            all_goals exact absurd h (fun hcc => Option.noConfusion hcc)
          · exact absurd h (fun hcc => Option.noConfusion hcc)
    · intro h
      rcases hhd : (l.drop (wsCount l)).head? with _ | c
      · rw [arrAfter_other F l (head?_none_ne hhd ']') (head?_none_ne hhd ',')] at h
        exact absurd h (fun hcc => Option.noConfusion hcc)
      by_cases hcr : c = ']'
      · subst hcr
        rw [arrAfter_close F l hhd] at h
        rw [Option.some.injEq, Prod.mk.injEq] at h
        have hvs : vs = [] := by
          have h2 := h.1
          injection h2 with h3
          exact h3.symm
        subst hvs
        refine LTail_wsdrop l [] ?_
        obtain ⟨t2, ht2⟩ : ∃ t2, l.drop (wsCount l) = ']' :: t2 := by
          cases hx : l.drop (wsCount l) with
          | nil => rw [hx] at hhd; exact absurd hhd (by simp)
          | cons a b =>
            rw [hx, List.head?_cons, Option.some.injEq] at hhd
            exact ⟨b, by rw [hhd]⟩
        rw [ht2]
        exact LTail.close t2
      by_cases hcm : c = ','
      · subst hcm
        rw [arrAfter_comma F l hhd] at h
        split at h
        · rename_i v n1 hval
          split at h
          · rename_i vs2 n2 harr
            rw [Option.some.injEq, Prod.mk.injEq] at h
            have hvs : vs = v :: vs2 := by
              have h2 := h.1
              injection h2 with h3
              exact h3.symm
            subst hvs
            refine LTail_wsdrop l (v :: vs2) ?_
            obtain ⟨t2, ht2⟩ : ∃ t2, l.drop (wsCount l) = ',' :: t2 := by
              cases hx : l.drop (wsCount l) with
              | nil => rw [hx] at hhd; exact absurd hhd (by simp)
              | cons a b =>
                rw [hx, List.head?_cons, Option.some.injEq] at hhd
                exact ⟨b, by rw [hhd]⟩
            rw [ht2]
            refine LTail.comma _ _ ?_
            have ht3 : t2 = l.drop (wsCount l + 1) := by
              have h4 := congrArg (List.drop 1) ht2
              rw [List.drop_drop] at h4
              simpa using h4.symm
            rw [ht3]
            refine LTail_wsdrop (l.drop (wsCount l + 1)) (v :: vs2) ?_
            rw [List.drop_drop]
            refine LTail.elem _ v n1 vs2 (rawDecodeL_of_parseStep hval) ?_
            rw [List.drop_drop]
            exact (ih _ vs2 n2).2 harr
          all_goals exact absurd h (fun hcc => Option.noConfusion hcc)
        · exact absurd h (fun hcc => Option.noConfusion hcc)
      · rw [arrAfter_other F l (head?_some_ne hhd hcr) (head?_some_ne hhd hcm)] at h
        exact absurd h (fun hcc => Option.noConfusion hcc)

theorem whole_to_ltail (T : List Char) (vs : List Jv)
    (h : decodeWholeList ('[' :: T) = some vs) : LTail T vs := by
  rcases hj : jsonLoads ('[' :: T) with _ | v
  · unfold decodeWholeList at h
    rw [hj] at h
    exact absurd h (fun hc => Option.noConfusion hc)
  unfold decodeWholeList at h
  rw [hj] at h
  cases v with
  | arr vs2 =>
    simp only [] at h
    rw [Option.some.injEq] at h
    subst h
    have hws : wsCount ('[' :: T) = 0 :=
      wsCount_zero_of_head (t := '[' :: T) rfl (by decide)
    unfold jsonLoads at hj
    rw [hws, List.drop_zero] at hj
    simp only [] at hj
    rcases hr : rawDecodeL ('[' :: T) with _ | ⟨v2, n⟩
    · rw [hr] at hj
      exact absurd hj (fun hc => Option.noConfusion hc)
    rw [hr] at hj
    simp only [] at hj
    split_ifs at hj with hall
    · rw [Option.some.injEq] at hj
      subst hj
      have hr0 : parseStep (2 * ('[' :: T).length + 2) PMode.val ('[' :: T) =
          some (Jv.arr vs2, n) := hr
      have hr2 : parseStep ((2 * T.length + 3) + 1) PMode.val ('[' :: T) =
          some (Jv.arr vs2, n) :=
        parseStep_mono _ _ PMode.val _ _ _ (by simp; omega) hr0
      rw [parseStep_val_bracket (2 * T.length + 3) T] at hr2
      rcases hq : parseStep (2 * T.length + 3) PMode.arrFirst T with _ | ⟨r0, n0⟩
      · rw [hq] at hr2
        exact absurd hr2 (fun hc => Option.noConfusion hc)
      · rw [hq] at hr2
        simp only [] at hr2
        rw [Option.some.injEq, Prod.mk.injEq] at hr2
        rw [hr2.1] at hq
        exact (parse_arr_ltail (2 * T.length + 3) T vs2 n0).1 hq
  | null => exact absurd h (fun hc => Option.noConfusion hc)
  | bool b => exact absurd h (fun hc => Option.noConfusion hc)
  | num lexeme => exact absurd h (fun hc => Option.noConfusion hc)
  | str s2 => exact absurd h (fun hc => Option.noConfusion hc)
  | obj pairs => exact absurd h (fun hc => Option.noConfusion hc)

/-- C2 counterexample: the well-formed array `[123]` split into the reads
`12` / `3]` makes the stream yield the two values 12 and 3 — `raw_decode`
happily matches the number regex against the end of the incomplete buffer —
while decoding the whole text at once yields the single value 123. -/
theorem stream_chunked_counterexample :
    streamChunks [['1', '2'], ['3', ']']] =
      ([Jv.num "12", Jv.num "3"], Outcome.closed) ∧
    decodeWholeList ('[' :: "123]".toList) = some [Jv.num "123"] :=
  ⟨by rfl, by rfl⟩

/-- C2 (amended): for a well-formed JSON array none of whose top-level values
is a number, every way of splitting the post-bracket text into (non-empty)
read chunks makes the streaming loop yield exactly the same value sequence as
decoding the whole text at once, closing at the bracket.  (Top-level numbers
break the equivalence: a number ending at a chunk boundary is yielded
truncated, as the counterexample shows.) -/
theorem stream_chunked_refines (T : List Char) (vs : List Jv)
    (chunks : List (List Char))
    (hw : decodeWholeList ('[' :: T) = some vs)
    (hj : chunks.flatten = T) (hne : ∀ ck ∈ chunks, ck ≠ [])
    (hnum : ∀ v ∈ vs, v.isNum = false) :
    streamChunks chunks = (vs, Outcome.closed) := by
  have hlt : LTail T vs := whole_to_ltail T vs hw
  unfold streamChunks
  refine streamRun_multi _ [] chunks vs ?_ hne hnum ?_
  · rw [List.nil_append, hj]
    exact hlt
  · rw [List.nil_append, hj]
    have hlen : totalLen chunks = T.length := by
      rw [← hj]
      unfold totalLen
      rw [List.length_flatten]
    omega

theorem stream_chunked_refines_witness :
    streamChunks [['"'], ['a'], ['"'], [','], ['t'], ['r'], ['u'], ['e'], [']']] =
      ([Jv.str "a", Jv.bool true], Outcome.closed) :=
  stream_chunked_refines ("\"a\",true]".toList) [Jv.str "a", Jv.bool true]
    [['"'], ['a'], ['"'], [','], ['t'], ['r'], ['u'], ['e'], [']']]
    (by rfl) (by rfl) (by decide) (by decide)
